import Mathlib

/-!
# dynamic-heap-c : a shallow embedding of `custom_sbrk.c` and `custom_malloc.c`

The target is an LP64 little-endian machine: `sizeof(void *) = 8`,
`sizeof(unsigned int) = 4`, `sizeof(bool) = 1` and

    typedef struct mem_chunk { bool free; uint size; struct mem_chunk *next; } MEM_CHUNK;

has `free` at offset 0, `size` at offset 4, `next` at offset 8 and
`sizeof(MEM_CHUNK) = 16`.  Pointers are natural numbers below `2 ^ 64`, memory is a
map from byte addresses to bytes, and the only object the allocator may touch is the
static array `heap_mem` of `custom_sbrk.c`.  Dereferencing a `MEM_CHUNK *` that does
not lie inside that array (the null pointer and `(void *)-1` in particular) is
reported as `Err.invalid_access`.  The two `while` loops walk a linked list that lives
in memory, so they take a fuel argument; running out of fuel is `Err.out_of_fuel`.
-/

namespace DynHeap

/-! ## Constants -/

/-- The macro `SBRK_HEAP_SIZE` of `custom_sbrk.h`. -/
abbrev SBRK_HEAP_SIZE : Nat := 4096

/-- The value of `sizeof(void *)`. -/
abbrev PTR_SIZE : Nat := 8

/-- The macro `META_DATA_SIZE_BYTES`, that is `sizeof(MEM_CHUNK)`. -/
abbrev META_DATA_SIZE_BYTES : Nat := 16

/-- Pointers and `size_t` values are taken modulo `2 ^ 64`. -/
abbrev PTR_MOD : Nat := 2 ^ 64

/-- Values of type `uint` are taken modulo `2 ^ 32`. -/
abbrev UINT_MOD : Nat := 2 ^ 32

/-- The null pointer. -/
abbrev NULL : Nat := 0

/-- The pointer `(void *)-1` returned by `custom_sbrk` on exhaustion. -/
abbrev SBRK_FAILED : Nat := 2 ^ 64 - 1

/-- Size in bytes of `static char *heap_mem[SBRK_HEAP_SIZE]`: an array of
`SBRK_HEAP_SIZE` pointers. -/
abbrev HEAP_MEM_BYTES : Nat := SBRK_HEAP_SIZE * PTR_SIZE

/-! ## Byte-addressed memory -/

/-- Memory: the byte stored at each address. -/
abbrev Mem := Nat → Nat

/-- Read one byte. -/
def load8 (m : Mem) (a : Nat) : Nat := m a % 256

/-- Write one byte. -/
def store8 (m : Mem) (a v : Nat) : Mem := fun x => if x = a then v % 256 else m x

/-- Read an `n`-byte little-endian unsigned value. -/
def loadLE (m : Mem) : Nat → Nat → Nat
  | _, 0 => 0
  | a, n + 1 => load8 m a + 256 * loadLE m (a + 1) n

/-- Write the low `n` bytes of `v`, little-endian. -/
def storeLE (m : Mem) : Nat → Nat → Nat → Mem
  | _, 0, _ => m
  | a, n + 1, v => storeLE (store8 m a v) (a + 1) n (v / 256)

/-! ## Program state -/

/-- The globals of the two translation units, and memory.  `heap_mem` is the address
of the static array, `current_ptr` and `end_ptr` are the globals of `custom_sbrk.c`,
`heap_head` is the global of `custom_malloc.c`. -/
structure State where
  heap_mem : Nat
  current_ptr : Nat
  end_ptr : Nat
  heap_head : Nat
  mem : Mem

/-- The ways a run of the model can stop without a result. -/
inductive Err where
  | invalid_access (addr : Nat)
  | out_of_fuel
  deriving DecidableEq

/-- The state at program start: `current_ptr = heap_mem`,
`end_ptr = heap_mem + SBRK_HEAP_SIZE` (pointer arithmetic on `char **`, so the
offset is scaled by `sizeof(char *)`), `heap_head = NULL`, and the static array is
zero-initialised. -/
def initial_state (heap_mem : Nat) : State :=
  { heap_mem := heap_mem
    current_ptr := heap_mem
    end_ptr := heap_mem + SBRK_HEAP_SIZE * PTR_SIZE
    heap_head := NULL
    mem := fun _ => 0 }

/-- A `MEM_CHUNK *` may be dereferenced when the whole struct lies inside `heap_mem`. -/
def valid_chunk (s : State) (c : Nat) : Bool :=
  decide (s.heap_mem ≤ c) && decide (c + META_DATA_SIZE_BYTES ≤ s.heap_mem + HEAP_MEM_BYTES)

/-- Read `c->free`. -/
def get_free (s : State) (c : Nat) : Except Err Nat :=
  if valid_chunk s c then .ok (load8 s.mem c) else .error (.invalid_access c)

/-- Read `c->size`. -/
def get_size (s : State) (c : Nat) : Except Err Nat :=
  if valid_chunk s c then .ok (loadLE s.mem (c + 4) 4) else .error (.invalid_access c)

/-- Read `c->next`. -/
def get_next (s : State) (c : Nat) : Except Err Nat :=
  if valid_chunk s c then .ok (loadLE s.mem (c + 8) 8) else .error (.invalid_access c)

/-- Write `c->free = v`. -/
def set_free (s : State) (c v : Nat) : Except Err State :=
  if valid_chunk s c then .ok { s with mem := store8 s.mem c v }
  else .error (.invalid_access c)

/-- Write `c->size = v` (a `uint`: the low four bytes of `v`). -/
def set_size (s : State) (c v : Nat) : Except Err State :=
  if valid_chunk s c then .ok { s with mem := storeLE s.mem (c + 4) 4 v }
  else .error (.invalid_access c)

/-- Write `c->next = v`. -/
def set_next (s : State) (c v : Nat) : Except Err State :=
  if valid_chunk s c then .ok { s with mem := storeLE s.mem (c + 8) 8 v }
  else .error (.invalid_access c)

/-- The pointer `c + META_DATA_SIZE_BYTES` for `c : MEM_CHUNK *`: pointer arithmetic
on a struct pointer scales the offset by `sizeof(MEM_CHUNK)`. -/
def payload (c : Nat) : Nat :=
  (c + META_DATA_SIZE_BYTES * META_DATA_SIZE_BYTES) % PTR_MOD

/-! ## custom_sbrk.c -/

/-- The function `custom_sbrk(intptr_t increments)`: returns the result pointer and the
new state. -/
def custom_sbrk (increments : Int) (s : State) : Nat × State :=
  let prev_ptr := s.current_ptr
  let current_ptr := (((prev_ptr : Int) + increments) % (PTR_MOD : Int)).toNat
  if current_ptr > s.end_ptr then
    (SBRK_FAILED, { s with current_ptr := prev_ptr })
  else
    (prev_ptr, { s with current_ptr := current_ptr })

/-! ## custom_malloc.c -/

/-- The function `custom_memory_init`. -/
def custom_memory_init (s : State) : Except Err (Bool × State) :=
  let r := custom_sbrk SBRK_HEAP_SIZE s
  let s0 : State := { r.2 with heap_head := r.1 }
  if s0.heap_head = SBRK_FAILED then .ok (false, s0)
  else do
    let s1 ← set_size s0 s0.heap_head (SBRK_HEAP_SIZE - META_DATA_SIZE_BYTES)
    let s2 ← set_free s1 s1.heap_head 1
    let s3 ← set_next s2 s2.heap_head NULL
    pure (true, s3)

/-- Conversion of a `uint` to `int` (two's complement). -/
def uint_to_int (u : Nat) : Int :=
  if u < 2 ^ 31 then (u : Int) else (u : Int) - (UINT_MOD : Int)

/-- Conversion of an `int` to `size_t`. -/
def int_to_size_t (i : Int) : Nat := (i % (PTR_MOD : Int)).toNat

/-- Conversion of an `int` to `uint`. -/
def int_to_uint (i : Int) : Nat := (i % (UINT_MOD : Int)).toNat

/-- The function `split(int size, MEM_CHUNK *chunk)`. -/
def split (size : Int) (chunk : Nat) (s : State) : Except Err (Bool × State) := do
  let csize ← get_size s chunk
  if csize ≥ (int_to_size_t size + META_DATA_SIZE_BYTES) % PTR_MOD then
    let new_chunk := int_to_size_t ((chunk : Int) + size + (META_DATA_SIZE_BYTES : Int))
    let s1 ← set_size s new_chunk
      (((int_to_uint ((csize : Int) - size) + PTR_MOD - META_DATA_SIZE_BYTES) % PTR_MOD)
        % UINT_MOD)
    let s2 ← set_free s1 new_chunk 1
    let nx ← get_next s2 chunk
    let s3 ← set_next s2 new_chunk nx
    let s4 ← set_next s3 chunk new_chunk
    let s5 ← set_free s4 chunk 0
    let s6 ← set_size s5 chunk (int_to_uint size)
    pure (true, s6)
  else
    pure (false, s)

/-- The macro `CUSTOM_ALIGN(size)` on a `size_t`, then the conversion to the
`uint requested_size`. -/
def CUSTOM_ALIGN (size : Nat) : Nat :=
  let t := (size + PTR_SIZE - 1) % PTR_MOD
  (t - t % PTR_SIZE) % UINT_MOD

/-- One iteration of the `while` loop of `custom_malloc` up to, and not including,
`cur_chunk = cur_chunk->next`.  The result is `some p` when the body returns `p`. -/
def malloc_visit (requested_size cur_chunk : Nat) (s : State) :
    Except Err (Option Nat × State) := do
  let fr ← get_free s cur_chunk
  if fr = 1 then
    let sz ← get_size s cur_chunk
    if (sz + META_DATA_SIZE_BYTES) = (requested_size + META_DATA_SIZE_BYTES) then
      let s1 ← set_free s cur_chunk 0
      pure (some (payload cur_chunk), s1)
    else
      let r ← split (uint_to_int requested_size) cur_chunk s
      if r.1 then
        pure (some (payload cur_chunk), r.2)
      else
        let s1 := r.2
        let nx ← get_next s1 cur_chunk
        let nfr ← get_free s1 nx
        if nfr = 1 then
          let csz ← get_size s1 cur_chunk
          let nx1 ← get_next s1 cur_chunk
          let nsz ← get_size s1 nx1
          let s2 ← set_size s1 cur_chunk ((csz + nsz) % UINT_MOD)
          let nx2 ← get_next s2 cur_chunk
          let nn ← get_next s2 nx2
          let s3 ← set_next s2 cur_chunk nn
          let s4 ← set_free s3 cur_chunk 1
          let msz ← get_size s4 cur_chunk
          if msz = requested_size then
            let s5 ← set_free s4 cur_chunk 0
            pure (some (payload cur_chunk), s5)
          else
            pure (none, s4)
        else
          pure (none, s1)
  else
    pure (none, s)

/-- The `while (cur_chunk != NULL)` loop of `custom_malloc`. -/
def malloc_loop (requested_size : Nat) : Nat → Nat → State → Except Err (Nat × State)
  | 0, _, _ => .error .out_of_fuel
  | fuel + 1, cur_chunk, s =>
    if cur_chunk = NULL then .ok (NULL, s)
    else
      match malloc_visit requested_size cur_chunk s with
      | .error e => .error e
      | .ok (some p, s1) => .ok (p, s1)
      | .ok (none, s1) =>
        match get_next s1 cur_chunk with
        | .error e => .error e
        | .ok nx => malloc_loop requested_size fuel nx s1

/-- The function `custom_malloc(size_t size)`: the returned pointer (`NULL` on failure)
and the new state. -/
def custom_malloc (fuel : Nat) (size : Nat) (s : State) : Except Err (Nat × State) :=
  if s.heap_head = NULL then
    match custom_memory_init s with
    | .error e => .error e
    | .ok (false, s1) => .ok (NULL, s1)
    | .ok (true, s1) => malloc_loop (CUSTOM_ALIGN size) fuel s1.heap_head s1
  else
    malloc_loop (CUSTOM_ALIGN size) fuel s.heap_head s

/-- The `while (find_chunk != NULL)` loop of `custom_free`.  The boolean tells which
message is printed: `true` for "Found", `false` for "Chunk not found". -/
def free_loop (ptr : Nat) : Nat → Nat → State → Except Err (Bool × State)
  | 0, _, _ => .error .out_of_fuel
  | fuel + 1, find_chunk, s =>
    if find_chunk = NULL then .ok (false, s)
    else if ptr = payload find_chunk then
      match set_free s find_chunk 1 with
      | .error e => .error e
      | .ok s1 => .ok (true, s1)
    else
      match get_next s find_chunk with
      | .error e => .error e
      | .ok nx => free_loop ptr fuel nx s

/-- The function `custom_free(void *ptr)`. -/
def custom_free (fuel : Nat) (ptr : Nat) (s : State) : Except Err (Bool × State) :=
  free_loop ptr fuel s.heap_head s

/-- One line printed by `display`. -/
structure DisplayLine where
  address : Nat
  size : Nat
  free : Nat
  next : Nat
  deriving DecidableEq

/-- The `while` loop of `display`: the lines printed, in order. -/
def display_loop : Nat → Nat → State → Except Err (List DisplayLine)
  | 0, _, _ => .error .out_of_fuel
  | fuel + 1, c, s =>
    if c = NULL then .ok []
    else do
      let sz ← get_size s c
      let fr ← get_free s c
      let nx ← get_next s c
      let rest ← display_loop fuel nx s
      pure ({ address := payload c, size := sz, free := fr, next := nx } :: rest)

/-- The function `display`. -/
def display (fuel : Nat) (s : State) : Except Err (List DisplayLine) :=
  display_loop fuel s.heap_head s


/-! ## Running the operations in sequence -/

/-- The state an operation leaves behind, or `d` when it stops without a result. -/
def state_after {α : Type} (r : Except Err (α × State)) (d : State) : State :=
  match r with
  | .ok (_, s) => s
  | .error _ => d

/-- The state after the calls `custom_sbrk(a₁)`, `custom_sbrk(a₂)`, ... in this order. -/
def sbrk_calls : List Int → State → State
  | [], s => s
  | a :: l, s => sbrk_calls l (custom_sbrk a s).2

/-- A call of one of the two public operations. -/
inductive Call where
  | malloc (size : Nat)
  | free (ptr : Nat)

/-- The state after one call. -/
def run_call (fuel : Nat) : Call → State → Except Err State
  | .malloc size, s => (custom_malloc fuel size s).map Prod.snd
  | .free ptr, s => (custom_free fuel ptr s).map Prod.snd

/-- The state after a sequence of calls. -/
def run_calls (fuel : Nat) : List Call → State → Except Err State
  | [], s => .ok s
  | c :: l, s =>
    match run_call fuel c s with
    | .error e => .error e
    | .ok t => run_calls fuel l t

/-- The state a run ends in, or `d` when it stops without a result. -/
def final_state (r : Except Err State) (d : State) : State :=
  match r with
  | .ok s => s
  | .error _ => d

/-- The error a run stopped with, if it did. -/
def fault_of {α : Type} (r : Except Err α) : Option Err :=
  match r with
  | .ok _ => none
  | .error e => some e

/-- The value one call hands back: the pointer returned by `custom_malloc`, and for
`custom_free` 1 when the chunk was found and 0 otherwise. -/
def call_result (fuel : Nat) : Call → State → Except Err (Nat × State)
  | .malloc size, s => custom_malloc fuel size s
  | .free ptr, s => (custom_free fuel ptr s).map (fun r => (if r.1 then 1 else 0, r.2))

/-- The values handed back by a sequence of calls, in order, and the final state. -/
def run_trace (fuel : Nat) : List Call → State → Except Err (List Nat × State)
  | [], s => .ok ([], s)
  | c :: l, s =>
    match call_result fuel c s with
    | .error e => .error e
    | .ok (v, t) =>
      match run_trace fuel l t with
      | .error e => .error e
      | .ok (vs, u) => .ok (v :: vs, u)
/-! ## Reading a state as a list of chunks -/

/-- The value of `c->free` in memory. -/
def free_of (s : State) (c : Nat) : Nat := load8 s.mem c

/-- The value of `c->size` in memory. -/
def size_of (s : State) (c : Nat) : Nat := loadLE s.mem (c + 4) 4

/-- The value of `c->next` in memory. -/
def next_of (s : State) (c : Nat) : Nat := loadLE s.mem (c + 8) 8

/-- Following `next` from the pointer `a` visits exactly the chunk headers `l`, each a
non-null pointer into `heap_mem`, and then reaches `NULL`. -/
def IsChain (s : State) : Nat → List Nat → Prop
  | a, [] => a = NULL
  | a, c :: l => a = c ∧ c ≠ NULL ∧ valid_chunk s c = true ∧ IsChain s (next_of s c) l

instance IsChain.decide (s : State) : (a : Nat) → (l : List Nat) → Decidable (IsChain s a l)
  | a, [] => inferInstanceAs (Decidable (a = NULL))
  | a, c :: l =>
    have := IsChain.decide s (next_of s c) l
    inferInstanceAs
      (Decidable (a = c ∧ c ≠ NULL ∧ valid_chunk s c = true ∧ IsChain s (next_of s c) l))

/-- The chunks of `l` lie in increasing address order, the span (header and `size`
payload bytes) of each one ends at or before the header of the next one, and the span
of the last one ends inside `heap_mem`. -/
def Spaced (s : State) : List Nat → Prop
  | [] => True
  | [c] => c + META_DATA_SIZE_BYTES + size_of s c ≤ s.heap_mem + HEAP_MEM_BYTES
  | c :: d :: l => c + META_DATA_SIZE_BYTES + size_of s c ≤ d ∧ Spaced s (d :: l)

instance Spaced.decide (s : State) : (l : List Nat) → Decidable (Spaced s l)
  | [] => inferInstanceAs (Decidable True)
  | [c] => inferInstanceAs
      (Decidable (c + META_DATA_SIZE_BYTES + size_of s c ≤ s.heap_mem + HEAP_MEM_BYTES))
  | c :: d :: l =>
    have := Spaced.decide s (d :: l)
    inferInstanceAs
      (Decidable (c + META_DATA_SIZE_BYTES + size_of s c ≤ d ∧ Spaced s (d :: l)))

/-- A well-formed allocator state with chunk list `l`: the list starting at `heap_head`
is `l`, its chunks are laid out in address order without overlap inside `heap_mem`, and
`heap_mem` does not wrap around the address space. -/
structure WellFormed (s : State) (l : List Nat) : Prop where
  chain : IsChain s s.heap_head l
  spaced : Spaced s l
  bound : s.heap_mem + HEAP_MEM_BYTES ≤ PTR_MOD

/-- Following `next` from the pointer `a` visits exactly the chunk headers `l`, each a
non-null pointer into `heap_mem`, and then reaches the pointer `b`. -/
def IsSeg (s : State) : Nat → List Nat → Nat → Prop
  | a, [], b => a = b
  | a, c :: l, b => a = c ∧ c ≠ NULL ∧ valid_chunk s c = true ∧ IsSeg s (next_of s c) l b

/-- The states `s` and `t` have the same `heap_mem` and the same memory contents at
every address that does not satisfy `touched`. -/
def SameOutside (s t : State) (touched : Nat → Prop) : Prop :=
  t.heap_mem = s.heap_mem ∧ ∀ x, ¬ touched x → t.mem x = s.mem x

/-- No byte of the header at `d` satisfies `touched`. -/
def Untouched (touched : Nat → Prop) (d : Nat) : Prop :=
  ∀ x, d ≤ x → x < d + META_DATA_SIZE_BYTES → ¬ touched x

/-- Memory after the six stores of a successful `split(req, c)` that does not wrap:
the header of the new chunk at `c + req + 16` is written first, then the header of `c`. -/
def split_mem (m : Mem) (c req : Nat) : Mem :=
  storeLE (store8 (storeLE (storeLE (store8
    (storeLE m (c + req + 16 + 4) 4 (loadLE m (c + 4) 4 - req - 16))
      (c + req + 16) 1) (c + req + 16 + 8) 8 (loadLE m (c + 8) 8)) (c + 8) 8 (c + req + 16))
        c 0) (c + 4) 4 req

/-- The walk of `custom_malloc` for the aligned size `req` passes the chunk `d` without
writing to memory: `d` is allocated, or `d` is free, is neither an exact fit nor large
enough to split, and has a successor chunk that is not free (so nothing is merged). -/
def Passes (s : State) (req d : Nat) : Prop :=
  free_of s d ≠ 1 ∨
    (size_of s d ≠ req ∧ size_of s d < req + META_DATA_SIZE_BYTES ∧
      valid_chunk s (next_of s d) = true ∧ free_of s (next_of s d) ≠ 1)

instance Passes.decide (s : State) (req d : Nat) : Decidable (Passes s req d) :=
  inferInstanceAs (Decidable (_ ∨ _))

/-- Memory after the three stores of the merge branch of `custom_malloc` at the chunk
`c`: `c->size += c->next->size`, `c->next = c->next->next`, `c->free = 1`. -/
def merge_mem (m : Mem) (c : Nat) : Mem :=
  store8
    (storeLE
      (storeLE m (c + 4) 4
        ((loadLE m (c + 4) 4 + loadLE m (loadLE m (c + 8) 8 + 4) 4) % UINT_MOD))
      (c + 8) 8 (loadLE m (loadLE m (c + 8) 8 + 8) 8))
    c 1

/-- Memory after the three stores of a successful `custom_memory_init` with the slab at
`b`: size `SBRK_HEAP_SIZE - META_DATA_SIZE_BYTES`, flag 1, null link. -/
def init_mem (m : Mem) (b : Nat) : Mem :=
  storeLE (store8 (storeLE m (b + 4) 4 (SBRK_HEAP_SIZE - META_DATA_SIZE_BYTES)) b 1) (b + 8) 8 NULL

/-- The invariant of the allocator: `heap_mem` is a non-null array that does not wrap
around the address space, the chunk list is well-formed, and as long as `heap_head` is
`NULL` the reservoir is still untouched. -/
structure Inv (s : State) : Prop where
  pos : 0 < s.heap_mem
  wf : ∃ l, WellFormed s l
  fresh : s.heap_head = NULL →
    s.current_ptr = s.heap_mem ∧ s.end_ptr = s.heap_mem + HEAP_MEM_BYTES

/-- A request that `custom_malloc` handles without wrap-around: the aligned size is not
one of the two values `2 ^ 32 - 16` and `2 ^ 32 - 8`, whose conversion to `int` is `-16`
and `-8` and makes `split` write the new header over the header of the chunk itself. -/
def SaneCall : Call → Prop
  | .malloc size => CUSTOM_ALIGN size < 2 ^ 32 - 16
  | .free _ => True

instance SaneCall.decide : (c : Call) → Decidable (SaneCall c)
  | .malloc size => inferInstanceAs (Decidable (CUSTOM_ALIGN size < 2 ^ 32 - 16))
  | .free _ => inferInstanceAs (Decidable True)

/-- The states the allocator reaches from program start, with `heap_mem` at a non-null
address `base`, by calls of `custom_malloc` and `custom_free` that return. -/
def Reachable (s : State) : Prop :=
  ∃ (base fuel : Nat) (calls : List Call),
    0 < base ∧ base + HEAP_MEM_BYTES ≤ PTR_MOD ∧ (∀ c ∈ calls, SaneCall c) ∧
      run_calls fuel calls (initial_state base) = .ok s

/-- The test `chunk->size >= (size + META_DATA_SIZE_BYTES)` of `split` as `custom_malloc`
calls it, with the `uint` aligned size `req` converted to `int` and then to `size_t`. -/
def SplitTest (s : State) (req c : Nat) : Prop :=
  size_of s c ≥ (int_to_size_t (uint_to_int req) + META_DATA_SIZE_BYTES) % PTR_MOD

instance SplitTest.decide (s : State) (req c : Nat) : Decidable (SplitTest s req c) :=
  inferInstanceAs (Decidable (_ ≥ _))

/-! ## States used in examples -/

/-- The state after `custom_malloc(8)` on the initial state with `heap_mem` at 65536:
an allocated chunk of size 8 at 65536 followed by the free remainder at 65560. -/
def demo_state : State :=
  state_after (custom_malloc 4 8 (initial_state 65536)) (initial_state 65536)

/-- The chunk `c` could satisfy a request of aligned size `req` on its own: it is free
and its usable size equals `req` or is at least `req + META_DATA_SIZE_BYTES`. -/
def Satisfies (s : State) (req c : Nat) : Prop :=
  free_of s c = 1 ∧ (size_of s c = req ∨ req + META_DATA_SIZE_BYTES ≤ size_of s c)

instance Satisfies.decide (s : State) (req c : Nat) : Decidable (Satisfies s req c) :=
  inferInstanceAs (Decidable (_ ∧ _))

/-- The walk of `custom_malloc` for the aligned size `req`, started at the first chunk
of `l`, arrives at the chunk `c` that follows `l`, when no chunk of `l` satisfies the
request.  A free chunk `d` of `l` whose successor `e` is free is merged with it and the
walk resumes after `e`; this must not absorb `c`, and the merged chunk must not be of
exactly the size `req`, whether its size is counted as the sum of the two size fields or
as that sum plus the header between them.  Every other chunk of `l` is passed. -/
def WalkArrives (s : State) (req c : Nat) : List Nat → Prop
  | [] => True
  | [d] => ¬ (free_of s d = 1 ∧ free_of s c = 1)
  | d :: e :: l =>
    if free_of s d = 1 ∧ free_of s e = 1 then
      size_of s d + size_of s e ≠ req ∧
        size_of s d + META_DATA_SIZE_BYTES + size_of s e ≠ req ∧ WalkArrives s req c l
    else WalkArrives s req c (e :: l)

instance WalkArrives.decide (s : State) (req c : Nat) :
    (l : List Nat) → Decidable (WalkArrives s req c l)
  | [] => inferInstanceAs (Decidable True)
  | [d] => inferInstanceAs (Decidable (¬ (free_of s d = 1 ∧ free_of s c = 1)))
  | d :: e :: l =>
    have := WalkArrives.decide s req c l
    have := WalkArrives.decide s req c (e :: l)
    inferInstanceAs
      (Decidable (if free_of s d = 1 ∧ free_of s e = 1 then
        size_of s d + size_of s e ≠ req ∧
          size_of s d + META_DATA_SIZE_BYTES + size_of s e ≠ req ∧ WalkArrives s req c l
      else WalkArrives s req c (e :: l)))

/-- The state after allocating 8, 40 and 8 bytes and releasing the first two chunks:
free chunks of sizes 8 and 40 at 65536 and 65560, an allocated chunk at 65616 and the
free remainder at 65640. -/
def absorbed_state : State :=
  final_state
    (run_calls 8 [.malloc 8, .malloc 40, .malloc 8, .free 65792, .free 65816]
      (initial_state 65536))
    (initial_state 65536)

/-- The state after allocating 8, 8, 8, 104 and 8 bytes and releasing the first, the
second and the fourth chunk: free chunks of size 8 at 65536 and 65560, an allocated chunk
at 65584, a free chunk of size 104 at 65608, an allocated chunk at 65728 and the free
remainder at 65752. -/
def late_fit_state : State :=
  final_state
    (run_calls 8
      [.malloc 8, .malloc 8, .malloc 8, .malloc 104, .malloc 8, .free 65792, .free 65816,
        .free 65864]
      (initial_state 65536))
    (initial_state 65536)

/-- The state after allocating 8, 8, 16, 16 and 8 bytes and releasing the first four:
free chunks of sizes 8, 8, 16, 16 at 65536, 65560, 65584, 65616, an allocated chunk at
65648 and the free remainder at 65672. -/
def tie_state : State :=
  final_state
    (run_calls 8
      [.malloc 8, .malloc 8, .malloc 16, .malloc 16, .malloc 8,
        .free 65792, .free 65816, .free 65840, .free 65872]
      (initial_state 65536))
    (initial_state 65536)

/-- The state after allocating 8, 16, 16 and 8 bytes and releasing the two chunks of
size 16: an allocated chunk at 65536, free chunks of size 16 at 65560 and 65592, an
allocated chunk at 65624 and the free remainder at 65648. -/
def fit_state : State :=
  final_state
    (run_calls 8
      [.malloc 8, .malloc 16, .malloc 16, .malloc 8, .free 65816, .free 65848]
      (initial_state 65536))
    (initial_state 65536)

/-- The tiling property of the chunk list `l`: the span of every chunk but the last ends
exactly where the header of the next chunk starts. -/
def Tiled (s : State) : List Nat → Prop
  | [] => True
  | [_] => True
  | c :: d :: l => c + META_DATA_SIZE_BYTES + size_of s c = d ∧ Tiled s (d :: l)

instance Tiled.decide (s : State) : (l : List Nat) → Decidable (Tiled s l)
  | [] => inferInstanceAs (Decidable True)
  | [_] => inferInstanceAs (Decidable True)
  | c :: d :: l =>
    have := Tiled.decide s (d :: l)
    inferInstanceAs (Decidable (c + META_DATA_SIZE_BYTES + size_of s c = d ∧ Tiled s (d :: l)))

/-- The calls that lead to `tiling_state`. -/
def tiling_calls : List Call :=
  [.malloc 8, .malloc 8, .malloc 8, .free 65792, .free 65816, .malloc 24]

/-- The state after allocating 8, 8 and 8 bytes, releasing the first two chunks and
allocating 24 bytes: the last call merges the chunks at 65536 and 65560. -/
def tiling_state : State :=
  final_state (run_calls 8 tiling_calls (initial_state 65536)) (initial_state 65536)

/-- The initial state after another client of `custom_sbrk.h` has taken the whole
reservoir with `custom_sbrk(32768)`. -/
def exhausted_state : State :=
  (custom_sbrk 32768 (initial_state 65536)).2

/-- The state after the first `custom_malloc(8)` on `exhausted_state`. -/
def stuck_state : State :=
  state_after (custom_malloc 4 8 exhausted_state) exhausted_state

/-- The size and the flag of each chunk of `l`. -/
def chunk_fields (s : State) (l : List Nat) : List (Nat × Nat) :=
  l.map (fun c => (size_of s c, free_of s c))

/-- The calls of `main.c`, stages 1 and 2. -/
def walk_calls_alloc : List Call :=
  [.malloc 4, .malloc 8, .malloc 16, .malloc 32]

/-- The calls of `main.c`, stage 3: the pointers returned for 4 and 8 bytes are
released. -/
def walk_calls_release : List Call :=
  [.free 65792, .free 65816]

/-- The state of `main.c` after stage 2. -/
def walk_state_alloc : State :=
  final_state (run_calls 8 walk_calls_alloc (initial_state 65536)) (initial_state 65536)

/-- The state of `main.c` after stage 3. -/
def walk_state_release : State :=
  final_state (run_calls 8 walk_calls_release walk_state_alloc) (initial_state 65536)

/-- The state after the first five calls of `tiling_calls`, before the call that
merges. -/
def merge_before_state : State :=
  final_state (run_calls 8 (tiling_calls.take 5) (initial_state 65536)) (initial_state 65536)

/-- The state after `custom_malloc(4294967280)` on the initial state. -/
def loop_state : State :=
  state_after (custom_malloc 4 4294967280 (initial_state 65536)) (initial_state 65536)

/-- The state after `custom_malloc(4294967304)` on the initial state. -/
def truncated_state : State :=
  state_after (custom_malloc 4 4294967304 (initial_state 65536)) (initial_state 65536)

/-- The state after `custom_malloc(4294967296)` on the initial state. -/
def zero_state : State :=
  state_after (custom_malloc 4 4294967296 (initial_state 65536)) (initial_state 65536)

/-- The state after allocating 8 and 8 bytes and releasing the first chunk: a free
chunk at 65536, an allocated chunk at 65560, the free remainder at 65584. -/
def held_state : State :=
  final_state (run_calls 8 [.malloc 8, .malloc 8, .free 65792] (initial_state 65536))
    (initial_state 65536)

/-- The state after `custom_malloc(4294967280)` on `held_state`. -/
def lost_state : State :=
  state_after (custom_malloc 4 4294967280 held_state) held_state

/-- The lines `display` prints for the chunk list `l`: for each chunk its payload
address, its size, its flag and its raw link. -/
def display_lines (s : State) (l : List Nat) : List DisplayLine :=
  l.map (fun c => { address := payload c, size := size_of s c, free := free_of s c,
                    next := next_of s c })

/-- The successor printed on each line equals the address printed on the following line,
and the last line prints the null pointer. -/
def SuccessorsMatch : List DisplayLine → Prop
  | [] => True
  | [e] => e.next = NULL
  | e :: f :: r => e.next = f.address ∧ SuccessorsMatch (f :: r)

instance SuccessorsMatch.decide : (l : List DisplayLine) → Decidable (SuccessorsMatch l)
  | [] => inferInstanceAs (Decidable True)
  | [e] => inferInstanceAs (Decidable (e.next = NULL))
  | e :: f :: r =>
    have := SuccessorsMatch.decide (f :: r)
    inferInstanceAs (Decidable (e.next = f.address ∧ SuccessorsMatch (f :: r)))

/-- The successor printed on each line is the header address of the chunk of the
following line, whose printed address is the payload address of that header; the last
line prints the null pointer. -/
def LinksMatch : List DisplayLine → Prop
  | [] => True
  | [e] => e.next = NULL
  | e :: f :: r => payload e.next = f.address ∧ LinksMatch (f :: r)

/-- The state after allocating 8 bytes and releasing them: a free chunk of size 8 at
65536 followed by the free remainder of 4056 bytes at 65560. -/
def pair_state : State :=
  final_state (run_calls 8 [.malloc 8, .free 65792] (initial_state 65536))
    (initial_state 65536)
/-! ## Memory lemmas -/

theorem store8_apply (m : Mem) (a v x : Nat) :
    store8 m a v x = if x = a then v % 256 else m x := rfl

theorem storeLE_apply_outside (m : Mem) (b k v x : Nat) (h : x < b ∨ b + k ≤ x) :
    storeLE m b k v x = m x := by
  induction k generalizing m b v with
  | zero => rfl
  | succ k ih =>
    simp only [storeLE]
    rw [ih (store8 m b v) (b + 1) (v / 256) (by omega), store8_apply, if_neg (by omega)]

theorem loadLE_congr (m m' : Mem) (a n : Nat)
    (h : ∀ x, a ≤ x → x < a + n → m x = m' x) : loadLE m a n = loadLE m' a n := by
  induction n generalizing a with
  | zero => rfl
  | succ n ih =>
    simp only [loadLE, load8]
    rw [h a (le_refl a) (by omega), ih (a + 1) (fun x h1 h2 => h x (by omega) (by omega))]

theorem loadLE_storeLE_disjoint (m : Mem) (a n b k v : Nat) (h : a + n ≤ b ∨ b + k ≤ a) :
    loadLE (storeLE m b k v) a n = loadLE m a n :=
  loadLE_congr _ _ _ _ (fun x h1 h2 => storeLE_apply_outside m b k v x (by omega))

theorem loadLE_store8_disjoint (m : Mem) (a n b v : Nat) (h : b < a ∨ a + n ≤ b) :
    loadLE (store8 m b v) a n = loadLE m a n :=
  loadLE_congr _ _ _ _ (fun x h1 h2 => by rw [store8_apply, if_neg (by omega)])

theorem load8_storeLE_disjoint (m : Mem) (a b k v : Nat) (h : a < b ∨ b + k ≤ a) :
    load8 (storeLE m b k v) a = load8 m a := by
  simp only [load8, storeLE_apply_outside m b k v a h]

theorem load8_store8_same (m : Mem) (a v : Nat) : load8 (store8 m a v) a = v % 256 := by
  simp [load8, store8]

theorem load8_store8_ne (m : Mem) (a b v : Nat) (h : a ≠ b) :
    load8 (store8 m b v) a = load8 m a := by
  simp [load8, store8, h]

theorem loadLE_storeLE_same (m : Mem) (a n v : Nat) :
    loadLE (storeLE m a n v) a n = v % 256 ^ n := by
  induction n generalizing m a v with
  | zero => simp [loadLE, Nat.mod_one]
  | succ n ih =>
    simp only [loadLE, storeLE]
    rw [ih, load8_storeLE_disjoint _ _ _ _ _ (by omega), load8_store8_same]
    rw [pow_succ, Nat.mul_comm (256 ^ n) 256, Nat.mod_mul]

theorem loadLE_lt (m : Mem) (a n : Nat) : loadLE m a n < 256 ^ n := by
  induction n generalizing a with
  | zero => simp [loadLE]
  | succ n ih =>
    simp only [loadLE, load8, pow_succ]
    have h1 := ih (a + 1)
    have h2 : m a % 256 < 256 := Nat.mod_lt _ (by decide)
    nlinarith

/-! ## Field accessors on valid chunks -/

theorem valid_chunk_iff (s : State) (c : Nat) :
    valid_chunk s c = true ↔ s.heap_mem ≤ c ∧ c + 16 ≤ s.heap_mem + 32768 := by
  simp only [valid_chunk, Bool.and_eq_true, decide_eq_true_eq, META_DATA_SIZE_BYTES,
    HEAP_MEM_BYTES, SBRK_HEAP_SIZE, PTR_SIZE]

theorem get_free_eq (s : State) (c : Nat) (h : valid_chunk s c = true) :
    get_free s c = .ok (free_of s c) := by
  simp [get_free, free_of, h]

theorem get_size_eq (s : State) (c : Nat) (h : valid_chunk s c = true) :
    get_size s c = .ok (size_of s c) := by
  simp [get_size, size_of, h]

theorem get_next_eq (s : State) (c : Nat) (h : valid_chunk s c = true) :
    get_next s c = .ok (next_of s c) := by
  simp [get_next, next_of, h]

theorem size_of_lt (s : State) (c : Nat) : size_of s c < 4294967296 := by
  have := loadLE_lt s.mem (c + 4) 4
  simpa [size_of] using this

theorem payload_inj (a b : Nat) (ha : a < PTR_MOD) (hb : b < PTR_MOD)
    (h : payload a = payload b) : a = b := by
  simp only [payload, META_DATA_SIZE_BYTES, PTR_MOD] at h ha hb
  omega

/-! ## Chains -/

theorem IsChain.head_eq {s : State} {a c : Nat} {l : List Nat} (h : IsChain s a (c :: l)) :
    a = c := h.1

theorem IsChain.all_valid {s : State} {a : Nat} {l : List Nat} (h : IsChain s a l) :
    ∀ c ∈ l, valid_chunk s c = true := by
  induction l generalizing a with
  | nil => simp
  | cons c l ih =>
    intro d hd
    rcases List.mem_cons.1 hd with rfl | hd
    · exact h.2.2.1
    · exact ih h.2.2.2 d hd

/-! ## custom_free -/

theorem free_loop_not_found (s : State) (ptr : Nat) :
    ∀ (l : List Nat) (a fuel : Nat), IsChain s a l → (∀ c ∈ l, ptr ≠ payload c) →
      l.length < fuel → free_loop ptr fuel a s = .ok (false, s) := by
  intro l
  induction l with
  | nil =>
    intro a fuel h _ hf
    obtain ⟨f, rfl⟩ : ∃ f, fuel = f + 1 := ⟨fuel - 1, by omega⟩
    have ha : a = NULL := h
    simp [free_loop, ha]
  | cons c l ih =>
    intro a fuel h hno hf
    obtain ⟨f, rfl⟩ : ∃ f, fuel = f + 1 := ⟨fuel - 1, by simp at hf; omega⟩
    obtain ⟨rfl, hc, hv, ht⟩ := h
    have h1 : ptr ≠ payload a := hno a (List.mem_cons_self _ _)
    simp only [free_loop, if_neg hc, if_neg h1, get_next_eq s a hv]
    exact ih _ f ht (fun d hd => hno d (List.mem_cons_of_mem _ hd))
      (by simp at hf; omega)

theorem free_loop_found (s : State) (ptr c : Nat) (post : List Nat) :
    ∀ (pre : List Nat) (a fuel : Nat), IsChain s a (pre ++ c :: post) →
      (∀ d ∈ pre, ptr ≠ payload d) → ptr = payload c → pre.length < fuel →
      free_loop ptr fuel a s = .ok (true, { s with mem := store8 s.mem c 1 }) := by
  intro pre
  induction pre with
  | nil =>
    intro a fuel h _ hp hf
    obtain ⟨f, rfl⟩ : ∃ f, fuel = f + 1 := ⟨fuel - 1, by omega⟩
    obtain ⟨rfl, hc, hv, _⟩ := h
    simp [free_loop, hc, hp, set_free, hv]
  | cons d pre ih =>
    intro a fuel h hno hp hf
    obtain ⟨f, rfl⟩ : ∃ f, fuel = f + 1 := ⟨fuel - 1, by simp at hf; omega⟩
    obtain ⟨rfl, hc, hv, ht⟩ := h
    have h1 : ptr ≠ payload a := hno a (List.mem_cons_self _ _)
    simp only [free_loop, if_neg hc, if_neg h1, get_next_eq s a hv]
    exact ih _ f ht (fun d hd => hno d (List.mem_cons_of_mem _ hd)) hp
      (by simp at hf; omega)

/-! ## Layout of a well-formed list -/

theorem Spaced.tail {s : State} {c : Nat} {l : List Nat} (h : Spaced s (c :: l)) :
    Spaced s l := by
  cases l with
  | nil => trivial
  | cons d l => exact h.2

theorem Spaced.head_le {s : State} {c : Nat} {l : List Nat} (h : Spaced s (c :: l)) :
    ∀ d ∈ l, c + 16 + size_of s c ≤ d := by
  induction l generalizing c with
  | nil => simp
  | cons e l ih =>
    intro d hd
    have h1 : c + 16 + size_of s c ≤ e := h.1
    rcases List.mem_cons.1 hd with rfl | hd
    · exact h1
    · have := ih h.2 d hd
      omega

theorem Spaced.head_end {s : State} {c : Nat} {l : List Nat} (h : Spaced s (c :: l)) :
    c + 16 + size_of s c ≤ s.heap_mem + 32768 := by
  induction l generalizing c with
  | nil => exact h
  | cons e l ih =>
    have h1 : c + 16 + size_of s c ≤ e := h.1
    have := ih h.2
    omega

theorem Spaced.split {s : State} {c : Nat} {post : List Nat} :
    ∀ {pre : List Nat}, Spaced s (pre ++ c :: post) →
      (∀ d ∈ pre, d + 16 + size_of s d ≤ c) ∧ Spaced s (c :: post) := by
  intro pre
  induction pre with
  | nil => intro h; exact ⟨by simp, h⟩
  | cons e pre ih =>
    intro h
    have h2 := ih (Spaced.tail h)
    refine ⟨?_, h2.2⟩
    intro d hd
    rcases List.mem_cons.1 hd with rfl | hd
    · exact Spaced.head_le h c (by simp)
    · exact h2.1 d hd

/-! ## Segments and framing -/

theorem IsChain.append_iff (s : State) (l₂ : List Nat) :
    ∀ (l₁ : List Nat) (a : Nat),
      IsChain s a (l₁ ++ l₂) ↔ ∃ b, IsSeg s a l₁ b ∧ IsChain s b l₂ := by
  intro l₁
  induction l₁ with
  | nil =>
    intro a
    constructor
    · intro h; exact ⟨a, rfl, h⟩
    · rintro ⟨b, hb, h⟩
      have : a = b := hb
      subst this; exact h
  | cons c l ih =>
    intro a
    constructor
    · rintro ⟨h1, h2, h3, h4⟩
      obtain ⟨b, hb, h⟩ := (ih _).1 h4
      exact ⟨b, ⟨h1, h2, h3, hb⟩, h⟩
    · rintro ⟨b, ⟨h1, h2, h3, hb⟩, h⟩
      exact ⟨h1, h2, h3, (ih _).2 ⟨b, hb, h⟩⟩

theorem SameOutside.fields {s t : State} {P : Nat → Prop} (h : SameOutside s t P) {d : Nat}
    (hd : Untouched P d) :
    free_of t d = free_of s d ∧ size_of t d = size_of s d ∧ next_of t d = next_of s d := by
  refine ⟨?_, ?_, ?_⟩
  · simp only [free_of, load8]
    rw [h.2 d (hd d (le_refl d) (by simp only [META_DATA_SIZE_BYTES]; omega))]
  · exact loadLE_congr _ _ _ _ (fun x h1 h2 =>
      h.2 x (hd x (by omega) (by simp only [META_DATA_SIZE_BYTES]; omega)))
  · exact loadLE_congr _ _ _ _ (fun x h1 h2 =>
      h.2 x (hd x (by omega) (by simp only [META_DATA_SIZE_BYTES]; omega)))

theorem SameOutside.valid_eq {s t : State} {P : Nat → Prop} (h : SameOutside s t P) (d : Nat) :
    valid_chunk t d = valid_chunk s d := by
  simp only [valid_chunk, h.1]

theorem IsSeg.seg_frame {s t : State} {P : Nat → Prop} (h : SameOutside s t P) :
    ∀ (l : List Nat) (a b : Nat), (∀ d ∈ l, Untouched P d) → IsSeg s a l b → IsSeg t a l b := by
  intro l
  induction l with
  | nil => intro a b _ hs; exact hs
  | cons c l ih =>
    rintro a b hu ⟨h1, h2, h3, h4⟩
    have hc := hu c (List.mem_cons_self _ _)
    refine ⟨h1, h2, by rw [h.valid_eq]; exact h3, ?_⟩
    rw [(h.fields hc).2.2]
    exact ih _ _ (fun d hd => hu d (List.mem_cons_of_mem _ hd)) h4

theorem IsChain.chain_frame {s t : State} {P : Nat → Prop} (h : SameOutside s t P) :
    ∀ (l : List Nat) (a : Nat), (∀ d ∈ l, Untouched P d) → IsChain s a l → IsChain t a l := by
  intro l
  induction l with
  | nil => intro a _ hs; exact hs
  | cons c l ih =>
    rintro a hu ⟨h1, h2, h3, h4⟩
    have hc := hu c (List.mem_cons_self _ _)
    refine ⟨h1, h2, by rw [h.valid_eq]; exact h3, ?_⟩
    rw [(h.fields hc).2.2]
    exact ih _ (fun d hd => hu d (List.mem_cons_of_mem _ hd)) h4

theorem Spaced.congr (s t : State) (hm : t.heap_mem = s.heap_mem) :
    ∀ (l : List Nat), (∀ d ∈ l, size_of t d = size_of s d) → Spaced s l → Spaced t l := by
  intro l
  induction l with
  | nil => intro _ _; trivial
  | cons c l ih =>
    intro hsz h
    have hc := hsz c (List.mem_cons_self _ _)
    cases l with
    | nil =>
      show c + META_DATA_SIZE_BYTES + size_of t c ≤ t.heap_mem + HEAP_MEM_BYTES
      rw [hc, hm]; exact h
    | cons d l =>
      exact ⟨by rw [hc]; exact h.1, ih (fun e he => hsz e (List.mem_cons_of_mem _ he)) h.2⟩

theorem WellFormed.chunk_valid {s : State} {l : List Nat} (h : WellFormed s l) :
    ∀ c ∈ l, valid_chunk s c = true := h.chain.all_valid

theorem WellFormed.lt_ptr_mod {s : State} {l : List Nat} (h : WellFormed s l) :
    ∀ c ∈ l, c < PTR_MOD := by
  intro c hc
  have h1 := (valid_chunk_iff s c).1 (h.chunk_valid c hc)
  have h2 := h.bound
  simp only [HEAP_MEM_BYTES, SBRK_HEAP_SIZE, PTR_SIZE, PTR_MOD] at h2 ⊢
  omega

/-- In a well-formed list the chunks before `c` end before `c`, and those after `c`
start after the span of `c`. -/
theorem WellFormed.around {s : State} {pre post : List Nat} {c : Nat}
    (h : WellFormed s (pre ++ c :: post)) :
    (∀ d ∈ pre, d + 16 + size_of s d ≤ c) ∧ (∀ d ∈ post, c + 16 + size_of s c ≤ d) ∧
      c + 16 + size_of s c ≤ s.heap_mem + 32768 := by
  have h1 := Spaced.split h.spaced
  exact ⟨h1.1, Spaced.head_le h1.2, Spaced.head_end h1.2⟩

/-! ## custom_sbrk -/

theorem custom_sbrk_fail (a : Int) (s : State) (ha : 0 < a) (ha2 : a < 2 ^ 63)
    (hend : s.end_ptr + 2 ^ 63 ≤ PTR_MOD) (hcur : s.current_ptr ≤ s.end_ptr)
    (h : (s.end_ptr : Int) < (s.current_ptr : Int) + a) :
    custom_sbrk a s = (SBRK_FAILED, s) := by
  simp only [PTR_MOD] at hend
  have h1 : ((((s.current_ptr : Int) + a) % ((2 ^ 64 : Nat) : Int)).toNat) > s.end_ptr := by
    omega
  simp only [custom_sbrk, PTR_MOD, if_pos h1]

theorem custom_sbrk_ok (a : Int) (s : State) (ha : 0 < a) (ha2 : a < 2 ^ 63)
    (hend : s.end_ptr + 2 ^ 63 ≤ PTR_MOD) (hcur : s.current_ptr ≤ s.end_ptr)
    (h : (s.current_ptr : Int) + a ≤ (s.end_ptr : Int)) :
    custom_sbrk a s = (s.current_ptr, { s with current_ptr := s.current_ptr + a.toNat }) := by
  simp only [PTR_MOD] at hend
  have h2 : ((((s.current_ptr : Int) + a) % ((2 ^ 64 : Nat) : Int)).toNat)
      = s.current_ptr + a.toNat := by omega
  have h1 : ¬ ((((s.current_ptr : Int) + a) % ((2 ^ 64 : Nat) : Int)).toNat) > s.end_ptr := by
    omega
  rw [h2] at h1
  simp only [custom_sbrk, PTR_MOD, h2, if_neg h1]


theorem sbrk_calls_inv (l : List Int) :
    ∀ (s : State), (∀ a ∈ l, 0 < a ∧ a < 2 ^ 63) → s.end_ptr + 2 ^ 63 ≤ PTR_MOD →
      s.heap_mem ≤ s.current_ptr → s.current_ptr ≤ s.end_ptr →
      (sbrk_calls l s).heap_mem ≤ (sbrk_calls l s).current_ptr ∧
        (sbrk_calls l s).current_ptr ≤ (sbrk_calls l s).end_ptr ∧
        (sbrk_calls l s).end_ptr = s.end_ptr ∧ (sbrk_calls l s).heap_mem = s.heap_mem := by
  induction l with
  | nil => intro s _ _ h1 h2; exact ⟨h1, h2, rfl, rfl⟩
  | cons a l ih =>
    intro s ha hend h1 h2
    obtain ⟨ha1, ha2⟩ := ha a (List.mem_cons_self _ _)
    have hl : ∀ b ∈ l, 0 < b ∧ b < 2 ^ 63 := fun b hb => ha b (List.mem_cons_of_mem _ hb)
    simp only [sbrk_calls]
    by_cases h : (s.end_ptr : Int) < (s.current_ptr : Int) + a
    · rw [custom_sbrk_fail a s ha1 ha2 hend h2 h]
      exact ih s hl hend h1 h2
    · rw [custom_sbrk_ok a s ha1 ha2 hend h2 (by omega)]
      exact ih _ hl hend (by show s.heap_mem ≤ s.current_ptr + a.toNat; omega)
        (by show s.current_ptr + a.toNat ≤ s.end_ptr; omega)

/-! ## One iteration of the loop of custom_malloc -/

theorem uint_to_int_small (r : Nat) (h : r < 2 ^ 31) : uint_to_int r = (r : Int) := by
  simp only [uint_to_int, if_pos h]

theorem split_false (s : State) (c req : Nat) (hv : valid_chunk s c = true)
    (hreq : req < 2 ^ 31) (hsz : size_of s c < req + 16) :
    split (uint_to_int req) c s = .ok (false, s) := by
  have h1 : ¬ (size_of s c ≥ (int_to_size_t (req : Int) + META_DATA_SIZE_BYTES) % PTR_MOD) := by
    simp only [int_to_size_t, PTR_MOD, META_DATA_SIZE_BYTES]
    omega
  simp only [split, get_size_eq s c hv, uint_to_int_small req hreq, bind, Except.bind, if_neg h1,
    pure, Except.pure]

theorem malloc_visit_not_free (s : State) (c req : Nat) (hv : valid_chunk s c = true)
    (hf : free_of s c ≠ 1) : malloc_visit req c s = .ok (none, s) := by
  simp only [malloc_visit, get_free_eq s c hv, bind, Except.bind, if_neg hf, pure, Except.pure]

theorem malloc_visit_pass (s : State) (c req : Nat) (hv : valid_chunk s c = true)
    (hreq : req < 2 ^ 31) (hne : size_of s c ≠ req) (hsz : size_of s c < req + 16)
    (hnv : valid_chunk s (next_of s c) = true) (hnf : free_of s (next_of s c) ≠ 1) :
    malloc_visit req c s = .ok (none, s) := by
  by_cases hf : free_of s c = 1
  · have h1 : ¬ (size_of s c + META_DATA_SIZE_BYTES = req + META_DATA_SIZE_BYTES) := by omega
    simp only [malloc_visit, get_free_eq s c hv, get_size_eq s c hv, bind, Except.bind,
      if_pos hf, if_neg h1, split_false s c req hv hreq hsz, get_next_eq s c hv,
      get_free_eq s _ hnv, if_neg hnf, pure, Except.pure]
    simp
  · exact malloc_visit_not_free s c req hv hf

theorem malloc_visit_exact (s : State) (c req : Nat) (hv : valid_chunk s c = true)
    (hf : free_of s c = 1) (hsz : size_of s c = req) :
    malloc_visit req c s = .ok (some (payload c), { s with mem := store8 s.mem c 0 }) := by
  simp only [malloc_visit, get_free_eq s c hv, get_size_eq s c hv, bind, Except.bind,
    if_pos hf, hsz, set_free, hv, pure, Except.pure]
  simp

theorem split_true (s : State) (c req : Nat) (hv : valid_chunk s c = true)
    (hreq : req < 2 ^ 31) (hsz : req + 16 ≤ size_of s c)
    (hend : c + 16 + size_of s c ≤ s.heap_mem + 32768)
    (hb : s.heap_mem + HEAP_MEM_BYTES ≤ PTR_MOD) :
    split (uint_to_int req) c s = .ok (true, { s with mem := split_mem s.mem c req }) := by
  have hv' := (valid_chunk_iff s c).1 hv
  simp only [HEAP_MEM_BYTES, SBRK_HEAP_SIZE, PTR_SIZE, PTR_MOD] at hb
  have hlt := size_of_lt s c
  have h1 : size_of s c ≥ (int_to_size_t (req : Int) + META_DATA_SIZE_BYTES) % PTR_MOD := by
    simp only [int_to_size_t, PTR_MOD, META_DATA_SIZE_BYTES]
    omega
  have hnew : int_to_size_t ((c : Int) + (req : Int) + (META_DATA_SIZE_BYTES : Int))
      = c + req + 16 := by
    simp only [int_to_size_t, PTR_MOD, META_DATA_SIZE_BYTES]
    omega
  have hk : ((int_to_uint ((size_of s c : Int) - (req : Int)) + PTR_MOD - META_DATA_SIZE_BYTES)
      % PTR_MOD) % UINT_MOD = size_of s c - req - 16 := by
    simp only [int_to_uint, PTR_MOD, UINT_MOD, META_DATA_SIZE_BYTES]
    omega
  have hu : int_to_uint (req : Int) = req := by
    simp only [int_to_uint, UINT_MOD]
    omega
  have hvn : ∀ m : Mem, valid_chunk { s with mem := m } (c + req + 16) = true := by
    intro m
    rw [valid_chunk_iff]
    show s.heap_mem ≤ c + req + 16 ∧ c + req + 16 + 16 ≤ s.heap_mem + 32768
    omega
  have hvc : ∀ m : Mem, valid_chunk { s with mem := m } c = true := fun m => hv
  have hnx : loadLE (store8 (storeLE s.mem (c + req + 16 + 4) 4 (size_of s c - req - 16))
      (c + req + 16) 1) (c + 8) 8 = loadLE s.mem (c + 8) 8 := by
    rw [loadLE_store8_disjoint _ _ _ _ _ (by omega),
      loadLE_storeLE_disjoint _ _ _ _ _ _ (by omega)]
  simp only [split, get_size_eq s c hv, uint_to_int_small req hreq, bind, Except.bind,
    if_pos h1, hnew, hk, hu, set_size, set_free, set_next, get_next, hvn, hvc, hv,
    if_true, pure, Except.pure, hnx]
  rfl

theorem split_mem_outside (m : Mem) (c req x : Nat) (h1 : x < c ∨ c + 16 ≤ x)
    (h2 : x < c + req + 16 ∨ c + req + 16 + 16 ≤ x) : split_mem m c req x = m x := by
  simp only [split_mem]
  rw [storeLE_apply_outside _ _ _ _ _ (by omega), store8_apply, if_neg (by omega),
    storeLE_apply_outside _ _ _ _ _ (by omega), storeLE_apply_outside _ _ _ _ _ (by omega),
    store8_apply, if_neg (by omega), storeLE_apply_outside _ _ _ _ _ (by omega)]

theorem split_mem_free (m : Mem) (c req : Nat) : load8 (split_mem m c req) c = 0 := by
  simp only [split_mem]
  rw [load8_storeLE_disjoint _ _ _ _ _ (by omega), load8_store8_same]

theorem split_mem_size (m : Mem) (c req : Nat) (hreq : req < 2 ^ 32) :
    loadLE (split_mem m c req) (c + 4) 4 = req := by
  simp only [split_mem]
  rw [loadLE_storeLE_same]
  omega

theorem split_mem_next (m : Mem) (c req : Nat) (h : c + req + 16 < 2 ^ 64) :
    loadLE (split_mem m c req) (c + 8) 8 = c + req + 16 := by
  simp only [split_mem]
  rw [loadLE_storeLE_disjoint _ _ _ _ _ _ (by omega), loadLE_store8_disjoint _ _ _ _ _ (by omega),
    loadLE_storeLE_same]
  omega

theorem split_mem_new_free (m : Mem) (c req : Nat) :
    load8 (split_mem m c req) (c + req + 16) = 1 := by
  simp only [split_mem]
  rw [load8_storeLE_disjoint _ _ _ _ _ (by omega), load8_store8_ne _ _ _ _ (by omega),
    load8_storeLE_disjoint _ _ _ _ _ (by omega), load8_storeLE_disjoint _ _ _ _ _ (by omega),
    load8_store8_same]

theorem split_mem_new_size (m : Mem) (c req : Nat) :
    loadLE (split_mem m c req) (c + req + 16 + 4) 4 = loadLE m (c + 4) 4 - req - 16 := by
  have := loadLE_lt m (c + 4) 4
  simp only [split_mem]
  rw [loadLE_storeLE_disjoint _ _ _ _ _ _ (by omega), loadLE_store8_disjoint _ _ _ _ _ (by omega),
    loadLE_storeLE_disjoint _ _ _ _ _ _ (by omega), loadLE_storeLE_disjoint _ _ _ _ _ _ (by omega),
    loadLE_store8_disjoint _ _ _ _ _ (by omega), loadLE_storeLE_same]
  omega

theorem split_mem_new_next (m : Mem) (c req : Nat) :
    loadLE (split_mem m c req) (c + req + 16 + 8) 8 = loadLE m (c + 8) 8 := by
  have := loadLE_lt m (c + 8) 8
  simp only [split_mem]
  rw [loadLE_storeLE_disjoint _ _ _ _ _ _ (by omega), loadLE_store8_disjoint _ _ _ _ _ (by omega),
    loadLE_storeLE_disjoint _ _ _ _ _ _ (by omega), loadLE_storeLE_same]
  omega

/-! ## The walk of custom_malloc -/

theorem malloc_loop_skip (s : State) (req b f : Nat) (hreq : req < 2 ^ 31) :
    ∀ (pre : List Nat) (a : Nat), IsSeg s a pre b → (∀ d ∈ pre, Passes s req d) →
      malloc_loop req (pre.length + f) a s = malloc_loop req f b s := by
  intro pre
  induction pre with
  | nil =>
    intro a h _
    have : a = b := h
    subst this
    simp
  | cons c l ih =>
    rintro a ⟨rfl, hc, hv, ht⟩ hp
    have hvis : malloc_visit req a s = .ok (none, s) := by
      rcases hp a (List.mem_cons_self _ _) with h | ⟨h1, h2, h3, h4⟩
      · exact malloc_visit_not_free s a req hv h
      · exact malloc_visit_pass s a req hv hreq h1 h2 h3 h4
    have hlen : (a :: l).length + f = (l.length + f) + 1 := by simp; omega
    rw [hlen, malloc_loop, if_neg hc, hvis]
    simp only [get_next_eq s a hv]
    exact ih _ ht (fun d hd => hp d (List.mem_cons_of_mem _ hd))

theorem malloc_loop_fuel_ok (req : Nat) :
    ∀ (fuel extra a : Nat) (s : State) (r : Nat × State),
      malloc_loop req fuel a s = .ok r → malloc_loop req (fuel + extra) a s = .ok r := by
  intro fuel
  induction fuel with
  | zero => intro extra a s r h; simp [malloc_loop] at h
  | succ f ih =>
    intro extra a s r h
    have hlen : f + 1 + extra = (f + extra) + 1 := by omega
    rw [hlen]
    rw [malloc_loop] at h ⊢
    by_cases ha : a = NULL
    · rw [if_pos ha] at h ⊢; exact h
    · rw [if_neg ha] at h ⊢
      cases hv : malloc_visit req a s with
      | error e => rw [hv] at h; simp at h
      | ok p =>
        obtain ⟨o, s1⟩ := p
        rw [hv] at h
        cases o with
        | some q => exact h
        | none =>
          simp only at h ⊢
          cases hn : get_next s1 a with
          | error e => rw [hn] at h; simp at h
          | ok nx =>
            rw [hn] at h
            simp only at h ⊢
            exact ih extra nx s1 r h

theorem malloc_visit_split (s : State) (c req : Nat) (hv : valid_chunk s c = true)
    (hf : free_of s c = 1) (hreq : req < 2 ^ 31) (hsz : req + 16 ≤ size_of s c)
    (hend : c + 16 + size_of s c ≤ s.heap_mem + 32768)
    (hb : s.heap_mem + HEAP_MEM_BYTES ≤ PTR_MOD) :
    malloc_visit req c s
      = .ok (some (payload c), { s with mem := split_mem s.mem c req }) := by
  have h1 : ¬ (size_of s c + META_DATA_SIZE_BYTES = req + META_DATA_SIZE_BYTES) := by omega
  simp only [malloc_visit, get_free_eq s c hv, get_size_eq s c hv, bind, Except.bind,
    if_pos hf, if_neg h1, split_true s c req hv hreq hsz hend hb, pure, Except.pure]
  simp

theorem malloc_loop_exact (s : State) (pre post : List Nat) (c req fuel a : Nat)
    (hch : IsChain s a (pre ++ c :: post)) (hpass : ∀ d ∈ pre, Passes s req d)
    (hreq : req < 2 ^ 31) (hf : free_of s c = 1) (hsz : size_of s c = req)
    (hfuel : pre.length < fuel) :
    malloc_loop req fuel a s = .ok (payload c, { s with mem := store8 s.mem c 0 }) := by
  obtain ⟨b, hseg, hb⟩ := (IsChain.append_iff s (c :: post) pre a).1 hch
  obtain ⟨rfl, hc, hv, _⟩ := hb
  obtain ⟨f, rfl⟩ : ∃ f, fuel = pre.length + (f + 1) := ⟨fuel - pre.length - 1, by omega⟩
  rw [malloc_loop_skip s req b (f + 1) hreq pre a hseg hpass, malloc_loop, if_neg hc,
    malloc_visit_exact s b req hv hf hsz]

theorem malloc_loop_split (s : State) (pre post : List Nat) (c req fuel a : Nat)
    (hch : IsChain s a (pre ++ c :: post)) (hpass : ∀ d ∈ pre, Passes s req d)
    (hreq : req < 2 ^ 31) (hf : free_of s c = 1) (hsz : req + 16 ≤ size_of s c)
    (hend : c + 16 + size_of s c ≤ s.heap_mem + 32768)
    (hbd : s.heap_mem + HEAP_MEM_BYTES ≤ PTR_MOD)
    (hfuel : pre.length < fuel) :
    malloc_loop req fuel a s = .ok (payload c, { s with mem := split_mem s.mem c req }) := by
  obtain ⟨b, hseg, hb⟩ := (IsChain.append_iff s (c :: post) pre a).1 hch
  obtain ⟨rfl, hc, hv, _⟩ := hb
  obtain ⟨f, rfl⟩ : ∃ f, fuel = pre.length + (f + 1) := ⟨fuel - pre.length - 1, by omega⟩
  rw [malloc_loop_skip s req b (f + 1) hreq pre a hseg hpass, malloc_loop, if_neg hc,
    malloc_visit_split s b req hv hf hreq hsz hend hbd]

theorem IsChain.head_ne_null {s : State} {a : Nat} {pre post : List Nat} {c : Nat}
    (h : IsChain s a (pre ++ c :: post)) : a ≠ NULL := by
  cases pre with
  | nil => obtain ⟨rfl, hc, _, _⟩ := h; exact hc
  | cons d l => obtain ⟨rfl, hc, _, _⟩ := h; exact hc

theorem custom_malloc_eq_loop (s : State) (fuel size : Nat) (h : s.heap_head ≠ NULL) :
    custom_malloc fuel size s = malloc_loop (CUSTOM_ALIGN size) fuel s.heap_head s := by
  simp only [custom_malloc, if_neg h]

theorem CUSTOM_ALIGN_aligned (n : Nat) (h8 : n % 8 = 0) (hn : n < 2 ^ 32) :
    CUSTOM_ALIGN n = n := by
  simp only [CUSTOM_ALIGN, PTR_SIZE, PTR_MOD, UINT_MOD]
  omega


theorem IsChain.next_valid {s : State} {c : Nat} {post : List Nat} :
    ∀ {pre : List Nat} {a : Nat}, IsChain s a (pre ++ c :: post) →
      ∀ d ∈ pre, valid_chunk s (next_of s d) = true := by
  intro pre
  induction pre with
  | nil => intro a _ d hd; simp at hd
  | cons e pre ih =>
    rintro a ⟨rfl, _, _, ht⟩ d hd
    rcases List.mem_cons.1 hd with rfl | hd
    · cases pre with
      | nil => obtain ⟨h1, _, h3, _⟩ := ht; rw [h1]; exact h3
      | cons e2 pre2 => obtain ⟨h1, _, h3, _⟩ := ht; rw [h1]; exact h3
    · exact ih ht d hd

/-! ## The state after a split -/

theorem Spaced.replace_tail (s t : State) (c : Nat)
    (l₁ l₂ : List Nat) :
    ∀ (pre : List Nat), Spaced s (pre ++ c :: l₁) → (∀ d ∈ pre, size_of t d = size_of s d) →
      Spaced t (c :: l₂) → Spaced t (pre ++ c :: l₂) := by
  intro pre
  induction pre with
  | nil => intro _ _ h; exact h
  | cons e pre ih =>
    intro h hsz ht
    have he := hsz e (List.mem_cons_self _ _)
    have hrec := ih (Spaced.tail h) (fun d hd => hsz d (List.mem_cons_of_mem _ hd)) ht
    cases pre with
    | nil =>
      have h1 : e + META_DATA_SIZE_BYTES + size_of s e ≤ c := h.1
      exact ⟨by rw [he]; exact h1, hrec⟩
    | cons e2 pre2 =>
      have h1 : e + META_DATA_SIZE_BYTES + size_of s e ≤ e2 := h.1
      exact ⟨by rw [he]; exact h1, hrec⟩

/-- The state after a split of the free chunk `c` of a well-formed list. -/
theorem split_state_wf (s : State) (pre post : List Nat) (c req : Nat)
    (hwf : WellFormed s (pre ++ c :: post)) (hsz : req + 16 ≤ size_of s c) :
    WellFormed { s with mem := split_mem s.mem c req } (pre ++ c :: (c + req + 16) :: post) ∧
      free_of { s with mem := split_mem s.mem c req } c = 0 ∧
      size_of { s with mem := split_mem s.mem c req } c = req ∧
      next_of { s with mem := split_mem s.mem c req } c = c + req + 16 ∧
      free_of { s with mem := split_mem s.mem c req } (c + req + 16) = 1 ∧
      size_of { s with mem := split_mem s.mem c req } (c + req + 16) = size_of s c - req - 16 ∧
      next_of { s with mem := split_mem s.mem c req } (c + req + 16) = next_of s c ∧
      ∀ d ∈ pre ++ post,
        free_of { s with mem := split_mem s.mem c req } d = free_of s d ∧
        size_of { s with mem := split_mem s.mem c req } d = size_of s d ∧
        next_of { s with mem := split_mem s.mem c req } d = next_of s d := by
  obtain ⟨hpre, hpost, hend⟩ := hwf.around
  have hbd := hwf.bound
  simp only [HEAP_MEM_BYTES, SBRK_HEAP_SIZE, PTR_SIZE, PTR_MOD] at hbd
  have hlt := size_of_lt s c
  have hvc := (valid_chunk_iff s c).1 (hwf.chunk_valid c (by simp))
  have hso : SameOutside s { s with mem := split_mem s.mem c req }
      (fun x => (c ≤ x ∧ x < c + 16) ∨ (c + req + 16 ≤ x ∧ x < c + req + 16 + 16)) :=
    ⟨rfl, fun x hx => split_mem_outside s.mem c req x (by omega) (by omega)⟩
  have hu : ∀ d ∈ pre ++ post, Untouched
      (fun x => (c ≤ x ∧ x < c + 16) ∨ (c + req + 16 ≤ x ∧ x < c + req + 16 + 16)) d := by
    intro d hd x h1 h2
    simp only [META_DATA_SIZE_BYTES] at h2
    rcases List.mem_append.1 hd with hd | hd
    · have := hpre d hd
      show ¬ ((c ≤ x ∧ x < c + 16) ∨ (c + req + 16 ≤ x ∧ x < c + req + 16 + 16))
      omega
    · have := hpost d hd
      show ¬ ((c ≤ x ∧ x < c + 16) ∨ (c + req + 16 ≤ x ∧ x < c + req + 16 + 16))
      omega
  have f1 : free_of { s with mem := split_mem s.mem c req } c = 0 := split_mem_free _ _ _
  have f2 : size_of { s with mem := split_mem s.mem c req } c = req :=
    split_mem_size _ _ _ (by omega)
  have f3 : next_of { s with mem := split_mem s.mem c req } c = c + req + 16 :=
    split_mem_next _ _ _ (by omega)
  have f4 : free_of { s with mem := split_mem s.mem c req } (c + req + 16) = 1 :=
    split_mem_new_free _ _ _
  have f5 : size_of { s with mem := split_mem s.mem c req } (c + req + 16)
      = size_of s c - req - 16 := split_mem_new_size _ _ _
  have f6 : next_of { s with mem := split_mem s.mem c req } (c + req + 16) = next_of s c :=
    split_mem_new_next _ _ _
  refine ⟨⟨?_, ?_, hwf.bound⟩, f1, f2, f3, f4, f5, f6, fun d hd => hso.fields (hu d hd)⟩
  · obtain ⟨b, hseg, hb⟩ := (IsChain.append_iff s (c :: post) pre s.heap_head).1 hwf.chain
    refine (IsChain.append_iff _ (c :: (c + req + 16) :: post) pre s.heap_head).2 ⟨b, ?_, ?_⟩
    · exact IsSeg.seg_frame hso pre _ _ (fun d hd => hu d (List.mem_append_left _ hd)) hseg
    · obtain ⟨h1, h2, h3, h4⟩ := hb
      refine ⟨h1, h2, by rw [hso.valid_eq]; exact h3, ?_⟩
      rw [f3]
      refine ⟨rfl, by simp only [NULL]; omega, ?_, ?_⟩
      · rw [valid_chunk_iff]
        show s.heap_mem ≤ c + req + 16 ∧ c + req + 16 + 16 ≤ s.heap_mem + 32768
        omega
      · rw [f6]
        exact IsChain.chain_frame hso post _ (fun d hd => hu d (List.mem_append_right _ hd)) h4
  · refine Spaced.replace_tail s { s with mem := split_mem s.mem c req } c post _ pre
      hwf.spaced (fun d hd => (hso.fields (hu d (List.mem_append_left _ hd))).2.1) ?_
    refine ⟨by rw [f2]; simp only [META_DATA_SIZE_BYTES]; omega, ?_⟩
    cases post with
    | nil =>
      show c + req + 16 + META_DATA_SIZE_BYTES + size_of _ (c + req + 16) ≤ s.heap_mem + HEAP_MEM_BYTES
      rw [f5]
      simp only [META_DATA_SIZE_BYTES, HEAP_MEM_BYTES, SBRK_HEAP_SIZE, PTR_SIZE]
      omega
    | cons p ps =>
      have hp := hpost p (by simp)
      refine ⟨by rw [f5]; simp only [META_DATA_SIZE_BYTES]; omega, ?_⟩
      refine Spaced.congr s { s with mem := split_mem s.mem c req } rfl _ ?_
        (Spaced.tail (Spaced.split hwf.spaced).2)
      intro d hd
      exact (hso.fields (hu d (List.mem_append_right _ hd))).2.1

/-! ## Writing the flag of a chunk -/

/-- Writing the flag of `c` keeps the list well-formed and changes no other field. -/
theorem flag_state_wf (s : State) (pre post : List Nat) (c v : Nat)
    (hwf : WellFormed s (pre ++ c :: post)) :
    WellFormed { s with mem := store8 s.mem c v } (pre ++ c :: post) ∧
      free_of { s with mem := store8 s.mem c v } c = v % 256 ∧
      size_of { s with mem := store8 s.mem c v } c = size_of s c ∧
      next_of { s with mem := store8 s.mem c v } c = next_of s c ∧
      ∀ d ∈ pre ++ post,
        free_of { s with mem := store8 s.mem c v } d = free_of s d ∧
        size_of { s with mem := store8 s.mem c v } d = size_of s d ∧
        next_of { s with mem := store8 s.mem c v } d = next_of s d := by
  obtain ⟨hpre, hpost, _⟩ := hwf.around
  have hso : SameOutside s { s with mem := store8 s.mem c v } (fun x => x = c) :=
    ⟨rfl, fun x hx => by simp [store8, hx]⟩
  have hu : ∀ d ∈ pre ++ post, Untouched (fun x => x = c) d := by
    intro d hd x h1 h2
    simp only [META_DATA_SIZE_BYTES] at h2
    rcases List.mem_append.1 hd with hd | hd
    · have := hpre d hd
      show x ≠ c
      omega
    · have := hpost d hd
      show x ≠ c
      omega
  have hfc : free_of { s with mem := store8 s.mem c v } c = v % 256 := by
    simp [free_of, load8_store8_same]
  have hsc : size_of { s with mem := store8 s.mem c v } c = size_of s c :=
    loadLE_store8_disjoint _ _ _ _ _ (by omega)
  have hnc : next_of { s with mem := store8 s.mem c v } c = next_of s c :=
    loadLE_store8_disjoint _ _ _ _ _ (by omega)
  refine ⟨⟨?_, ?_, hwf.bound⟩, hfc, hsc, hnc, fun d hd => hso.fields (hu d hd)⟩
  · obtain ⟨b, hseg, hb⟩ := (IsChain.append_iff s (c :: post) pre s.heap_head).1 hwf.chain
    refine (IsChain.append_iff _ (c :: post) pre s.heap_head).2 ⟨b, ?_, ?_⟩
    · exact IsSeg.seg_frame hso pre _ _ (fun d hd => hu d (List.mem_append_left _ hd)) hseg
    · obtain ⟨h1, h2, h3, h4⟩ := hb
      refine ⟨h1, h2, by rw [hso.valid_eq]; exact h3, ?_⟩
      rw [hnc]
      exact IsChain.chain_frame hso post _ (fun d hd => hu d (List.mem_append_right _ hd)) h4
  · refine Spaced.congr s { s with mem := store8 s.mem c v } rfl _ ?_ hwf.spaced
    intro d hd
    rcases List.mem_append.1 hd with hd | hd
    · exact (hso.fields (hu d (List.mem_append_left _ hd))).2.1
    · rcases List.mem_cons.1 hd with rfl | hd
      · exact hsc
      · exact (hso.fields (hu d (List.mem_append_right _ hd))).2.1

/-- In a well-formed state `custom_free` finds the chunk whose payload address it gets. -/
theorem custom_free_found (s : State) (pre post : List Nat) (c fuel : Nat)
    (hwf : WellFormed s (pre ++ c :: post)) (hfuel : pre.length < fuel) :
    custom_free fuel (payload c) s = .ok (true, { s with mem := store8 s.mem c 1 }) := by
  obtain ⟨hpre, _, _⟩ := hwf.around
  have hlt := hwf.lt_ptr_mod
  have hne : ∀ d ∈ pre, payload c ≠ payload d := by
    intro d hd hp
    have := payload_inj c d (hlt c (by simp)) (hlt d (by simp [hd])) hp
    have := hpre d hd
    omega
  exact free_loop_found s (payload c) c post pre s.heap_head fuel hwf.chain hne rfl hfuel

theorem IsChain.next_mem {s : State} {c : Nat} {post : List Nat} :
    ∀ {pre : List Nat} {a : Nat}, IsChain s a (pre ++ c :: post) →
      ∀ d ∈ pre, next_of s d = c ∨ next_of s d ∈ pre := by
  intro pre
  induction pre with
  | nil => intro a _ d hd; simp at hd
  | cons e pre ih =>
    rintro a ⟨rfl, _, _, ht⟩ d hd
    rcases List.mem_cons.1 hd with rfl | hd
    · cases pre with
      | nil => obtain ⟨h1, _, _, _⟩ := ht; left; exact h1
      | cons e2 pre2 => obtain ⟨h1, _, _, _⟩ := ht; right; rw [h1]; simp
    · rcases ih ht d hd with h | h
      · exact Or.inl h
      · exact Or.inr (List.mem_cons_of_mem _ h)

/-- Chunks that the walk passes are still passed after a change that leaves the fields
of the chunks before `c` alone. -/
theorem passes_transfer (s t : State) (pre post : List Nat) (c req a : Nat)
    (hch : IsChain s a (pre ++ c :: post)) (hfc : free_of s c = 1)
    (hm : t.heap_mem = s.heap_mem)
    (hfields : ∀ d ∈ pre,
      free_of t d = free_of s d ∧ size_of t d = size_of s d ∧ next_of t d = next_of s d)
    (hpass : ∀ d ∈ pre, Passes s req d) : ∀ d ∈ pre, Passes t req d := by
  intro d hd
  obtain ⟨g1, g2, g3⟩ := hfields d hd
  rcases hpass d hd with h | ⟨h1, h2, h3, h4⟩
  · left; rw [g1]; exact h
  · right
    have hx : next_of s d ∈ pre := by
      rcases IsChain.next_mem hch d hd with h | h
      · rw [h] at h4; exact absurd hfc h4
      · exact h
    refine ⟨by rw [g2]; exact h1, by rw [g2]; exact h2, ?_, ?_⟩
    · rw [g3]; simp only [valid_chunk, hm]; exact h3
    · rw [g3, (hfields _ hx).1]; exact h4

theorem store8_store8_cancel (m : Mem) (c v : Nat) (h : m c = 0) :
    store8 (store8 m c v) c 0 = m := by
  funext x
  by_cases hx : x = c
  · subst hx; simp [store8, h]
  · simp [store8, hx]

theorem split_mem_at (m : Mem) (c req : Nat) : split_mem m c req c = 0 := by
  simp only [split_mem]
  rw [storeLE_apply_outside _ _ _ _ _ (by omega), store8_apply, if_pos rfl]

/-- Releasing the allocated chunk `c` and asking again for its size gives `c` back by the
exact-fit rule and restores the state. -/
theorem release_then_exact (t : State) (pre post : List Nat) (c req fuel : Nat)
    (hwf : WellFormed t (pre ++ c :: post)) (hsz : size_of t c = req) (hzero : t.mem c = 0)
    (hreq : req < 2 ^ 31)
    (hpass : ∀ d ∈ pre, Passes { t with mem := store8 t.mem c 1 } req d)
    (hfuel : pre.length < fuel) :
    custom_free fuel (payload c) t = .ok (true, { t with mem := store8 t.mem c 1 }) ∧
      free_of { t with mem := store8 t.mem c 1 } c = 1 ∧
      size_of { t with mem := store8 t.mem c 1 } c = req ∧
      malloc_loop req fuel t.heap_head { t with mem := store8 t.mem c 1 }
        = .ok (payload c, t) := by
  obtain ⟨w2, f1, f2, _, _⟩ := flag_state_wf t pre post c 1 hwf
  refine ⟨custom_free_found t pre post c fuel hwf hfuel, f1, by rw [f2]; exact hsz, ?_⟩
  have h := malloc_loop_exact { t with mem := store8 t.mem c 1 } pre post c req fuel
    t.heap_head w2.chain hpass hreq f1 (by rw [f2]; exact hsz) hfuel
  rw [h]
  simp only [store8_store8_cancel t.mem c 1 hzero]


theorem store8_idem (m : Mem) (c v : Nat) : store8 (store8 m c v) c v = store8 m c v := by
  funext x
  by_cases hx : x = c <;> simp [store8, hx]

theorem store8_same_value (m : Mem) (c v : Nat) (h : m c = v % 256) : store8 m c v = m := by
  funext x
  by_cases hx : x = c
  · subst hx; simp [store8, h]
  · simp [store8, hx]

/-! ## Runs that stop with an error -/

theorem eq_error_of_fault_of {α : Type} (r : Except Err α) (e : Err)
    (h : fault_of r = some e) : r = .error e := by
  cases r with
  | ok a => simp [fault_of] at h
  | error e2 => simp [fault_of] at h; rw [h]

/-! ## The merge branch -/

theorem split_false_of_lt (s : State) (c req : Nat) (hv : valid_chunk s c = true)
    (hreq : req < 2 ^ 32 - 16) (hsz : size_of s c < req + 16) :
    split (uint_to_int req) c s = .ok (false, s) := by
  have hlt := size_of_lt s c
  have h1 : ¬ (size_of s c ≥ (int_to_size_t (uint_to_int req) + META_DATA_SIZE_BYTES) % PTR_MOD) := by
    simp only [int_to_size_t, uint_to_int, PTR_MOD, UINT_MOD, META_DATA_SIZE_BYTES]
    split <;> omega
  simp only [split, get_size_eq s c hv, bind, Except.bind, if_neg h1, pure, Except.pure]

theorem malloc_visit_merge (s : State) (c req : Nat) (hv : valid_chunk s c = true)
    (hf : free_of s c = 1) (hreq : req < 2 ^ 32 - 16) (hne : size_of s c ≠ req)
    (hsz : size_of s c < req + 16)
    (hnv : valid_chunk s (next_of s c) = true) (hnf : free_of s (next_of s c) = 1)
    (hord : c + 16 ≤ next_of s c) :
    malloc_visit req c s =
      if (size_of s c + size_of s (next_of s c)) % UINT_MOD = req then
        .ok (some (payload c), { s with mem := store8 (merge_mem s.mem c) c 0 })
      else .ok (none, { s with mem := merge_mem s.mem c }) := by
  have hsf := split_false_of_lt s c req hv hreq hsz
  simp only [free_of, size_of, next_of] at hf hne hsz hnv hnf hord ⊢
  have h1 : ¬ (loadLE s.mem (c + 4) 4 + META_DATA_SIZE_BYTES = req + META_DATA_SIZE_BYTES) := by
    omega
  have hvc : ∀ m : Mem, valid_chunk { s with mem := m } c = true := fun m => hv
  have hvn : ∀ m : Mem, valid_chunk { s with mem := m } (loadLE s.mem (c + 8) 8) = true :=
    fun m => hnv
  have e1 : ∀ v, loadLE (storeLE s.mem (c + 4) 4 v) (c + 8) 8 = loadLE s.mem (c + 8) 8 :=
    fun v => loadLE_storeLE_disjoint _ _ _ _ _ _ (by omega)
  have e2 : ∀ v, loadLE (storeLE s.mem (c + 4) 4 v) (loadLE s.mem (c + 8) 8 + 8) 8
      = loadLE s.mem (loadLE s.mem (c + 8) 8 + 8) 8 :=
    fun v => loadLE_storeLE_disjoint _ _ _ _ _ _ (by omega)
  have e3 : ∀ v w, loadLE (store8 (storeLE (storeLE s.mem (c + 4) 4 v) (c + 8) 8 w) c 1) (c + 4) 4
      = v % UINT_MOD := by
    intro v w
    rw [loadLE_store8_disjoint _ _ _ _ _ (by omega),
      loadLE_storeLE_disjoint _ _ _ _ _ _ (by omega), loadLE_storeLE_same]
    norm_num [UINT_MOD]
  simp only [malloc_visit, get_free, get_size, get_next, set_size, set_next, set_free,
    bind, Except.bind, pure, Except.pure, hv, hnv, hvc, hvn, if_true, if_pos hf, if_neg h1,
    hsf, if_pos hnf, e1, e2, e3, Nat.mod_mod, merge_mem]
  simp


theorem merge_mem_outside (m : Mem) (c x : Nat) (h : x < c ∨ c + 16 ≤ x) :
    merge_mem m c x = m x := by
  simp only [merge_mem]
  rw [store8_apply, if_neg (by omega), storeLE_apply_outside _ _ _ _ _ (by omega),
    storeLE_apply_outside _ _ _ _ _ (by omega)]

theorem merge_mem_free (m : Mem) (c : Nat) : load8 (merge_mem m c) c = 1 := by
  simp only [merge_mem, load8_store8_same]

theorem merge_mem_size (m : Mem) (c : Nat) :
    loadLE (merge_mem m c) (c + 4) 4
      = (loadLE m (c + 4) 4 + loadLE m (loadLE m (c + 8) 8 + 4) 4) % UINT_MOD := by
  simp only [merge_mem]
  rw [loadLE_store8_disjoint _ _ _ _ _ (by omega),
    loadLE_storeLE_disjoint _ _ _ _ _ _ (by omega), loadLE_storeLE_same]
  norm_num [UINT_MOD]

theorem merge_mem_next (m : Mem) (c : Nat) :
    loadLE (merge_mem m c) (c + 8) 8 = loadLE m (loadLE m (c + 8) 8 + 8) 8 := by
  have := loadLE_lt m (loadLE m (c + 8) 8 + 8) 8
  simp only [merge_mem]
  rw [loadLE_store8_disjoint _ _ _ _ _ (by omega), loadLE_storeLE_same]
  omega

/-- The state after merging the free chunk `c` of a well-formed list with its successor
`nx`. -/
theorem merge_state_wf (s : State) (pre post : List Nat) (c nx : Nat)
    (hwf : WellFormed s (pre ++ c :: nx :: post)) :
    WellFormed { s with mem := merge_mem s.mem c } (pre ++ c :: post) ∧
      free_of { s with mem := merge_mem s.mem c } c = 1 ∧
      size_of { s with mem := merge_mem s.mem c } c = size_of s c + size_of s nx ∧
      next_of { s with mem := merge_mem s.mem c } c = next_of s nx ∧
      ∀ d ∈ pre ++ post,
        free_of { s with mem := merge_mem s.mem c } d = free_of s d ∧
        size_of { s with mem := merge_mem s.mem c } d = size_of s d ∧
        next_of { s with mem := merge_mem s.mem c } d = next_of s d := by
  obtain ⟨hpre, hpost, hend⟩ := hwf.around
  have hnx := hpost nx (by simp)
  have hsp := (Spaced.split hwf.spaced).2
  have hsp2 : Spaced s (nx :: post) := Spaced.tail hsp
  have hnend := Spaced.head_end hsp2
  have hnpost := Spaced.head_le hsp2
  have hvc := (valid_chunk_iff s c).1 (hwf.chunk_valid c (by simp))
  obtain ⟨b, hseg, hb⟩ := (IsChain.append_iff s (c :: nx :: post) pre s.heap_head).1 hwf.chain
  obtain ⟨h1, h2, h3, h4⟩ := hb
  obtain ⟨k1, k2, k3, k4⟩ := h4
  have hso : SameOutside s { s with mem := merge_mem s.mem c } (fun x => c ≤ x ∧ x < c + 16) :=
    ⟨rfl, fun x hx => merge_mem_outside s.mem c x (by omega)⟩
  have hu : ∀ d ∈ pre ++ post, Untouched (fun x => c ≤ x ∧ x < c + 16) d := by
    intro d hd x g1 g2
    simp only [META_DATA_SIZE_BYTES] at g2
    rcases List.mem_append.1 hd with hd | hd
    · have := hpre d hd
      show ¬ (c ≤ x ∧ x < c + 16)
      omega
    · have := hnpost d hd
      show ¬ (c ≤ x ∧ x < c + 16)
      omega
  have f1 : free_of { s with mem := merge_mem s.mem c } c = 1 := merge_mem_free _ _
  have f2 : size_of { s with mem := merge_mem s.mem c } c = size_of s c + size_of s nx := by
    have := merge_mem_size s.mem c
    simp only [size_of, next_of, UINT_MOD] at this k1 hnend hend hnx ⊢
    rw [this, k1]
    omega
  have f3 : next_of { s with mem := merge_mem s.mem c } c = next_of s nx := by
    have := merge_mem_next s.mem c
    simp only [next_of] at this k1 ⊢
    rw [this, k1]
  refine ⟨⟨?_, ?_, hwf.bound⟩, f1, f2, f3, fun d hd => hso.fields (hu d hd)⟩
  · refine (IsChain.append_iff _ (c :: post) pre s.heap_head).2 ⟨b, ?_, ?_⟩
    · exact IsSeg.seg_frame hso pre _ _ (fun d hd => hu d (List.mem_append_left _ hd)) hseg
    · refine ⟨h1, h2, by rw [hso.valid_eq]; exact h3, ?_⟩
      rw [f3]
      exact IsChain.chain_frame hso post _ (fun d hd => hu d (List.mem_append_right _ hd)) k4
  · refine Spaced.replace_tail s { s with mem := merge_mem s.mem c } c (nx :: post) _ pre
      hwf.spaced (fun d hd => (hso.fields (hu d (List.mem_append_left _ hd))).2.1) ?_
    cases post with
    | nil =>
      show c + META_DATA_SIZE_BYTES + size_of _ c ≤ s.heap_mem + HEAP_MEM_BYTES
      rw [f2]
      simp only [META_DATA_SIZE_BYTES, HEAP_MEM_BYTES, SBRK_HEAP_SIZE, PTR_SIZE]
      omega
    | cons p ps =>
      have hp := hnpost p (by simp)
      refine ⟨by rw [f2]; simp only [META_DATA_SIZE_BYTES]; omega, ?_⟩
      refine Spaced.congr s { s with mem := merge_mem s.mem c } rfl _ ?_ (Spaced.tail hsp2)
      intro d hd
      exact (hso.fields (hu d (List.mem_append_right _ hd))).2.1

/-! ## Well-formedness is preserved -/

theorem IsSeg.end_unique {s : State} :
    ∀ {l : List Nat} {a b b' : Nat}, IsSeg s a l b → IsSeg s a l b' → b = b' := by
  intro l
  induction l with
  | nil =>
    intro a b b' h h'
    have e1 : a = b := h
    have e2 : a = b' := h'
    omega
  | cons c l ih =>
    rintro a b b' ⟨_, _, _, h⟩ ⟨_, _, _, h'⟩
    exact ih h h'

theorem IsSeg.snoc {s : State} {c : Nat} (hc : c ≠ NULL) (hv : valid_chunk s c = true) :
    ∀ {l : List Nat} {a : Nat}, IsSeg s a l c → IsSeg s a (l ++ [c]) (next_of s c) := by
  intro l
  induction l with
  | nil =>
    intro a h
    have e : a = c := h
    exact ⟨e, hc, hv, rfl⟩
  | cons d l ih =>
    rintro a ⟨h1, h2, h3, h4⟩
    exact ⟨h1, h2, h3, ih h4⟩

theorem malloc_visit_fault (s : State) (c req : Nat) (hv : valid_chunk s c = true)
    (hf : free_of s c = 1) (hreq : req < 2 ^ 32 - 16) (hne : size_of s c ≠ req)
    (hsz : size_of s c < req + 16) (hnv : valid_chunk s (next_of s c) = false) :
    malloc_visit req c s = .error (.invalid_access (next_of s c)) := by
  have h1 : ¬ (size_of s c + META_DATA_SIZE_BYTES = req + META_DATA_SIZE_BYTES) := by omega
  simp only [malloc_visit, get_free_eq s c hv, get_size_eq s c hv, bind, Except.bind,
    if_pos hf, if_neg h1, split_false_of_lt s c req hv hreq hsz, get_next_eq s c hv]
  simp [get_free, hnv]

theorem malloc_visit_pass_of_lt (s : State) (c req : Nat) (hv : valid_chunk s c = true)
    (hf : free_of s c = 1)
    (hreq : req < 2 ^ 32 - 16) (hne : size_of s c ≠ req) (hsz : size_of s c < req + 16)
    (hnv : valid_chunk s (next_of s c) = true) (hnf : free_of s (next_of s c) ≠ 1) :
    malloc_visit req c s = .ok (none, s) := by
  have h1 : ¬ (size_of s c + META_DATA_SIZE_BYTES = req + META_DATA_SIZE_BYTES) := by omega
  simp only [malloc_visit, get_free_eq s c hv, get_size_eq s c hv, bind, Except.bind,
    if_pos hf, if_neg h1, split_false_of_lt s c req hv hreq hsz, get_next_eq s c hv,
    get_free_eq s _ hnv, if_neg hnf, pure, Except.pure]
  simp

theorem WellFormed.position {s : State} {done rest : List Nat} {a : Nat}
    (hwf : WellFormed s (done ++ rest)) (hseg : IsSeg s s.heap_head done a) :
    IsChain s a rest := by
  obtain ⟨b, h1, h2⟩ := (IsChain.append_iff s rest done s.heap_head).1 hwf.chain
  rw [IsSeg.end_unique hseg h1]
  exact h2

theorem malloc_loop_step_none (req f a : Nat) (s s1 : State) (ha : a ≠ NULL)
    (hvis : malloc_visit req a s = .ok (none, s1)) (hv : valid_chunk s1 a = true) :
    malloc_loop req (f + 1) a s = malloc_loop req f (next_of s1 a) s1 := by
  rw [malloc_loop, if_neg ha, hvis]
  simp only [get_next_eq s1 a hv]

theorem malloc_loop_step_some (req f a p : Nat) (s s1 : State) (ha : a ≠ NULL)
    (hvis : malloc_visit req a s = .ok (some p, s1)) :
    malloc_loop req (f + 1) a s = .ok (p, s1) := by
  rw [malloc_loop, if_neg ha, hvis]

theorem malloc_loop_step_error (req f a : Nat) (s : State) (e : Err) (ha : a ≠ NULL)
    (hvis : malloc_visit req a s = .error e) :
    malloc_loop req (f + 1) a s = .error e := by
  rw [malloc_loop, if_neg ha, hvis]

theorem WellFormed.snoc_position {s : State} {done rest : List Nat} {c : Nat}
    (hwf : WellFormed s (done ++ c :: rest)) :
    WellFormed s ((done ++ [c]) ++ rest) ∧ IsSeg s s.heap_head (done ++ [c]) (next_of s c) := by
  have e : (done ++ [c]) ++ rest = done ++ c :: rest := by simp
  refine ⟨by rw [e]; exact hwf, ?_⟩
  obtain ⟨b, h1, h2⟩ := (IsChain.append_iff s (c :: rest) done s.heap_head).1 hwf.chain
  obtain ⟨rfl, hc, hv, _⟩ := h2
  exact IsSeg.snoc hc hv h1

/-- The loop of `custom_malloc`, started anywhere in a well-formed list, ends in a
well-formed state with the same globals whenever it returns. -/
theorem malloc_loop_wf (req : Nat) (hreq : req < 2 ^ 32 - 16) :
    ∀ (fuel : Nat) (done rest : List Nat) (a : Nat) (s : State) (r : Nat × State),
      WellFormed s (done ++ rest) → IsSeg s s.heap_head done a → 0 < s.heap_mem →
      malloc_loop req fuel a s = .ok r →
      (∃ l, WellFormed r.2 l) ∧ r.2.heap_head = s.heap_head ∧ r.2.heap_mem = s.heap_mem ∧
        r.2.current_ptr = s.current_ptr ∧ r.2.end_ptr = s.end_ptr := by
  intro fuel
  induction fuel with
  | zero => intro done rest a s r _ _ _ h; simp [malloc_loop] at h
  | succ f ih =>
    intro done rest a s r hwf hseg hpos h
    by_cases ha : a = NULL
    · rw [malloc_loop, if_pos ha] at h
      cases h
      exact ⟨⟨_, hwf⟩, rfl, rfl, rfl, rfl⟩
    · have hch := hwf.position hseg
      cases rest with
      | nil => exact absurd hch ha
      | cons c rest' =>
        obtain ⟨rfl, hc, hv, ht⟩ := hch
        obtain ⟨_, hpost, hend⟩ := hwf.around
        have hvc := (valid_chunk_iff s a).1 hv
        have hcont : ∀ r', malloc_loop req f (next_of s a) s = .ok r' →
            (∃ l, WellFormed r'.2 l) ∧ r'.2.heap_head = s.heap_head ∧
              r'.2.heap_mem = s.heap_mem ∧ r'.2.current_ptr = s.current_ptr ∧
              r'.2.end_ptr = s.end_ptr := by
          intro r' hr'
          obtain ⟨w1, w2⟩ := hwf.snoc_position
          exact ih _ _ _ s r' w1 w2 hpos hr'
        by_cases hf : free_of s a = 1
        · by_cases hex : size_of s a = req
          · rw [malloc_loop_step_some req f a _ s _ ha (malloc_visit_exact s a req hv hf hex)] at h
            cases h
            exact ⟨⟨_, (flag_state_wf s done rest' a 0 hwf).1⟩, rfl, rfl, rfl, rfl⟩
          · by_cases hsp : req + 16 ≤ size_of s a
            · rw [malloc_loop_step_some req f a _ s _ ha
                (malloc_visit_split s a req hv hf (by omega) hsp hend hwf.bound)] at h
              cases h
              exact ⟨⟨_, (split_state_wf s done rest' a req hwf hsp).1⟩, rfl, rfl, rfl, rfl⟩
            · cases rest' with
              | nil =>
                have hn : next_of s a = NULL := ht
                have hnv : valid_chunk s (next_of s a) = false := by
                  rw [hn]
                  simp only [valid_chunk, NULL, Bool.and_eq_false_imp, decide_eq_true_eq,
                    decide_eq_false_iff_not]
                  intro h0
                  omega
                rw [malloc_loop_step_error req f a s _ ha
                  (malloc_visit_fault s a req hv hf hreq hex (by omega) hnv)] at h
                cases h
              | cons nx rest2 =>
                obtain ⟨hn, _, hnv, _⟩ := ht
                have hord := hpost nx (by simp)
                by_cases hnf : free_of s nx = 1
                · have hvis := malloc_visit_merge s a req hv hf hreq hex (by omega)
                    (by rw [hn]; exact hnv) (by rw [hn]; exact hnf) (by rw [hn]; omega)
                  obtain ⟨w, _, _, _, _⟩ := merge_state_wf s done rest2 a nx hwf
                  by_cases hsum : (size_of s a + size_of s (next_of s a)) % UINT_MOD = req
                  · rw [if_pos hsum] at hvis
                    rw [malloc_loop_step_some req f a _ s _ ha hvis] at h
                    cases h
                    exact ⟨⟨_, (flag_state_wf _ done rest2 a 0 w).1⟩, rfl, rfl, rfl, rfl⟩
                  · rw [if_neg hsum] at hvis
                    rw [malloc_loop_step_none req f a s _ ha hvis hv] at h
                    obtain ⟨w1, w2⟩ := w.snoc_position
                    exact ih _ _ _ { s with mem := merge_mem s.mem a } r w1 w2 hpos h
                · rw [malloc_loop_step_none req f a s s ha
                    (malloc_visit_pass_of_lt s a req hv hf hreq hex (by omega)
                      (by rw [hn]; exact hnv) (by rw [hn]; exact hnf)) hv] at h
                  exact hcont r h
        · rw [malloc_loop_step_none req f a s s ha (malloc_visit_not_free s a req hv hf) hv] at h
          exact hcont r h

/-! ## The invariant holds in every reachable state -/

theorem custom_memory_init_ok (s : State) (hpos : 0 < s.heap_mem)
    (hbd : s.heap_mem + HEAP_MEM_BYTES ≤ PTR_MOD) (hcur : s.current_ptr = s.heap_mem)
    (hend : s.end_ptr = s.heap_mem + HEAP_MEM_BYTES) :
    custom_memory_init s = .ok (true,
      { s with current_ptr := s.heap_mem + SBRK_HEAP_SIZE, heap_head := s.heap_mem,
               mem := init_mem s.mem s.heap_mem }) := by
  simp only [HEAP_MEM_BYTES, SBRK_HEAP_SIZE, PTR_SIZE, PTR_MOD] at hbd hend
  have hs : custom_sbrk (SBRK_HEAP_SIZE : Nat) s
      = (s.heap_mem, { s with current_ptr := s.heap_mem + 4096 }) := by
    have h2 : ((((s.current_ptr : Int) + ((4096 : Nat) : Int)) % ((2 ^ 64 : Nat) : Int)).toNat)
        = s.heap_mem + 4096 := by omega
    have h1 : ¬ (s.heap_mem + 4096 > s.end_ptr) := by omega
    rw [hcur] at h2
    simp only [custom_sbrk, SBRK_HEAP_SIZE, PTR_MOD, hcur, h2, if_neg h1]
  have hne : ¬ (s.heap_mem = SBRK_FAILED) := by simp only [SBRK_FAILED]; omega
  have hv : ∀ (m : Mem) (cp hh : Nat),
      valid_chunk { s with current_ptr := cp, heap_head := hh, mem := m } s.heap_mem = true := by
    intro m cp hh
    rw [valid_chunk_iff]
    show s.heap_mem ≤ s.heap_mem ∧ s.heap_mem + 16 ≤ s.heap_mem + 32768
    omega
  unfold custom_memory_init
  rw [hs]
  simp only [if_neg hne, set_size, set_free, set_next, hv, if_true,
    bind, Except.bind, pure, Except.pure, init_mem]

theorem init_state_wf (s : State) (hpos : 0 < s.heap_mem)
    (hbd : s.heap_mem + HEAP_MEM_BYTES ≤ PTR_MOD) :
    WellFormed { s with current_ptr := s.heap_mem + SBRK_HEAP_SIZE, heap_head := s.heap_mem,
                        mem := init_mem s.mem s.heap_mem } [s.heap_mem] := by
  have hsz : loadLE (init_mem s.mem s.heap_mem) (s.heap_mem + 4) 4 = 4080 := by
    simp only [init_mem]
    rw [loadLE_storeLE_disjoint _ _ _ _ _ _ (by omega),
      loadLE_store8_disjoint _ _ _ _ _ (by omega), loadLE_storeLE_same]
    norm_num [SBRK_HEAP_SIZE, META_DATA_SIZE_BYTES]
  have hnx : loadLE (init_mem s.mem s.heap_mem) (s.heap_mem + 8) 8 = 0 := by
    simp only [init_mem]
    rw [loadLE_storeLE_same]
    rfl
  refine ⟨⟨rfl, by simp only [NULL]; omega, ?_, ?_⟩, ?_, hbd⟩
  · rw [valid_chunk_iff]
    show s.heap_mem ≤ s.heap_mem ∧ s.heap_mem + 16 ≤ s.heap_mem + 32768
    omega
  · show IsChain _ (loadLE (init_mem s.mem s.heap_mem) (s.heap_mem + 8) 8) []
    rw [hnx]
    rfl
  · show s.heap_mem + META_DATA_SIZE_BYTES + loadLE (init_mem s.mem s.heap_mem) (s.heap_mem + 4) 4
      ≤ s.heap_mem + HEAP_MEM_BYTES
    rw [hsz]
    simp only [META_DATA_SIZE_BYTES, HEAP_MEM_BYTES, SBRK_HEAP_SIZE, PTR_SIZE]
    omega

theorem free_loop_result (s : State) (ptr : Nat) :
    ∀ (l : List Nat) (a fuel : Nat) (r : Bool × State), IsChain s a l →
      free_loop ptr fuel a s = .ok r →
      r.2 = s ∨ ∃ c ∈ l, r.2 = { s with mem := store8 s.mem c 1 } := by
  intro l
  induction l with
  | nil =>
    intro a fuel r h hr
    have ha : a = NULL := h
    cases fuel with
    | zero => simp [free_loop] at hr
    | succ f =>
      rw [free_loop, if_pos ha] at hr
      cases hr
      exact Or.inl rfl
  | cons c l ih =>
    rintro a fuel r ⟨rfl, hc, hv, ht⟩ hr
    cases fuel with
    | zero => simp [free_loop] at hr
    | succ f =>
      rw [free_loop, if_neg hc] at hr
      by_cases hp : ptr = payload a
      · rw [if_pos hp] at hr
        simp only [set_free, hv, if_true] at hr
        cases hr
        exact Or.inr ⟨a, List.mem_cons_self _ _, rfl⟩
      · rw [if_neg hp] at hr
        simp only [get_next_eq s a hv] at hr
        rcases ih _ f r ht hr with h | ⟨d, hd, h⟩
        · exact Or.inl h
        · exact Or.inr ⟨d, List.mem_cons_of_mem _ hd, h⟩

theorem Inv.bound {s : State} (h : Inv s) : s.heap_mem + HEAP_MEM_BYTES ≤ PTR_MOD := by
  obtain ⟨l, hl⟩ := h.wf
  exact hl.bound

theorem custom_malloc_inv (s : State) (fuel size : Nat) (r : Nat × State) (hinv : Inv s)
    (hsane : CUSTOM_ALIGN size < 2 ^ 32 - 16) (h : custom_malloc fuel size s = .ok r) :
    Inv r.2 := by
  by_cases hh : s.heap_head = NULL
  · obtain ⟨hcur, hend⟩ := hinv.fresh hh
    have hinit := custom_memory_init_ok s hinv.pos hinv.bound hcur hend
    simp only [custom_malloc, if_pos hh, hinit] at h
    have hw := init_state_wf s hinv.pos hinv.bound
    obtain ⟨w, g1, g2, _, _⟩ := malloc_loop_wf (CUSTOM_ALIGN size) hsane fuel [] [s.heap_mem]
      s.heap_mem _ r hw rfl hinv.pos h
    refine ⟨by rw [g2]; exact hinv.pos, w, ?_⟩
    intro h0
    rw [g1] at h0
    have := hinv.pos
    simp only [NULL] at h0
    have h1 : s.heap_mem = 0 := h0
    omega
  · obtain ⟨l, hl⟩ := hinv.wf
    rw [custom_malloc_eq_loop s fuel size hh] at h
    obtain ⟨w, g1, g2, _, _⟩ := malloc_loop_wf (CUSTOM_ALIGN size) hsane fuel [] l
      s.heap_head s r hl rfl hinv.pos h
    exact ⟨by rw [g2]; exact hinv.pos, w, fun h0 => absurd (g1 ▸ h0) hh⟩

theorem custom_free_inv (s : State) (fuel ptr : Nat) (r : Bool × State) (hinv : Inv s)
    (h : custom_free fuel ptr s = .ok r) : Inv r.2 := by
  obtain ⟨l, hl⟩ := hinv.wf
  rcases free_loop_result s ptr l s.heap_head fuel r hl.chain h with h1 | ⟨c, hc, h1⟩
  · rw [h1]; exact hinv
  · obtain ⟨pre, post, rfl⟩ := List.append_of_mem hc
    rw [h1]
    exact ⟨hinv.pos, ⟨_, (flag_state_wf s pre post c 1 hl).1⟩, hinv.fresh⟩

theorem run_call_inv (fuel : Nat) (c : Call) (s t : State) (hinv : Inv s) (hs : SaneCall c)
    (h : run_call fuel c s = .ok t) : Inv t := by
  cases c with
  | malloc size =>
    simp only [run_call] at h
    cases hr : custom_malloc fuel size s with
    | error e => rw [hr] at h; simp [Except.map] at h
    | ok r =>
      rw [hr] at h
      simp only [Except.map, Except.ok.injEq] at h
      rw [← h]
      exact custom_malloc_inv s fuel size r hinv hs hr
  | free ptr =>
    simp only [run_call] at h
    cases hr : custom_free fuel ptr s with
    | error e => rw [hr] at h; simp [Except.map] at h
    | ok r =>
      rw [hr] at h
      simp only [Except.map, Except.ok.injEq] at h
      rw [← h]
      exact custom_free_inv s fuel ptr r hinv hr

theorem run_calls_inv (fuel : Nat) :
    ∀ (calls : List Call) (s t : State), Inv s → (∀ c ∈ calls, SaneCall c) →
      run_calls fuel calls s = .ok t → Inv t := by
  intro calls
  induction calls with
  | nil =>
    intro s t hinv _ h
    simp only [run_calls, Except.ok.injEq] at h
    rw [← h]; exact hinv
  | cons c l ih =>
    intro s t hinv hs h
    simp only [run_calls] at h
    cases hr : run_call fuel c s with
    | error e => rw [hr] at h; simp at h
    | ok u =>
      rw [hr] at h
      exact ih u t (run_call_inv fuel c s u hinv (hs c (List.mem_cons_self _ _)) hr)
        (fun d hd => hs d (List.mem_cons_of_mem _ hd)) h

theorem initial_state_inv (base : Nat) (hpos : 0 < base) (hbd : base + HEAP_MEM_BYTES ≤ PTR_MOD) :
    Inv (initial_state base) :=
  ⟨hpos, ⟨[], ⟨rfl, trivial, hbd⟩⟩, fun _ => ⟨rfl, rfl⟩⟩

/-- Every reachable state satisfies the invariant of the allocator. -/
theorem reachable_inv (s : State) (h : Reachable s) : Inv s := by
  obtain ⟨base, fuel, calls, hpos, hbd, hs, hrun⟩ := h
  exact run_calls_inv fuel calls _ s (initial_state_inv base hpos hbd) hs hrun

theorem IsChain.list_unique {s : State} :
    ∀ {l l' : List Nat} {a : Nat}, IsChain s a l → IsChain s a l' → l = l' := by
  intro l
  induction l with
  | nil =>
    intro l' a h h'
    have ha : a = NULL := h
    cases l' with
    | nil => rfl
    | cons c l' => exact absurd (h'.1.symm.trans ha) h'.2.1
  | cons c l ih =>
    intro l' a h h'
    obtain ⟨h1, h2, _, h4⟩ := h
    cases l' with
    | nil =>
      have ha : a = NULL := h'
      exact absurd (h1.symm.trans ha) h2
    | cons c' l' =>
      obtain ⟨k1, _, _, k4⟩ := h'
      have e : c = c' := h1.symm.trans k1
      subst e
      rw [ih h4 k4]

/-- In a reachable state the chunk list that starts at `heap_head` is well-formed. -/
theorem reachable_wf (s : State) (l : List Nat) (h : Reachable s)
    (hl : IsChain s s.heap_head l) : WellFormed s l := by
  obtain ⟨l', hl'⟩ := (reachable_inv s h).wf
  rw [IsChain.list_unique hl hl'.chain]
  exact hl'

/-! ## Release followed by the same request -/

/-- The round trip in a well-formed state: allocation without a merge, release, and the
same request again. -/
theorem exact_reuse_wf (s : State) (pre post : List Nat) (c size fuel : Nat)
    (hwf : WellFormed s (pre ++ c :: post))
    (hpass : ∀ d ∈ pre, Passes s (CUSTOM_ALIGN size) d)
    (hsat : Satisfies s (CUSTOM_ALIGN size) c) (hfuel : pre.length < fuel) :
    ∃ t₁ t₂, custom_malloc fuel size s = .ok (payload c, t₁) ∧
      custom_free fuel (payload c) t₁ = .ok (true, t₂) ∧
      free_of t₂ c = 1 ∧ size_of t₂ c = CUSTOM_ALIGN size ∧
      custom_malloc fuel size t₂ = .ok (payload c, t₁) := by
  obtain ⟨_, _, hend⟩ := hwf.around
  have hbd := hwf.bound
  have hhead := IsChain.head_ne_null hwf.chain
  obtain ⟨hfree, hfit⟩ := hsat
  simp only [META_DATA_SIZE_BYTES] at hfit
  have hvc := (valid_chunk_iff s c).1 (hwf.chunk_valid c (by simp))
  have hreq : CUSTOM_ALIGN size < 2 ^ 31 := by omega
  rcases hfit with hex | hsp
  · obtain ⟨w1, _, g2, _, g4⟩ := flag_state_wf s pre post c 0 hwf
    obtain ⟨_, _, _, _, k4⟩ := flag_state_wf { s with mem := store8 s.mem c 0 } pre post c 1 w1
    have hp2 := passes_transfer s
      { s with mem := store8 (store8 s.mem c 0) c 1 } pre post c (CUSTOM_ALIGN size)
      s.heap_head hwf.chain hfree rfl
      (fun d hd => by
        obtain ⟨a1, a2, a3⟩ := g4 d (List.mem_append_left _ hd)
        obtain ⟨b1, b2, b3⟩ := k4 d (List.mem_append_left _ hd)
        exact ⟨b1.trans a1, b2.trans a2, b3.trans a3⟩) hpass
    obtain ⟨r1, r2, r3, r4⟩ := release_then_exact { s with mem := store8 s.mem c 0 } pre post c
      (CUSTOM_ALIGN size) fuel w1 (by rw [g2]; exact hex) (by simp [store8]) hreq hp2 hfuel
    refine ⟨{ s with mem := store8 s.mem c 0 }, _, ?_, r1, r2, r3, ?_⟩
    · rw [custom_malloc_eq_loop s fuel size hhead]
      exact malloc_loop_exact s pre post c _ fuel s.heap_head hwf.chain hpass hreq hfree hex hfuel
    · exact (custom_malloc_eq_loop { s with mem := store8 (store8 s.mem c 0) c 1 } fuel size
        hhead).trans r4
  · obtain ⟨w1, _, g2, _, _, _, _, g4⟩ := split_state_wf s pre post c (CUSTOM_ALIGN size) hwf hsp
    obtain ⟨_, _, _, _, k4⟩ := flag_state_wf { s with mem := split_mem s.mem c (CUSTOM_ALIGN size) }
      pre ((c + CUSTOM_ALIGN size + 16) :: post) c 1 w1
    have hp2 := passes_transfer s
      { s with mem := store8 (split_mem s.mem c (CUSTOM_ALIGN size)) c 1 } pre post c
      (CUSTOM_ALIGN size) s.heap_head hwf.chain hfree rfl
      (fun d hd => by
        obtain ⟨a1, a2, a3⟩ := g4 d (List.mem_append_left _ hd)
        obtain ⟨b1, b2, b3⟩ := k4 d (List.mem_append_left _ hd)
        exact ⟨b1.trans a1, b2.trans a2, b3.trans a3⟩) hpass
    obtain ⟨r1, r2, r3, r4⟩ := release_then_exact
      { s with mem := split_mem s.mem c (CUSTOM_ALIGN size) } pre
      ((c + CUSTOM_ALIGN size + 16) :: post) c (CUSTOM_ALIGN size) fuel w1 g2
      (split_mem_at _ _ _) hreq hp2 hfuel
    refine ⟨{ s with mem := split_mem s.mem c (CUSTOM_ALIGN size) }, _, ?_, r1, r2, r3, ?_⟩
    · rw [custom_malloc_eq_loop s fuel size hhead]
      exact malloc_loop_split s pre post c _ fuel s.heap_head hwf.chain hpass hreq hfree hsp
        hend hbd hfuel
    · exact (custom_malloc_eq_loop
        { s with mem := store8 (split_mem s.mem c (CUSTOM_ALIGN size)) c 1 } fuel size
        hhead).trans r4


theorem final_state_spec (r : Except Err State) (d : State) (h : r.toBool = true) :
    r = .ok (final_state r d) := by
  cases r with
  | error e => simp [Except.toBool] at h
  | ok s => rfl

/-! ## display -/

theorem display_loop_chain (s : State) :
    ∀ (l : List Nat) (a fuel : Nat), IsChain s a l → l.length < fuel →
      display_loop fuel a s = .ok (display_lines s l) := by
  intro l
  induction l with
  | nil =>
    intro a fuel h hf
    obtain ⟨f, rfl⟩ : ∃ f, fuel = f + 1 := ⟨fuel - 1, by omega⟩
    have ha : a = NULL := h
    simp [display_loop, ha, display_lines]
  | cons c l ih =>
    intro a fuel h hf
    obtain ⟨f, rfl⟩ : ∃ f, fuel = f + 1 := ⟨fuel - 1, by simp at hf; omega⟩
    obtain ⟨rfl, hc, hv, ht⟩ := h
    have hrec := ih (next_of s a) f ht (by simp at hf; omega)
    simp only [display_loop, if_neg hc, get_size_eq s a hv, get_free_eq s a hv,
      get_next_eq s a hv, bind, Except.bind, hrec, pure, Except.pure]
    rfl

theorem display_lines_links (s : State) :
    ∀ (l : List Nat) (a : Nat), IsChain s a l → LinksMatch (display_lines s l) := by
  intro l
  induction l with
  | nil => intro a _; trivial
  | cons c l ih =>
    intro a h
    obtain ⟨_, _, _, ht⟩ := h
    cases l with
    | nil =>
      have hn : next_of s c = NULL := ht
      exact hn
    | cons d l =>
      have hd : next_of s c = d := ht.1
      exact ⟨by show payload (next_of s c) = payload d; rw [hd], ih _ ht⟩

/-! ## Lists that loop back on themselves -/

theorem no_chain_of_self_link (s : State) (c : Nat) (hc : c ≠ NULL) (h : next_of s c = c) :
    ∀ l : List Nat, ¬ IsChain s c l := by
  intro l
  induction l with
  | nil => intro h0; exact hc h0
  | cons d l ih =>
    rintro ⟨rfl, _, _, ht⟩
    rw [h] at ht
    exact ih ht

theorem display_loop_self_link (s : State) (c : Nat) (hc : c ≠ NULL)
    (hv : valid_chunk s c = true) (h : next_of s c = c) :
    ∀ fuel, display_loop fuel c s = .error .out_of_fuel := by
  intro fuel
  induction fuel with
  | zero => rfl
  | succ f ih =>
    simp only [display_loop, if_neg hc, get_size_eq s c hv, get_free_eq s c hv,
      get_next_eq s c hv, bind, Except.bind, h, ih]

theorem free_loop_self_link (s : State) (c ptr : Nat) (hc : c ≠ NULL)
    (hv : valid_chunk s c = true) (h : next_of s c = c) (hp : ptr ≠ payload c) :
    ∀ fuel, free_loop ptr fuel c s = .error .out_of_fuel := by
  intro fuel
  induction fuel with
  | zero => rfl
  | succ f ih =>
    simp only [free_loop, if_neg hc, if_neg hp, get_next_eq s c hv, h, ih]

theorem malloc_loop_self_link (s : State) (c req : Nat) (hc : c ≠ NULL)
    (hv : valid_chunk s c = true) (h : next_of s c = c) (hf : free_of s c ≠ 1) :
    ∀ fuel, malloc_loop req fuel c s = .error .out_of_fuel := by
  intro fuel
  induction fuel with
  | zero => rfl
  | succ f ih =>
    rw [malloc_loop_step_none req f c s s hc (malloc_visit_not_free s c req hv hf) hv, h]
    exact ih

/-! ## The walk writes only at and above the chunk it is at -/

theorem bind_eq_ok {α β : Type} (x : Except Err α) (f : α → Except Err β) (b : β)
    (h : (x >>= f) = .ok b) : ∃ a, x = .ok a ∧ f a = .ok b := by
  cases x with
  | error e => simp [bind, Except.bind] at h
  | ok a => exact ⟨a, rfl, h⟩

theorem set_free_ok {s t : State} {c v : Nat} (h : set_free s c v = .ok t) :
    t = { s with mem := store8 s.mem c v } := by
  simp only [set_free] at h
  split at h
  · cases h; rfl
  · cases h

theorem set_size_ok {s t : State} {c v : Nat} (h : set_size s c v = .ok t) :
    t = { s with mem := storeLE s.mem (c + 4) 4 v } := by
  simp only [set_size] at h
  split at h
  · cases h; rfl
  · cases h

theorem set_next_ok {s t : State} {c v : Nat} (h : set_next s c v = .ok t) :
    t = { s with mem := storeLE s.mem (c + 8) 8 v } := by
  simp only [set_next] at h
  split at h
  · cases h; rfl
  · cases h

theorem split_false_of_test (s : State) (c req : Nat) (hv : valid_chunk s c = true)
    (h : ¬ SplitTest s req c) : split (uint_to_int req) c s = .ok (false, s) := by
  simp only [SplitTest] at h
  simp only [split, get_size_eq s c hv, bind, Except.bind, if_neg h, pure, Except.pure]

/-- A split that passes its test returns `true`, and it writes only to the header of the
chunk and to the header of the new chunk. -/
theorem split_of_test (s t : State) (c req : Nat) (b : Bool) (hv : valid_chunk s c = true)
    (h : SplitTest s req c) (hr : split (uint_to_int req) c s = .ok (b, t)) :
    b = true ∧ t.heap_mem = s.heap_mem ∧ t.heap_head = s.heap_head ∧
      ∀ x, (x < c ∨ c + 16 ≤ x) →
        (x < int_to_size_t ((c : Int) + uint_to_int req + (META_DATA_SIZE_BYTES : Int)) ∨
          int_to_size_t ((c : Int) + uint_to_int req + (META_DATA_SIZE_BYTES : Int)) + 16 ≤ x) →
        t.mem x = s.mem x := by
  simp only [SplitTest] at h
  simp only [split, get_size_eq s c hv] at hr
  simp only [bind, Except.bind, if_pos h] at hr
  split at hr
  · cases hr
  · rename_i s1 h1
    split at hr
    · cases hr
    · rename_i s2 h2
      split at hr
      · cases hr
      · rename_i nx h3
        split at hr
        · cases hr
        · rename_i s3 h4
          split at hr
          · cases hr
          · rename_i s4 h5
            split at hr
            · cases hr
            · rename_i s5 h6
              split at hr
              · cases hr
              · rename_i s6 h7
                have e1 := set_size_ok h1
                have e2 := set_free_ok h2
                have e3 := set_next_ok h4
                have e4 := set_next_ok h5
                have e5 := set_free_ok h6
                have e6 := set_size_ok h7
                simp only [pure, Except.pure, Except.ok.injEq, Prod.mk.injEq] at hr
                obtain ⟨hb, ht⟩ := hr
                subst ht
                refine ⟨hb.symm, ?_, ?_, ?_⟩
                · rw [e6, e5, e4, e3, e2, e1]
                · rw [e6, e5, e4, e3, e2, e1]
                · intro x hx hy
                  have m1 : s1.mem x = s.mem x := by
                    rw [e1]; exact storeLE_apply_outside _ _ _ _ _ (by omega)
                  have m2 : s2.mem x = s1.mem x := by
                    rw [e2]; show store8 _ _ _ x = _; rw [store8_apply, if_neg (by omega)]
                  have m3 : s3.mem x = s2.mem x := by
                    rw [e3]; exact storeLE_apply_outside _ _ _ _ _ (by omega)
                  have m4 : s4.mem x = s3.mem x := by
                    rw [e4]; exact storeLE_apply_outside _ _ _ _ _ (by omega)
                  have m5 : s5.mem x = s4.mem x := by
                    rw [e5]; show store8 _ _ _ x = _; rw [store8_apply, if_neg (by omega)]
                  have m6 : s6.mem x = s5.mem x := by
                    rw [e6]; exact storeLE_apply_outside _ _ _ _ _ (by omega)
                  rw [m6, m5, m4, m3, m2, m1]

theorem split_target_ge (s : State) (c req : Nat) (hreq : req < UINT_MOD)
    (h : SplitTest s req c) (hend : c + 16 + size_of s c ≤ PTR_MOD) :
    c ≤ int_to_size_t ((c : Int) + uint_to_int req + (META_DATA_SIZE_BYTES : Int)) := by
  have hlt := size_of_lt s c
  simp only [SplitTest, int_to_size_t, uint_to_int, PTR_MOD, UINT_MOD, META_DATA_SIZE_BYTES]
    at h hend hreq ⊢
  split at h <;> rename_i hc <;> simp only [hc, if_true, if_false] <;> omega

theorem malloc_visit_of_split_true (s t : State) (c req : Nat) (hv : valid_chunk s c = true)
    (hf : free_of s c = 1) (hne : size_of s c ≠ req)
    (hs : split (uint_to_int req) c s = .ok (true, t)) :
    malloc_visit req c s = .ok (some (payload c), t) := by
  have h1 : ¬ (size_of s c + META_DATA_SIZE_BYTES = req + META_DATA_SIZE_BYTES) := by omega
  simp only [malloc_visit, get_free_eq s c hv, get_size_eq s c hv, bind, Except.bind,
    if_pos hf, if_neg h1, hs, pure, Except.pure]
  simp

theorem malloc_visit_of_split_error (s : State) (c req : Nat) (e : Err)
    (hv : valid_chunk s c = true) (hf : free_of s c = 1) (hne : size_of s c ≠ req)
    (hs : split (uint_to_int req) c s = .error e) :
    malloc_visit req c s = .error e := by
  have h1 : ¬ (size_of s c + META_DATA_SIZE_BYTES = req + META_DATA_SIZE_BYTES) := by omega
  simp only [malloc_visit, get_free_eq s c hv, get_size_eq s c hv, bind, Except.bind,
    if_pos hf, if_neg h1, hs]

theorem malloc_visit_fault_gen (s : State) (c req : Nat) (hv : valid_chunk s c = true)
    (hf : free_of s c = 1) (hne : size_of s c ≠ req)
    (hsf : split (uint_to_int req) c s = .ok (false, s))
    (hnv : valid_chunk s (next_of s c) = false) :
    malloc_visit req c s = .error (.invalid_access (next_of s c)) := by
  have h1 : ¬ (size_of s c + META_DATA_SIZE_BYTES = req + META_DATA_SIZE_BYTES) := by omega
  simp only [malloc_visit, get_free_eq s c hv, get_size_eq s c hv, bind, Except.bind,
    if_pos hf, if_neg h1, hsf, get_next_eq s c hv]
  simp [get_free, hnv]

theorem malloc_visit_pass_gen (s : State) (c req : Nat) (hv : valid_chunk s c = true)
    (hf : free_of s c = 1) (hne : size_of s c ≠ req)
    (hsf : split (uint_to_int req) c s = .ok (false, s))
    (hnv : valid_chunk s (next_of s c) = true) (hnf : free_of s (next_of s c) ≠ 1) :
    malloc_visit req c s = .ok (none, s) := by
  have h1 : ¬ (size_of s c + META_DATA_SIZE_BYTES = req + META_DATA_SIZE_BYTES) := by omega
  simp only [malloc_visit, get_free_eq s c hv, get_size_eq s c hv, bind, Except.bind,
    if_pos hf, if_neg h1, hsf, get_next_eq s c hv,
    get_free_eq s _ hnv, if_neg hnf, pure, Except.pure]
  simp

theorem malloc_visit_merge_gen (s : State) (c req : Nat) (hv : valid_chunk s c = true)
    (hf : free_of s c = 1) (hne : size_of s c ≠ req)
    (hsf : split (uint_to_int req) c s = .ok (false, s))
    (hnv : valid_chunk s (next_of s c) = true) (hnf : free_of s (next_of s c) = 1)
    (hord : c + 16 ≤ next_of s c) :
    malloc_visit req c s =
      if (size_of s c + size_of s (next_of s c)) % UINT_MOD = req then
        .ok (some (payload c), { s with mem := store8 (merge_mem s.mem c) c 0 })
      else .ok (none, { s with mem := merge_mem s.mem c }) := by
  simp only [free_of, size_of, next_of] at hf hne hnv hnf hord ⊢
  have h1 : ¬ (loadLE s.mem (c + 4) 4 + META_DATA_SIZE_BYTES = req + META_DATA_SIZE_BYTES) := by
    omega
  have hvc : ∀ m : Mem, valid_chunk { s with mem := m } c = true := fun m => hv
  have hvn : ∀ m : Mem, valid_chunk { s with mem := m } (loadLE s.mem (c + 8) 8) = true :=
    fun m => hnv
  have e1 : ∀ v, loadLE (storeLE s.mem (c + 4) 4 v) (c + 8) 8 = loadLE s.mem (c + 8) 8 :=
    fun v => loadLE_storeLE_disjoint _ _ _ _ _ _ (by omega)
  have e2 : ∀ v, loadLE (storeLE s.mem (c + 4) 4 v) (loadLE s.mem (c + 8) 8 + 8) 8
      = loadLE s.mem (loadLE s.mem (c + 8) 8 + 8) 8 :=
    fun v => loadLE_storeLE_disjoint _ _ _ _ _ _ (by omega)
  have e3 : ∀ v w, loadLE (store8 (storeLE (storeLE s.mem (c + 4) 4 v) (c + 8) 8 w) c 1) (c + 4) 4
      = v % UINT_MOD := by
    intro v w
    rw [loadLE_store8_disjoint _ _ _ _ _ (by omega),
      loadLE_storeLE_disjoint _ _ _ _ _ _ (by omega), loadLE_storeLE_same]
    norm_num [UINT_MOD]
  simp only [malloc_visit, get_free, get_size, get_next, set_size, set_next, set_free,
    bind, Except.bind, pure, Except.pure, hv, hnv, hvc, hvn, if_true, if_pos hf, if_neg h1,
    hsf, if_pos hnf, e1, e2, e3, Nat.mod_mod, merge_mem]
  simp

/-- The loop of `custom_malloc`, started at the chunk where `rest` begins in a
well-formed list, leaves memory below the chunks of `rest` alone and returns `NULL` or
the payload address of a chunk of `rest`. -/
theorem malloc_loop_above (req : Nat) (hreq : req < UINT_MOD) (lo : Nat) :
    ∀ (fuel : Nat) (done rest : List Nat) (a : Nat) (s : State) (r : Nat × State),
      WellFormed s (done ++ rest) → IsSeg s s.heap_head done a → 0 < s.heap_mem →
      (∀ y ∈ rest, lo ≤ y) → malloc_loop req fuel a s = .ok r →
      (∀ x, x < lo → r.2.mem x = s.mem x) ∧ r.2.heap_mem = s.heap_mem ∧
        (r.1 = NULL ∨ ∃ y ∈ rest, r.1 = payload y) := by
  intro fuel
  induction fuel with
  | zero => intro done rest a s r _ _ _ _ h; simp [malloc_loop] at h
  | succ f ih =>
    intro done rest a s r hwf hseg hpos hlo h
    by_cases ha : a = NULL
    · rw [malloc_loop, if_pos ha] at h
      cases h
      exact ⟨fun _ _ => rfl, rfl, Or.inl rfl⟩
    · have hch := hwf.position hseg
      cases rest with
      | nil => exact absurd hch ha
      | cons c rest' =>
        obtain ⟨rfl, hc, hv, ht⟩ := hch
        obtain ⟨_, hpost, hend⟩ := hwf.around
        have hvc := (valid_chunk_iff s a).1 hv
        have hbd := hwf.bound
        simp only [HEAP_MEM_BYTES, SBRK_HEAP_SIZE, PTR_SIZE, PTR_MOD] at hbd
        have hloa : lo ≤ a := hlo a (List.mem_cons_self _ _)
        have hlo' : ∀ y ∈ rest', lo ≤ y := fun y hy => hlo y (List.mem_cons_of_mem _ hy)
        have hcont : ∀ r', malloc_loop req f (next_of s a) s = .ok r' →
            (∀ x, x < lo → r'.2.mem x = s.mem x) ∧ r'.2.heap_mem = s.heap_mem ∧
              (r'.1 = NULL ∨ ∃ y ∈ a :: rest', r'.1 = payload y) := by
          intro r' hr'
          obtain ⟨w1, w2⟩ := hwf.snoc_position
          obtain ⟨g1, g2, g3⟩ := ih _ _ _ s r' w1 w2 hpos hlo' hr'
          refine ⟨g1, g2, ?_⟩
          rcases g3 with g3 | ⟨y, hy, g3⟩
          · exact Or.inl g3
          · exact Or.inr ⟨y, List.mem_cons_of_mem _ hy, g3⟩
        by_cases hf : free_of s a = 1
        · by_cases hex : size_of s a = req
          · rw [malloc_loop_step_some req f a _ s _ ha (malloc_visit_exact s a req hv hf hex)] at h
            cases h
            refine ⟨fun x hx => ?_, rfl, Or.inr ⟨a, List.mem_cons_self _ _, rfl⟩⟩
            show store8 s.mem a 0 x = s.mem x
            rw [store8_apply, if_neg (by omega)]
          · by_cases hst : SplitTest s req a
            · cases hs : split (uint_to_int req) a s with
              | error e =>
                rw [malloc_loop_step_error req f a s e ha
                  (malloc_visit_of_split_error s a req e hv hf hex hs)] at h
                cases h
              | ok p =>
                obtain ⟨b, t⟩ := p
                obtain ⟨hb, g1, _, g3⟩ := split_of_test s t a req b hv hst hs
                subst hb
                rw [malloc_loop_step_some req f a _ s _ ha
                  (malloc_visit_of_split_true s t a req hv hf hex hs)] at h
                cases h
                have hge := split_target_ge s a req hreq hst
                  (by simp only [PTR_MOD]; omega)
                exact ⟨fun x hx => g3 x (by omega) (by omega), g1,
                  Or.inr ⟨a, List.mem_cons_self _ _, rfl⟩⟩
            · have hsf := split_false_of_test s a req hv hst
              cases rest' with
              | nil =>
                have hn : next_of s a = NULL := ht
                have hnv : valid_chunk s (next_of s a) = false := by
                  rw [hn]
                  simp only [valid_chunk, NULL, Bool.and_eq_false_imp, decide_eq_true_eq,
                    decide_eq_false_iff_not]
                  intro h0
                  omega
                rw [malloc_loop_step_error req f a s _ ha
                  (malloc_visit_fault_gen s a req hv hf hex hsf hnv)] at h
                cases h
              | cons nx rest2 =>
                obtain ⟨hn, _, hnv, _⟩ := ht
                have hord := hpost nx (by simp)
                by_cases hnf : free_of s nx = 1
                · have hvis := malloc_visit_merge_gen s a req hv hf hex hsf
                    (by rw [hn]; exact hnv) (by rw [hn]; exact hnf) (by rw [hn]; omega)
                  obtain ⟨w, _, _, _, _⟩ := merge_state_wf s done rest2 a nx hwf
                  by_cases hsum : (size_of s a + size_of s (next_of s a)) % UINT_MOD = req
                  · rw [if_pos hsum] at hvis
                    rw [malloc_loop_step_some req f a _ s _ ha hvis] at h
                    cases h
                    refine ⟨fun x hx => ?_, rfl, Or.inr ⟨a, List.mem_cons_self _ _, rfl⟩⟩
                    show store8 (merge_mem s.mem a) a 0 x = s.mem x
                    rw [store8_apply, if_neg (by omega), merge_mem_outside _ _ _ (by omega)]
                  · rw [if_neg hsum] at hvis
                    rw [malloc_loop_step_none req f a s _ ha hvis hv] at h
                    obtain ⟨w1, w2⟩ := w.snoc_position
                    obtain ⟨g1, g2, g3⟩ := ih _ _ _ { s with mem := merge_mem s.mem a } r w1 w2
                      hpos (fun y hy => hlo' y (List.mem_cons_of_mem _ hy)) h
                    refine ⟨fun x hx => ?_, g2, ?_⟩
                    · rw [g1 x hx]
                      exact merge_mem_outside _ _ _ (by omega)
                    · rcases g3 with g3 | ⟨y, hy, g3⟩
                      · exact Or.inl g3
                      · exact Or.inr ⟨y, List.mem_cons_of_mem _ (List.mem_cons_of_mem _ hy), g3⟩
                · rw [malloc_loop_step_none req f a s s ha
                    (malloc_visit_pass_gen s a req hv hf hex hsf
                      (by rw [hn]; exact hnv) (by rw [hn]; exact hnf)) hv] at h
                  exact hcont r h
        · rw [malloc_loop_step_none req f a s s ha (malloc_visit_not_free s a req hv hf) hv] at h
          exact hcont r h

/-! ## Facts that hold while nothing wraps -/

/-- For requests up to `2 ^ 32 - 8` the aligned size is the least multiple of the pointer
size that is not below the request. -/
theorem CUSTOM_ALIGN_in_range (size : Nat) (h : size ≤ 2 ^ 32 - 8) :
    CUSTOM_ALIGN size % PTR_SIZE = 0 ∧ size ≤ CUSTOM_ALIGN size ∧
      CUSTOM_ALIGN size < size + PTR_SIZE ∧
      (size % PTR_SIZE = 0 → CUSTOM_ALIGN size = size) := by
  simp only [CUSTOM_ALIGN, PTR_SIZE, PTR_MOD, UINT_MOD]
  omega

/-- In a well-formed list the header addresses increase strictly. -/
theorem Spaced.increasing {s : State} :
    ∀ {l : List Nat}, Spaced s l → l.Pairwise (fun a b => a < b) := by
  intro l
  induction l with
  | nil => intro _; exact List.Pairwise.nil
  | cons c l ih =>
    intro h
    refine List.Pairwise.cons ?_ (ih (Spaced.tail h))
    intro d hd
    have := Spaced.head_le h d hd
    omega

/-- In a state reached without a wrapping request the chunk list is finite, its
addresses increase strictly, and `display` walks it to the end. -/
theorem reachable_ordered (s : State) (l : List Nat) (h : Reachable s)
    (hl : IsChain s s.heap_head l) :
    l.Pairwise (fun a b => a < b) ∧ display (l.length + 1) s = .ok (display_lines s l) :=
  ⟨Spaced.increasing (reachable_wf s l h hl).spaced,
    display_loop_chain s l s.heap_head (l.length + 1) hl (Nat.lt_succ_self _)⟩

/-! ## Allocated chunks survive a call that does not wrap -/

/-- The loop of `custom_malloc`, for an aligned size below `2 ^ 32 - 16`, keeps every
allocated chunk of the rest of the list in the list with its flag and size, and what it
returns is `NULL` or the payload address of a chunk that was free and is now
allocated. -/
theorem malloc_loop_keeps (req : Nat) (hreq : req < 2 ^ 32 - 16) :
    ∀ (fuel : Nat) (done rest : List Nat) (a : Nat) (s : State) (r : Nat × State),
      WellFormed s (done ++ rest) → IsSeg s s.heap_head done a → 0 < s.heap_mem →
      malloc_loop req fuel a s = .ok r →
      ∃ l, WellFormed r.2 (done ++ l) ∧
        (∀ x ∈ rest, free_of s x ≠ 1 →
          x ∈ l ∧ free_of r.2 x = free_of s x ∧ size_of r.2 x = size_of s x) ∧
        (r.1 = NULL ∨ ∃ y ∈ rest, free_of s y = 1 ∧ r.1 = payload y ∧ y ∈ l ∧
          free_of r.2 y = 0) := by
  have hreq2 : req < UINT_MOD := by simp only [UINT_MOD]; omega
  intro fuel
  induction fuel with
  | zero => intro done rest a s r _ _ _ h; simp [malloc_loop] at h
  | succ f ih =>
    intro done rest a s r hwf hseg hpos h
    by_cases ha : a = NULL
    · rw [malloc_loop, if_pos ha] at h
      cases h
      exact ⟨rest, hwf, fun x hx _ => ⟨hx, rfl, rfl⟩, Or.inl rfl⟩
    · have hch := hwf.position hseg
      cases rest with
      | nil => exact absurd hch ha
      | cons c rest' =>
        obtain ⟨rfl, hc, hv, ht⟩ := hch
        obtain ⟨_, hpost, hend⟩ := hwf.around
        have hvc := (valid_chunk_iff s a).1 hv
        -- the walk goes on in the state `t`, whose list is `done ++ a :: rest2`
        have hcont : ∀ (t : State) (rest2 : List Nat) (r' : Nat × State),
            WellFormed t (done ++ a :: rest2) → t.heap_mem = s.heap_mem →
            malloc_loop req f (next_of t a) t = .ok r' →
            ∃ l, WellFormed r'.2 (done ++ l) ∧
              (a ∈ l ∧ free_of r'.2 a = free_of t a ∧ size_of r'.2 a = size_of t a) ∧
              (∀ x ∈ rest2, free_of t x ≠ 1 →
                x ∈ l ∧ free_of r'.2 x = free_of t x ∧ size_of r'.2 x = size_of t x) ∧
              (r'.1 = NULL ∨ ∃ y ∈ rest2, free_of t y = 1 ∧ r'.1 = payload y ∧ y ∈ l ∧
                free_of r'.2 y = 0) := by
          intro t rest2 r' wt hm hr'
          obtain ⟨w1, w2⟩ := wt.snoc_position
          have hpos' : 0 < t.heap_mem := by rw [hm]; exact hpos
          obtain ⟨l, g1, g2, g3⟩ := ih _ _ _ t r' w1 w2 hpos' hr'
          obtain ⟨_, hpost2, _⟩ := wt.around
          have hlo : ∀ y ∈ rest2, a + 16 ≤ y := by
            intro y hy
            have := hpost2 y hy
            omega
          obtain ⟨k1, _, _⟩ := malloc_loop_above req hreq2 (a + 16) f _ _ _ t r' w1 w2 hpos'
            hlo hr'
          have e : (done ++ [a]) ++ l = done ++ a :: l := by simp
          rw [e] at g1
          refine ⟨a :: l, g1, ⟨List.mem_cons_self _ _, ?_, ?_⟩, ?_, ?_⟩
          · simp only [free_of, load8]
            rw [k1 a (by omega)]
          · exact loadLE_congr _ _ _ _ (fun x _ h2 => k1 x (by omega))
          · intro x hx hxf
            obtain ⟨q1, q2, q3⟩ := g2 x hx hxf
            exact ⟨List.mem_cons_of_mem _ q1, q2, q3⟩
          · rcases g3 with g3 | ⟨y, hy, q1, q2, q3, q4⟩
            · exact Or.inl g3
            · exact Or.inr ⟨y, hy, q1, q2, List.mem_cons_of_mem _ q3, q4⟩
        by_cases hf : free_of s a = 1
        · by_cases hex : size_of s a = req
          · rw [malloc_loop_step_some req f a _ s _ ha (malloc_visit_exact s a req hv hf hex)] at h
            cases h
            obtain ⟨w, f1, _, _, f4⟩ := flag_state_wf s done rest' a 0 hwf
            refine ⟨a :: rest', w, ?_, Or.inr ⟨a, List.mem_cons_self _ _, hf, rfl,
              List.mem_cons_self _ _, f1⟩⟩
            intro x hx hxf
            rcases List.mem_cons.1 hx with rfl | hx'
            · exact absurd hf hxf
            · obtain ⟨q1, q2, _⟩ := f4 x (List.mem_append_right _ hx')
              exact ⟨hx, q1, q2⟩
          · by_cases hsp : req + 16 ≤ size_of s a
            · rw [malloc_loop_step_some req f a _ s _ ha
                (malloc_visit_split s a req hv hf (by omega) hsp hend hwf.bound)] at h
              cases h
              obtain ⟨w, f1, _, _, _, _, _, f4⟩ := split_state_wf s done rest' a req hwf hsp
              refine ⟨a :: (a + req + 16) :: rest', w, ?_, Or.inr ⟨a, List.mem_cons_self _ _, hf,
                rfl, List.mem_cons_self _ _, f1⟩⟩
              intro x hx hxf
              rcases List.mem_cons.1 hx with rfl | hx'
              · exact absurd hf hxf
              · obtain ⟨q1, q2, _⟩ := f4 x (List.mem_append_right _ hx')
                exact ⟨List.mem_cons_of_mem _ (List.mem_cons_of_mem _ hx'), q1, q2⟩
            · cases rest' with
              | nil =>
                have hn : next_of s a = NULL := ht
                have hnv : valid_chunk s (next_of s a) = false := by
                  rw [hn]
                  simp only [valid_chunk, NULL, Bool.and_eq_false_imp, decide_eq_true_eq,
                    decide_eq_false_iff_not]
                  intro h0
                  omega
                rw [malloc_loop_step_error req f a s _ ha
                  (malloc_visit_fault s a req hv hf hreq hex (by omega) hnv)] at h
                cases h
              | cons nx rest2 =>
                obtain ⟨hn, _, hnv, _⟩ := ht
                have hord := hpost nx (by simp)
                by_cases hnf : free_of s nx = 1
                · have hvis := malloc_visit_merge s a req hv hf hreq hex (by omega)
                    (by rw [hn]; exact hnv) (by rw [hn]; exact hnf) (by rw [hn]; omega)
                  obtain ⟨w, _, _, _, m4⟩ := merge_state_wf s done rest2 a nx hwf
                  by_cases hsum : (size_of s a + size_of s (next_of s a)) % UINT_MOD = req
                  · rw [if_pos hsum] at hvis
                    rw [malloc_loop_step_some req f a _ s _ ha hvis] at h
                    cases h
                    obtain ⟨w2, f1, _, _, k4⟩ := flag_state_wf _ done rest2 a 0 w
                    refine ⟨a :: rest2, w2, ?_, Or.inr ⟨a, List.mem_cons_self _ _, hf, rfl,
                      List.mem_cons_self _ _, f1⟩⟩
                    intro x hx hxf
                    rcases List.mem_cons.1 hx with rfl | hx'
                    · exact absurd hf hxf
                    · rcases List.mem_cons.1 hx' with rfl | hx2
                      · exact absurd hnf hxf
                      · obtain ⟨q1, q2, _⟩ := m4 x (List.mem_append_right _ hx2)
                        obtain ⟨p1, p2, _⟩ := k4 x (List.mem_append_right _ hx2)
                        exact ⟨List.mem_cons_of_mem _ hx2, p1.trans q1, p2.trans q2⟩
                  · rw [if_neg hsum] at hvis
                    rw [malloc_loop_step_none req f a s _ ha hvis hv] at h
                    obtain ⟨l, g1, _, g2, g3⟩ := hcont _ rest2 r w rfl h
                    refine ⟨l, g1, ?_, ?_⟩
                    · intro x hx hxf
                      rcases List.mem_cons.1 hx with rfl | hx'
                      · exact absurd hf hxf
                      · rcases List.mem_cons.1 hx' with rfl | hx2
                        · exact absurd hnf hxf
                        · obtain ⟨q1, q2, _⟩ := m4 x (List.mem_append_right _ hx2)
                          obtain ⟨p0, p1, p2⟩ := g2 x hx2 (by rw [q1]; exact hxf)
                          exact ⟨p0, p1.trans q1, p2.trans q2⟩
                    · rcases g3 with g3 | ⟨y, hy, q1, q2, q3, q4⟩
                      · exact Or.inl g3
                      · obtain ⟨p1, _, _⟩ := m4 y (List.mem_append_right _ hy)
                        exact Or.inr ⟨y, List.mem_cons_of_mem _ (List.mem_cons_of_mem _ hy),
                          by rw [← p1]; exact q1, q2, q3, q4⟩
                · rw [malloc_loop_step_none req f a s s ha
                    (malloc_visit_pass_of_lt s a req hv hf hreq hex (by omega)
                      (by rw [hn]; exact hnv) (by rw [hn]; exact hnf)) hv] at h
                  obtain ⟨l, g1, _, g2, g3⟩ := hcont s (nx :: rest2) r hwf rfl h
                  refine ⟨l, g1, ?_, ?_⟩
                  · intro x hx hxf
                    rcases List.mem_cons.1 hx with rfl | hx'
                    · exact absurd hf hxf
                    · exact g2 x hx' hxf
                  · rcases g3 with g3 | ⟨y, hy, q⟩
                    · exact Or.inl g3
                    · exact Or.inr ⟨y, List.mem_cons_of_mem _ hy, q⟩
        · rw [malloc_loop_step_none req f a s s ha (malloc_visit_not_free s a req hv hf) hv] at h
          obtain ⟨l, g1, ga, g2, g3⟩ := hcont s rest' r hwf rfl h
          refine ⟨l, g1, ?_, ?_⟩
          · intro x hx hxf
            rcases List.mem_cons.1 hx with rfl | hx'
            · exact ga
            · exact g2 x hx' hxf
          · rcases g3 with g3 | ⟨y, hy, q⟩
            · exact Or.inl g3
            · exact Or.inr ⟨y, List.mem_cons_of_mem _ hy, q⟩

/-- In an initialised well-formed state, a call of `custom_malloc` whose aligned size is
below `2 ^ 32 - 16` keeps every allocated chunk in the list with its flag and size, and
returns `NULL` or the payload address of a chunk that was free before the call and is
allocated after it. -/
theorem custom_malloc_keeps (s : State) (l : List Nat) (fuel size : Nat) (r : Nat × State)
    (hwf : WellFormed s l) (hpos : 0 < s.heap_mem) (hinit : s.heap_head ≠ NULL)
    (hsane : CUSTOM_ALIGN size < 2 ^ 32 - 16) (h : custom_malloc fuel size s = .ok r) :
    ∃ k, WellFormed r.2 k ∧
      (∀ x ∈ l, free_of s x ≠ 1 →
        x ∈ k ∧ free_of r.2 x = free_of s x ∧ size_of r.2 x = size_of s x) ∧
      (r.1 = NULL ∨ ∃ y ∈ l, free_of s y = 1 ∧ r.1 = payload y ∧ y ∈ k ∧
        free_of r.2 y = 0) := by
  rw [custom_malloc_eq_loop s fuel size hinit] at h
  exact malloc_loop_keeps (CUSTOM_ALIGN size) hsane fuel [] l s.heap_head s r hwf rfl hpos h

/-! ## The outcome of a split -/

/-- What a split does. Let the chunk list of a well-formed state be `pre ++ c :: post`,
where every chunk of `pre` is allocated and `c` is free with size
`n + META_DATA_SIZE_BYTES + k` for an aligned `n`.  Then `custom_malloc(n)` returns the
address `c + 256` (the header address plus `META_DATA_SIZE_BYTES` structs of
`META_DATA_SIZE_BYTES` bytes); afterwards the list is `pre ++ c :: new :: post` with
`new = c + META_DATA_SIZE_BYTES + n`, `c` is allocated with size `n` and link `new`,
`new` is free with size `k` and its link is the former link of `c`, and nothing else
changes. -/
theorem split_outcome (s : State) (pre post : List Nat) (c n k fuel : Nat)
    (hwf : WellFormed s (pre ++ c :: post)) (hn : n % PTR_SIZE = 0)
    (hpre : ∀ d ∈ pre, free_of s d ≠ 1) (hfree : free_of s c = 1)
    (hsz : size_of s c = n + META_DATA_SIZE_BYTES + k) (hfuel : pre.length < fuel) :
    ∃ t, custom_malloc fuel n s = .ok ((c + 256) % 2 ^ 64, t) ∧
      t.heap_head = s.heap_head ∧ t.current_ptr = s.current_ptr ∧
      t.end_ptr = s.end_ptr ∧ t.heap_mem = s.heap_mem ∧
      WellFormed t (pre ++ c :: (c + META_DATA_SIZE_BYTES + n) :: post) ∧
      free_of t c = 0 ∧ size_of t c = n ∧ next_of t c = c + META_DATA_SIZE_BYTES + n ∧
      free_of t (c + META_DATA_SIZE_BYTES + n) = 1 ∧
      size_of t (c + META_DATA_SIZE_BYTES + n) = k ∧
      next_of t (c + META_DATA_SIZE_BYTES + n) = next_of s c ∧
      ∀ d ∈ pre ++ post,
        free_of t d = free_of s d ∧ size_of t d = size_of s d ∧ next_of t d = next_of s d := by
  obtain ⟨_, _, hend⟩ := hwf.around
  have hbd := hwf.bound
  have hvc := (valid_chunk_iff s c).1 (hwf.chunk_valid c (by simp))
  simp only [META_DATA_SIZE_BYTES, PTR_SIZE] at hsz hn
  have hreq : n < 2 ^ 31 := by omega
  have hal : CUSTOM_ALIGN n = n := CUSTOM_ALIGN_aligned n hn (by omega)
  have hnew : c + META_DATA_SIZE_BYTES + n = c + n + 16 := by
    simp only [META_DATA_SIZE_BYTES]; omega
  have hrun : custom_malloc fuel n s
      = .ok (payload c, { s with mem := split_mem s.mem c n }) := by
    rw [custom_malloc_eq_loop s fuel n (IsChain.head_ne_null hwf.chain), hal]
    exact malloc_loop_split s pre post c n fuel s.heap_head hwf.chain
      (fun d hd => Or.inl (hpre d hd)) hreq hfree (by omega) hend hbd hfuel
  obtain ⟨w, f1, f2, f3, f4, f5, f6, hrest⟩ := split_state_wf s pre post c n hwf (by omega)
  rw [hnew]
  exact ⟨_, hrun, rfl, rfl, rfl, rfl, w, f1, f2, f3, f4, by rw [f5]; omega, f6, hrest⟩

/-! ## One merge that is not an exact fit -/

/-- What the merge branch does when the sum of the two size fields is not the aligned
size. Let the walk of `custom_malloc(size)` be at the chunk `c` of a well-formed list
`done ++ c :: d :: post`, where `c` is free, is not an exact fit and fails the test of
`split`, `d` is free, and `c.size + d.size` differs from the aligned size.  Then the
iteration returns nothing and the walk goes on at the former successor of `d`, in a state
whose list is `done ++ c :: post` and where `c` is free with size `c.size + d.size` and
the former link of `d`; when the call returns, it returns `NULL` or the payload address
of a chunk of `post`, and the header of `c` is as the merge left it. -/
theorem merge_step_resumes (s : State) (done post : List Nat) (c d size fuel : Nat)
    (hwf : WellFormed s (done ++ c :: d :: post)) (hpos : 0 < s.heap_mem)
    (hfree : free_of s c = 1) (hne : size_of s c ≠ CUSTOM_ALIGN size)
    (hns : ¬ SplitTest s (CUSTOM_ALIGN size) c) (hdfree : free_of s d = 1)
    (hsum : size_of s c + size_of s d ≠ CUSTOM_ALIGN size) :
    malloc_loop (CUSTOM_ALIGN size) (fuel + 1) c s
        = malloc_loop (CUSTOM_ALIGN size) fuel (next_of s d)
            { s with mem := merge_mem s.mem c } ∧
      WellFormed { s with mem := merge_mem s.mem c } (done ++ c :: post) ∧
      free_of { s with mem := merge_mem s.mem c } c = 1 ∧
      size_of { s with mem := merge_mem s.mem c } c = size_of s c + size_of s d ∧
      next_of { s with mem := merge_mem s.mem c } c = next_of s d ∧
      ∀ r, malloc_loop (CUSTOM_ALIGN size) (fuel + 1) c s = .ok r →
        (r.1 = NULL ∨ ∃ y ∈ post, c < y ∧ r.1 = payload y) ∧
          free_of r.2 c = 1 ∧ size_of r.2 c = size_of s c + size_of s d ∧
          next_of r.2 c = next_of s d := by
  have hreq : CUSTOM_ALIGN size < UINT_MOD := by
    simp only [CUSTOM_ALIGN, UINT_MOD]
    exact Nat.mod_lt _ (by decide)
  obtain ⟨_, hpost, hend⟩ := hwf.around
  have hcd := hpost d (by simp)
  obtain ⟨b, hseg, hb⟩ := (IsChain.append_iff s (c :: d :: post) done s.heap_head).1 hwf.chain
  obtain ⟨rfl, hc, hv, ht⟩ := hb
  obtain ⟨hn, _, hdv, _⟩ := ht
  have hsp2 := Spaced.tail (Spaced.split hwf.spaced).2
  have hdend := Spaced.head_end hsp2
  have hsf := split_false_of_test s b (CUSTOM_ALIGN size) hv hns
  obtain ⟨w, f1, f2, f3, _⟩ := merge_state_wf s done post b d hwf
  have hsum2 : ¬ ((size_of s b + size_of s (next_of s b)) % UINT_MOD = CUSTOM_ALIGN size) := by
    rw [hn]
    have hvb := (valid_chunk_iff s b).1 hv
    simp only [UINT_MOD]
    omega
  have hvis := malloc_visit_merge_gen s b (CUSTOM_ALIGN size) hv hfree hne hsf
    (by rw [hn]; exact hdv) (by rw [hn]; exact hdfree) (by rw [hn]; omega)
  rw [if_neg hsum2] at hvis
  have hstep := malloc_loop_step_none (CUSTOM_ALIGN size) fuel b s _ hc hvis hv
  rw [f3] at hstep
  refine ⟨hstep, w, f1, f2, f3, ?_⟩
  intro r hr
  rw [hstep] at hr
  obtain ⟨w1, w2⟩ := w.snoc_position
  rw [f3] at w2
  have hlo : ∀ y ∈ post, b + 16 ≤ y := by
    intro y hy
    have := hpost y (List.mem_cons_of_mem _ hy)
    omega
  obtain ⟨g1, _, g3⟩ := malloc_loop_above (CUSTOM_ALIGN size) hreq (b + 16) fuel (done ++ [b]) post
    (next_of s d) { s with mem := merge_mem s.mem b } r w1 w2 hpos hlo hr
  refine ⟨?_, ?_, ?_, ?_⟩
  · rcases g3 with g3 | ⟨y, hy, g3⟩
    · exact Or.inl g3
    · exact Or.inr ⟨y, hy, by have := hlo y hy; omega, g3⟩
  · rw [← f1]
    simp only [free_of, load8]
    rw [g1 b (by omega)]
  · rw [← f2]
    exact loadLE_congr _ _ _ _ (fun x _ h2 => g1 x (by omega))
  · rw [← f3]
    exact loadLE_congr _ _ _ _ (fun x _ h2 => g1 x (by omega))


/-! ## The walk up to the first chunk that satisfies the request -/

/-- Whether the walk arrives depends only on the flags and sizes of the chunks. -/
theorem WalkArrives.walk_congr (s t : State) (req c : Nat) :
    ∀ (n : Nat) (l : List Nat), l.length ≤ n →
      (∀ d ∈ c :: l, free_of t d = free_of s d ∧ size_of t d = size_of s d) →
      WalkArrives s req c l → WalkArrives t req c l := by
  intro n
  induction n with
  | zero =>
    intro l hl _ _
    have : l = [] := List.eq_nil_of_length_eq_zero (by omega)
    subst this
    trivial
  | succ n ih =>
    intro l hl hsame hw
    match l, hl, hsame, hw with
    | [], _, _, _ => trivial
    | [d], _, hsame, hw =>
      simp only [WalkArrives] at hw ⊢
      rw [(hsame d (by simp)).1, (hsame c (by simp)).1]
      exact hw
    | d :: e :: l, hl, hsame, hw =>
      simp only [WalkArrives] at hw ⊢
      rw [(hsame d (by simp)).1, (hsame e (by simp)).1, (hsame d (by simp)).2,
        (hsame e (by simp)).2]
      simp only [List.length_cons] at hl
      split at hw
      · rename_i hc
        rw [if_pos hc]
        exact ⟨hw.1, hw.2.1, ih l (by omega) (fun x hx => hsame x (by
          simp only [List.mem_cons] at hx ⊢; tauto)) hw.2.2⟩
      · rename_i hc
        rw [if_neg hc]
        exact ih (e :: l) (by simp only [List.length_cons]; omega) (fun x hx => hsame x (by
          simp only [List.mem_cons] at hx ⊢; tauto)) hw

/-- A chunk that does not satisfy the request and is not merged is passed: the
iteration returns nothing and writes nothing. -/
theorem malloc_visit_moves_on (s : State) (d req : Nat) (hv : valid_chunk s d = true)
    (hreq : req < 2 ^ 31) (hns : ¬ Satisfies s req d)
    (hnv : valid_chunk s (next_of s d) = true)
    (hnm : ¬ (free_of s d = 1 ∧ free_of s (next_of s d) = 1)) :
    malloc_visit req d s = .ok (none, s) := by
  by_cases hf : free_of s d = 1
  · simp only [Satisfies, META_DATA_SIZE_BYTES, not_and, not_or] at hns
    obtain ⟨h1, h2⟩ := hns hf
    exact malloc_visit_pass s d req hv hreq h1 (by omega) hnv (fun h => hnm ⟨hf, h⟩)
  · exact malloc_visit_not_free s d req hv hf

/-- One merge that is not returned: at the free chunk `a` with the free successor `e`,
when `a` does not satisfy the request and the sum of the two size fields is not `req`,
the iteration returns nothing and the walk goes on at the successor of `e`, in a state
that differs only in the header of `a`. -/
theorem malloc_loop_merge_step (s : State) (done rest : List Nat) (a e req : Nat)
    (hreq : req < 2 ^ 31) (hwf : WellFormed s (done ++ a :: e :: rest))
    (hfa : free_of s a = 1) (hfe : free_of s e = 1) (hns : ¬ Satisfies s req a)
    (hsum : size_of s a + size_of s e ≠ req) :
    ∃ s1 : State,
      (∀ f, malloc_loop req (f + 1) a s = malloc_loop req f (next_of s1 a) s1) ∧
      WellFormed s1 ((done ++ [a]) ++ rest) ∧
      IsSeg s1 s1.heap_head (done ++ [a]) (next_of s1 a) ∧
      (∀ x, x < a ∨ a + 16 ≤ x → s1.mem x = s.mem x) ∧ free_of s1 a = 1 ∧
      ∀ x ∈ rest, free_of s1 x = free_of s x ∧ size_of s1 x = size_of s x := by
  obtain ⟨b, hseg, hb⟩ := (IsChain.append_iff s (a :: e :: rest) done s.heap_head).1 hwf.chain
  obtain ⟨rfl, hd0, hvd, hnx⟩ := hb
  have hne : next_of s b = e := hnx.1
  have hve : valid_chunk s e = true := hnx.2.2.1
  have hsp := (Spaced.split hwf.spaced).2
  have hae : b + 16 + size_of s b ≤ e := hsp.1
  simp only [Satisfies, META_DATA_SIZE_BYTES, not_and, not_or] at hns
  obtain ⟨h1, h2⟩ := hns hfa
  obtain ⟨w, f1, f2, f3, fr⟩ := merge_state_wf s done rest b e hwf
  have hee := Spaced.head_end (Spaced.tail hsp)
  have hbd := hwf.bound
  have hva := (valid_chunk_iff s b).1 hvd
  have hsum2 : ¬ ((size_of s b + size_of s (next_of s b)) % UINT_MOD = req) := by
    rw [hne]
    simp only [UINT_MOD, HEAP_MEM_BYTES, SBRK_HEAP_SIZE, PTR_SIZE, PTR_MOD] at hbd ⊢
    omega
  have hvis := malloc_visit_merge s b req hvd hfa (by omega) h1 (by omega)
    (by rw [hne]; exact hve) (by rw [hne]; exact hfe) (by rw [hne]; omega)
  rw [if_neg hsum2] at hvis
  obtain ⟨w1, w2⟩ := w.snoc_position
  refine ⟨{ s with mem := merge_mem s.mem b }, ?_, w1, w2, ?_, f1, ?_⟩
  · intro f
    exact malloc_loop_step_none req f b s _ hd0 hvis hvd
  · intro x hx
    exact merge_mem_outside s.mem b x hx
  · intro x hx
    have := fr x (List.mem_append_right _ hx)
    exact ⟨this.1, this.2.1⟩

/-- The walk from the first chunk of `pre` arrives at `c`: after at most `pre.length`
iterations it stands at `c`, in a state whose list keeps the chunks `kept` of `pre`, where
only headers of chunks of `pre` are written and every chunk of `pre` has its flag. -/
theorem malloc_loop_arrives (req c : Nat) (post : List Nat) (hreq : req < 2 ^ 31) :
    ∀ (n : Nat) (pre done : List Nat) (s : State) (a : Nat),
      pre.length ≤ n →
      WellFormed s (done ++ (pre ++ c :: post)) → IsSeg s s.heap_head done a →
      (∀ d ∈ pre, ¬ Satisfies s req d) → WalkArrives s req c pre →
      ∃ (k : Nat) (kept : List Nat) (t : State),
        k ≤ pre.length ∧ kept.length ≤ pre.length ∧
        (∀ f, malloc_loop req (k + f) a s = malloc_loop req f c t) ∧
        WellFormed t (done ++ (kept ++ c :: post)) ∧
        (∀ x, (∀ d ∈ pre, x < d ∨ d + 16 ≤ x) → t.mem x = s.mem x) ∧
        (∀ d ∈ pre, free_of t d = free_of s d) := by
  intro n
  induction n with
  | zero =>
    intro pre done s a hl hwf hseg _ _
    have : pre = [] := List.eq_nil_of_length_eq_zero (by omega)
    subst this
    have hch := hwf.position hseg
    refine ⟨0, [], s, le_refl _, le_refl _, ?_, hwf, fun _ _ => rfl, by simp⟩
    intro f
    rw [hch.1, Nat.zero_add]
  | succ n ih =>
    intro pre done s a hl hwf hseg hfirst hw
    match pre, hl, hwf, hfirst, hw with
    | [], _, hwf, _, _ =>
      have hch := hwf.position hseg
      refine ⟨0, [], s, le_refl _, le_refl _, ?_, hwf, fun _ _ => rfl, by simp⟩
      intro f
      rw [hch.1, Nat.zero_add]
    | [d], _, hwf, hfirst, hw =>
      have hch := hwf.position hseg
      obtain ⟨rfl, hd0, hvd, hnx⟩ := hch
      have hnc : next_of s a = c := hnx.1
      have hvc : valid_chunk s c = true := hnx.2.2.1
      simp only [WalkArrives] at hw
      have hvis := malloc_visit_moves_on s a req hvd hreq (hfirst a (by simp))
        (by rw [hnc]; exact hvc) (by rw [hnc]; exact hw)
      refine ⟨1, [a], s, le_refl _, le_refl _, ?_, hwf, fun _ _ => rfl, fun _ _ => rfl⟩
      intro f
      rw [Nat.add_comm, malloc_loop_step_none req f a s s hd0 hvis hvd, hnc]
    | d :: e :: l, hl, hwf, hfirst, hw =>
      have hch := hwf.position hseg
      obtain ⟨rfl, hd0, hvd, hnx⟩ := hch
      have hne : next_of s a = e := hnx.1
      have hve : valid_chunk s e = true := hnx.2.2.1
      simp only [List.length_cons] at hl
      simp only [WalkArrives] at hw
      have hsp := (Spaced.split hwf.spaced).2
      have hae : a + 16 + size_of s a ≤ e := hsp.1
      have hlo : ∀ x ∈ e :: (l ++ c :: post), a + 16 + size_of s a ≤ x := Spaced.head_le hsp
      have hl1 : ∀ z ∈ l, a + 16 ≤ z := by
        intro z hz
        have q1 := hlo z (List.mem_cons_of_mem _ (List.mem_append_left _ hz))
        omega
      have hl2 : ∀ z ∈ l, e + 16 ≤ z := by
        intro z hz
        have q2 := Spaced.head_le (Spaced.tail hsp) z (List.mem_append_left _ hz)
        omega
      by_cases hc : free_of s a = 1 ∧ free_of s e = 1
      · rw [if_pos hc] at hw
        obtain ⟨hs1, hs2, hw'⟩ := hw
        obtain ⟨s1, hstep, w1, w2, hout, hfa1, hsame⟩ :=
          malloc_loop_merge_step s done (l ++ c :: post) a e req hreq hwf hc.1 hc.2
            (hfirst a (List.mem_cons_self _ _)) hs1
        have hfirst1 : ∀ x ∈ l, ¬ Satisfies s1 req x := by
          intro x hx hsat
          obtain ⟨g1, g2⟩ := hsame x (List.mem_append_left _ hx)
          simp only [Satisfies] at hsat
          rw [g1, g2] at hsat
          exact hfirst x (List.mem_cons_of_mem _ (List.mem_cons_of_mem _ hx)) hsat
        have hw1 : WalkArrives s1 req c l := by
          refine WalkArrives.walk_congr s s1 req c l.length l (le_refl _) ?_ hw'
          intro x hx
          rcases List.mem_cons.1 hx with rfl | hx
          · exact hsame x (List.mem_append_right _ (List.mem_cons_self _ _))
          · exact hsame x (List.mem_append_left _ hx)
        obtain ⟨k, kept, t, hk, hkl, hrun, hwt, hM, hG⟩ :=
          ih l (done ++ [a]) s1 (next_of s1 a) (by omega) w1 w2 hfirst1 hw1
        refine ⟨k + 1, a :: kept, t, by simp only [List.length_cons]; omega,
          by simp only [List.length_cons]; omega, ?_, ?_, ?_, ?_⟩
        · intro f
          rw [show k + 1 + f = (k + f) + 1 by omega, hstep (k + f)]
          exact hrun f
        · rw [List.append_assoc] at hwt
          exact hwt
        · intro x hx
          have hxa := hx a (List.mem_cons_self _ _)
          rw [hM x (fun y hy => hx y (List.mem_cons_of_mem _ (List.mem_cons_of_mem _ hy)))]
          exact hout x hxa
        · intro y hy
          rcases List.mem_cons.1 hy with rfl | hy
          · have h3 : t.mem y = s1.mem y := by
              refine hM y (fun z hz => Or.inl ?_)
              have := hl1 z hz
              omega
            have h4 : free_of t y = free_of s1 y := by simp only [free_of, load8, h3]
            rw [h4, hfa1, hc.1]
          · rcases List.mem_cons.1 hy with rfl | hy
            · have h3 : t.mem y = s1.mem y := by
                refine hM y (fun z hz => Or.inl ?_)
                have := hl2 z hz
                omega
              have h4 : free_of t y = free_of s y := by
                simp only [free_of, load8, h3, hout y (Or.inr (by omega))]
              exact h4
            · rw [hG y hy]
              exact (hsame y (List.mem_append_left _ hy)).1
      · rw [if_neg hc] at hw
        have hvis := malloc_visit_moves_on s a req hvd hreq (hfirst a (List.mem_cons_self _ _))
          (by rw [hne]; exact hve) (by rw [hne]; exact hc)
        obtain ⟨w1, w2⟩ := hwf.snoc_position
        rw [hne] at w2
        obtain ⟨k, kept, t, hk, hkl, hrun, hwt, hM, hG⟩ :=
          ih (e :: l) (done ++ [a]) s e (by simp only [List.length_cons]; omega) w1 w2
            (fun x hx => hfirst x (List.mem_cons_of_mem _ hx)) hw
        refine ⟨k + 1, a :: kept, t, by simp only [List.length_cons] at hk ⊢; omega,
          by simp only [List.length_cons] at hkl ⊢; omega, ?_, ?_, ?_, ?_⟩
        · intro f
          rw [show k + 1 + f = (k + f) + 1 by omega,
            malloc_loop_step_none req (k + f) a s s hd0 hvis hvd, hne]
          exact hrun f
        · rw [List.append_assoc] at hwt
          exact hwt
        · intro x hx
          exact hM x (fun y hy => hx y (List.mem_cons_of_mem _ hy))
        · intro y hy
          rcases List.mem_cons.1 hy with rfl | hy
          · have h3 : t.mem y = s.mem y := by
              refine hM y (fun z hz => Or.inl ?_)
              rcases List.mem_cons.1 hz with rfl | hz
              · omega
              · have := hl1 z hz
                omega
            simp only [free_of, load8, h3]
          · exact hG y hy

/-- The iteration at a chunk that satisfies the request returns the address computed for
that chunk, marks it allocated with the aligned size, and writes nothing below it. -/
theorem malloc_visit_takes (t : State) (kept post : List Nat) (c req : Nat)
    (hreq : req < 2 ^ 31) (hwt : WellFormed t (kept ++ c :: post))
    (hsat : Satisfies t req c) :
    ∃ (t1 : State) (post1 : List Nat),
      malloc_visit req c t = .ok (some (payload c), t1) ∧
      WellFormed t1 (kept ++ c :: post1) ∧ free_of t1 c = 0 ∧ size_of t1 c = req ∧
      (∀ x, x < c → t1.mem x = t.mem x) ∧ (∀ d ∈ post, free_of t1 d = free_of t d) := by
  obtain ⟨_, _, hend⟩ := hwt.around
  have hvc := hwt.chunk_valid c (by simp)
  obtain ⟨hfree, hfit⟩ := hsat
  simp only [META_DATA_SIZE_BYTES] at hfit
  by_cases hex : size_of t c = req
  · obtain ⟨w, f1, f2, _, fr⟩ := flag_state_wf t kept post c 0 hwt
    refine ⟨{ t with mem := store8 t.mem c 0 }, post, malloc_visit_exact t c req hvc hfree hex,
      w, f1, by rw [f2, hex], ?_, fun d hd => (fr d (List.mem_append_right _ hd)).1⟩
    intro x hx
    show store8 t.mem c 0 x = t.mem x
    rw [store8_apply, if_neg (by omega)]
  · have hsz : req + 16 ≤ size_of t c := by
      rcases hfit with h | h
      · exact absurd h hex
      · exact h
    obtain ⟨w, f1, f2, _, _, _, _, fr⟩ := split_state_wf t kept post c req hwt hsz
    refine ⟨{ t with mem := split_mem t.mem c req }, (c + req + 16) :: post,
      malloc_visit_split t c req hvc hfree hreq hsz hend hwt.bound, w, f1, f2, ?_,
      fun d hd => (fr d (List.mem_append_right _ hd)).1⟩
    intro x hx
    exact split_mem_outside t.mem c req x (Or.inl hx) (Or.inl (by omega))

/-- A merge can return a chunk before the walk reaches the first chunk that satisfies
the request: in `tie_state` the chunks at 65584 and 65616 satisfy a request of 16 bytes
and no earlier chunk does, but the free chunks at 65536 and 65560 have the size fields 8
and 8, the merge branch finds 8 + 8 = 16 and `custom_malloc(16)` returns the chunk at
65536, allocated with size 16. -/
theorem merge_returned_before_fit :
    WellFormed tie_state [65536, 65560, 65584, 65616, 65648, 65672] ∧
      ¬ Satisfies tie_state (CUSTOM_ALIGN 16) 65536 ∧
      ¬ Satisfies tie_state (CUSTOM_ALIGN 16) 65560 ∧
      Satisfies tie_state (CUSTOM_ALIGN 16) 65584 ∧
      Satisfies tie_state (CUSTOM_ALIGN 16) 65616 ∧
      ¬ WalkArrives tie_state (CUSTOM_ALIGN 16) 65584 [65536, 65560] ∧
      (custom_malloc 8 16 tie_state).toOption.map
          (fun r => (r.1, free_of r.2 65536, size_of r.2 65536, free_of r.2 65584))
        = some (payload 65536, 0, 16, 1) := by
  refine ⟨⟨?_, ?_, ?_⟩, ?_, ?_, ?_, ?_, ?_, ?_⟩ <;> decide!
/-- C1 (tiling) fails on the code. Allocating 8, 8 and 8 bytes, releasing the first two
chunks and allocating 24 bytes runs without error and leaves the chunk list
65536, 65584, 65608, 65648; the merged chunk at 65536 has size 16 (the sizes 8 + 8 of
the two merged chunks, without the 16 bytes of the absorbed header), so its span ends
at 65568 while the next chunk starts at 65584: the list is not tiled. -/
theorem tiling_broken_by_merge :
    (run_calls 8 tiling_calls (initial_state 65536)).toBool = true ∧
      IsChain tiling_state tiling_state.heap_head [65536, 65584, 65608, 65648] ∧
      size_of tiling_state 65536 = 16 ∧ next_of tiling_state 65536 = 65584 ∧
      ¬ Tiled tiling_state [65536, 65584, 65608, 65648] := by
  refine ⟨?_, ?_, ?_, ?_, ?_⟩ <;> decide!

/-- C2 fails on the code. On the initial state `custom_malloc(8)` picks the chunk whose
header is at 65536 and returns 65536 + 16 * 16 = 65792, not 65536 + 16: the returned
block of 8 bytes starts after the header of the next chunk at 65560, outside the span
of the chosen chunk. -/
theorem payload_outside_chunk :
    (custom_malloc 4 8 (initial_state 65536)).toOption.map Prod.fst = some 65792 ∧
      demo_state.heap_head = 65536 ∧ free_of demo_state 65536 = 0 ∧
      size_of demo_state 65536 = 8 ∧ next_of demo_state 65536 = 65560 ∧
      65792 ≠ 65536 + META_DATA_SIZE_BYTES ∧
      ¬ (65792 + size_of demo_state 65536 ≤ next_of demo_state 65536) := by
  refine ⟨?_, ?_, ?_, ?_, ?_, ?_, ?_⟩ <;> decide!

/-- C3 fails on the code. On the initial state, `custom_malloc(5000)` initialises the slab
as one free chunk of 4080 bytes with a null link, finds it neither an exact fit nor
large enough to split, and then reads `cur_chunk->next->free` through the null link:
with any fuel the run stops with an invalid access at address 0 instead of returning
`NULL`. -/
theorem malloc_faults_on_last_free_chunk (fuel : Nat) :
    custom_malloc (fuel + 1) 5000 (initial_state 65536) = .error (.invalid_access NULL) := by
  have hinit : fault_of (custom_memory_init (initial_state 65536)) = none := by decide!
  cases h : custom_memory_init (initial_state 65536) with
  | error e => rw [h] at hinit; simp [fault_of] at hinit
  | ok r =>
    obtain ⟨b, s1⟩ := r
    have hb : (state_after (custom_memory_init (initial_state 65536)) (initial_state 65536)).heap_head
        = 65536 := by decide!
    have hflag : ((custom_memory_init (initial_state 65536)).toOption.map Prod.fst) = some true := by
      decide!
    have hvis : fault_of (malloc_visit (CUSTOM_ALIGN 5000) 65536
        (state_after (custom_memory_init (initial_state 65536)) (initial_state 65536)))
        = some (.invalid_access NULL) := by decide!
    rw [h] at hb hflag hvis
    simp only [state_after] at hb hvis
    simp only [Except.toOption, Option.map, Option.some.injEq] at hflag
    subst hflag
    have hnull : (initial_state 65536).heap_head = NULL := rfl
    simp only [custom_malloc, if_pos hnull, h, malloc_loop, hb]
    rw [eq_error_of_fault_of _ _ hvis]
    simp

/-- C4 (capacity ceiling of `custom_sbrk`). After any sequence of `custom_sbrk` calls with
positive `intptr_t` amounts from the initial state, `heap_mem ≤ current_ptr ≤ end_ptr`
holds and `end_ptr` is unchanged; in such a state a call with
`current_ptr + amount > end_ptr` returns `(void *)-1` and leaves the state as it was, and
any other call returns the old `current_ptr` and advances it by exactly `amount`.  The
array is assumed to lie in the lower half of the address space, so that
`current_ptr + amount` does not wrap. -/
theorem sbrk_capacity_ceiling (base : Nat) (amounts : List Int)
    (hbase : base + HEAP_MEM_BYTES + 2 ^ 63 ≤ PTR_MOD)
    (hpos : ∀ a ∈ amounts, 0 < a ∧ a < 2 ^ 63) :
    (base ≤ (sbrk_calls amounts (initial_state base)).current_ptr ∧
      (sbrk_calls amounts (initial_state base)).current_ptr
        ≤ (sbrk_calls amounts (initial_state base)).end_ptr ∧
      (sbrk_calls amounts (initial_state base)).end_ptr = (initial_state base).end_ptr) ∧
    ∀ amount : Int, 0 < amount → amount < 2 ^ 63 →
      ((((sbrk_calls amounts (initial_state base)).end_ptr : Int)
          < ((sbrk_calls amounts (initial_state base)).current_ptr : Int) + amount →
        custom_sbrk amount (sbrk_calls amounts (initial_state base))
          = (SBRK_FAILED, sbrk_calls amounts (initial_state base))) ∧
      ((((sbrk_calls amounts (initial_state base)).current_ptr : Int) + amount
          ≤ ((sbrk_calls amounts (initial_state base)).end_ptr : Int)) →
        custom_sbrk amount (sbrk_calls amounts (initial_state base))
          = ((sbrk_calls amounts (initial_state base)).current_ptr,
              { sbrk_calls amounts (initial_state base) with
                current_ptr :=
                  (sbrk_calls amounts (initial_state base)).current_ptr + amount.toNat }))) := by
  have hend : (initial_state base).end_ptr + 2 ^ 63 ≤ PTR_MOD := hbase
  have hinv := sbrk_calls_inv amounts (initial_state base) hpos hend (le_refl _)
    (by show base ≤ base + SBRK_HEAP_SIZE * PTR_SIZE; omega)
  obtain ⟨h1, h2, h3, h4⟩ := hinv
  refine ⟨⟨by rw [h4] at h1; exact h1, h2, h3⟩, ?_⟩
  intro amount ha1 ha2
  have hend2 : (sbrk_calls amounts (initial_state base)).end_ptr + 2 ^ 63 ≤ PTR_MOD := by
    rw [h3]; exact hend
  exact ⟨fun h => custom_sbrk_fail amount _ ha1 ha2 hend2 h2 h,
    fun h => custom_sbrk_ok amount _ ha1 ha2 hend2 h2 h⟩

theorem sbrk_capacity_ceiling_witness :
    (65536 ≤ (sbrk_calls [4096, 40000, 100] (initial_state 65536)).current_ptr ∧
      (sbrk_calls [4096, 40000, 100] (initial_state 65536)).current_ptr
        ≤ (sbrk_calls [4096, 40000, 100] (initial_state 65536)).end_ptr ∧
      (sbrk_calls [4096, 40000, 100] (initial_state 65536)).end_ptr
        = (initial_state 65536).end_ptr) ∧
    ∀ amount : Int, 0 < amount → amount < 2 ^ 63 →
      ((((sbrk_calls [4096, 40000, 100] (initial_state 65536)).end_ptr : Int)
          < ((sbrk_calls [4096, 40000, 100] (initial_state 65536)).current_ptr : Int) + amount →
        custom_sbrk amount (sbrk_calls [4096, 40000, 100] (initial_state 65536))
          = (SBRK_FAILED, sbrk_calls [4096, 40000, 100] (initial_state 65536))) ∧
      ((((sbrk_calls [4096, 40000, 100] (initial_state 65536)).current_ptr : Int) + amount
          ≤ ((sbrk_calls [4096, 40000, 100] (initial_state 65536)).end_ptr : Int)) →
        custom_sbrk amount (sbrk_calls [4096, 40000, 100] (initial_state 65536))
          = ((sbrk_calls [4096, 40000, 100] (initial_state 65536)).current_ptr,
              { sbrk_calls [4096, 40000, 100] (initial_state 65536) with
                current_ptr :=
                  (sbrk_calls [4096, 40000, 100] (initial_state 65536)).current_ptr
                    + amount.toNat }))) :=
  sbrk_capacity_ceiling 65536 [4096, 40000, 100] (by decide) (by decide)

/-- C5 (round trip). Let `s` be a reachable state whose chunk list is `pre ++ c :: post`,
where the walk of `custom_malloc(size)` passes every chunk of `pre` without merging and
`c` is free and is an exact fit or large enough to split (so that the call succeeds
without performing any merge).  Then `custom_malloc(size)` returns the payload address
`p` of `c`; `custom_free(p)` finds the chunk, which is then free with a size equal to the
aligned request; and a second `custom_malloc(size)` returns the same `p`, by the
exact-fit rule, and restores the state the first call produced. -/
theorem round_trip (s : State) (pre post : List Nat) (c size fuel : Nat)
    (hreach : Reachable s) (hlist : IsChain s s.heap_head (pre ++ c :: post))
    (hpass : ∀ d ∈ pre, Passes s (CUSTOM_ALIGN size) d)
    (hsat : Satisfies s (CUSTOM_ALIGN size) c) (hfuel : pre.length < fuel) :
    ∃ t₁ t₂, custom_malloc fuel size s = .ok (payload c, t₁) ∧
      custom_free fuel (payload c) t₁ = .ok (true, t₂) ∧
      free_of t₂ c = 1 ∧ size_of t₂ c = CUSTOM_ALIGN size ∧
      custom_malloc fuel size t₂ = .ok (payload c, t₁) :=
  exact_reuse_wf s pre post c size fuel (reachable_wf s _ hreach hlist) hpass hsat hfuel

theorem round_trip_witness :
    ∃ t₁ t₂, custom_malloc 8 16 fit_state = .ok (payload 65560, t₁) ∧
      custom_free 8 (payload 65560) t₁ = .ok (true, t₂) ∧
      free_of t₂ 65560 = 1 ∧ size_of t₂ 65560 = CUSTOM_ALIGN 16 ∧
      custom_malloc 8 16 t₂ = .ok (payload 65560, t₁) :=
  round_trip fit_state [65536] [65592, 65624, 65648] 65560 16 8
    ⟨65536, 8, [.malloc 8, .malloc 16, .malloc 16, .malloc 8, .free 65816, .free 65848],
      by decide, by decide, by decide!, final_state_spec _ _ (by decide!)⟩
    (by decide!) (by decide!) (by decide!) (by decide)
/-- C6 fails on the code. In `demo_state` the first free chunk is at 65560 with size
4056 = 40 + 16 + 4000.  `custom_malloc(40)` splits it as the claim says: the chunk at
65560 becomes allocated with size 40 and link 65616 = 65560 + 16 + 40, and 65616 is a new
free chunk of size 4000 with the former link, the chunk before is unchanged.  But the
call returns 65816 = 65560 + 16 * 16 and not 65576 = 65560 + 16, the address of the 40
bytes between the header of the chunk and the header of the new chunk: the block it
hands out lies inside the span of the new free chunk. -/
theorem split_returns_scaled_address :
    IsChain demo_state demo_state.heap_head [65536, 65560] ∧
      chunk_fields demo_state [65536, 65560] = [(8, 0), (4056, 1)] ∧
      4056 = 40 + META_DATA_SIZE_BYTES + 4000 ∧
      (custom_malloc 2 40 demo_state).toOption.map
          (fun r => (r.1, chunk_fields r.2 [65536, 65560, 65616],
            next_of r.2 65560, next_of r.2 65616))
        = some (65816, [(8, 0), (40, 0), (4000, 1)], 65560 + META_DATA_SIZE_BYTES + 40,
            next_of demo_state 65560) ∧
      65816 ≠ 65560 + META_DATA_SIZE_BYTES ∧
      (65616 ≤ 65816 ∧ 65816 + 40 ≤ 65616 + META_DATA_SIZE_BYTES + 4000) := by
  refine ⟨?_, ?_, ?_, ?_, ?_, ?_⟩ <;> decide!
/-- The statement C7 fails, whatever the size of a merged chunk is taken to be. In
`absorbed_state` the list is a free chunk of size 8 at 65536, a free chunk of size 40 at
65560, an allocated chunk at 65616 and the free remainder of size 3976 at 65640.  For a
request of 16 bytes the chunk at 65536 is too small, and the chunks at 65560 and 65640
both satisfy the request, so 65560 is the first such chunk.  `custom_malloc(16)` merges
the chunk at 65536 with its free successor 65560; the merged chunk is not of size 16
(neither 8 + 40 nor 8 + 16 + 40 is), so the walk resumes after it and the call takes the
remainder at 65640: it returns 65896, which is neither 65560 + 16 nor the address the
code computes for 65560, the chunk at 65560 is no longer in the list, and the chunk
marked allocated is 65640. -/
theorem first_fit_counterexample :
    WellFormed absorbed_state [65536, 65560, 65616, 65640] ∧
      chunk_fields absorbed_state [65536, 65560, 65616, 65640]
        = [(8, 1), (40, 1), (8, 0), (3976, 1)] ∧
      ¬ Satisfies absorbed_state (CUSTOM_ALIGN 16) 65536 ∧
      Satisfies absorbed_state (CUSTOM_ALIGN 16) 65560 ∧
      Satisfies absorbed_state (CUSTOM_ALIGN 16) 65640 ∧
      8 + 40 ≠ CUSTOM_ALIGN 16 ∧ 8 + META_DATA_SIZE_BYTES + 40 ≠ CUSTOM_ALIGN 16 ∧
      (custom_malloc 8 16 absorbed_state).toOption.map
          (fun r => (r.1, decide (IsChain r.2 r.2.heap_head [65536, 65616, 65640, 65672]),
            chunk_fields r.2 [65536, 65616, 65640, 65672]))
        = some (65896, true, [(48, 1), (8, 0), (16, 0), (3944, 1)]) ∧
      65896 ≠ 65560 + META_DATA_SIZE_BYTES ∧ 65896 ≠ payload 65560 := by
  refine ⟨⟨?_, ?_, ?_⟩, ?_, ?_, ?_, ?_, ?_, ?_, ?_, ?_, ?_⟩ <;> decide!

/-- C7, amended (first fit). Let the chunk list of a well-formed state be
`pre ++ c :: post`, where `c` is the first chunk that satisfies the request (it is free
and its size equals the aligned size or is at least the aligned size plus
`META_DATA_SIZE_BYTES`), and suppose the walk arrives at `c`: no merge of a free chunk
of `pre` with its free successor absorbs `c` or gives a chunk of exactly the aligned
size, whether the merged size is counted as the sum of the two sizes or as that sum plus
`META_DATA_SIZE_BYTES`.  Then `custom_malloc` chooses `c`: the call returns an address
`p` and a state in which `c` is allocated with the aligned size and every other chunk of
the list has the flag it had, and `p` is the address by which `custom_free` finds `c`:
releasing `p` marks `c` free again and no other chunk. -/
theorem first_fit (s : State) (pre post : List Nat) (c size fuel : Nat)
    (hwf : WellFormed s (pre ++ c :: post))
    (hsat : Satisfies s (CUSTOM_ALIGN size) c)
    (hfirst : ∀ d ∈ pre, ¬ Satisfies s (CUSTOM_ALIGN size) d)
    (hwalk : WalkArrives s (CUSTOM_ALIGN size) c pre)
    (hfuel : pre.length < fuel) :
    ∃ p t u, custom_malloc fuel size s = .ok (p, t) ∧
      free_of t c = 0 ∧ size_of t c = CUSTOM_ALIGN size ∧
      (∀ d ∈ pre ++ post, free_of t d = free_of s d) ∧
      custom_free fuel p t = .ok (true, u) ∧ free_of u c = 1 ∧
      (∀ d ∈ pre ++ post, free_of u d = free_of s d) := by
  obtain ⟨hpre, hpost, hend⟩ := hwf.around
  have hbd := hwf.bound
  have hvc := (valid_chunk_iff s c).1 (hwf.chunk_valid c (by simp))
  have hreq : CUSTOM_ALIGN size < 2 ^ 31 := by
    have := hsat.2
    simp only [META_DATA_SIZE_BYTES] at this
    omega
  obtain ⟨k, kept, t, hk, hkl, hrun, hwt, hM, hG⟩ :=
    malloc_loop_arrives (CUSTOM_ALIGN size) c post hreq pre.length pre [] s s.heap_head
      (le_refl _) hwf rfl hfirst hwalk
  have hwt' : WellFormed t (kept ++ c :: post) := hwt
  have hMc : ∀ x, c ≤ x → t.mem x = s.mem x := by
    intro x hx
    refine hM x (fun d hd => Or.inr ?_)
    have := hpre d hd
    omega
  have hfc : free_of t c = free_of s c := by simp only [free_of, load8, hMc c (le_refl _)]
  have hsc : size_of t c = size_of s c :=
    loadLE_congr _ _ _ _ (fun x h1 _ => hMc x (by omega))
  have hsat' : Satisfies t (CUSTOM_ALIGN size) c := by
    simp only [Satisfies] at hsat ⊢
    rw [hfc, hsc]
    exact hsat
  obtain ⟨t1, post1, hvis, hw1, g1, g2, g3, g4⟩ :=
    malloc_visit_takes t kept post c (CUSTOM_ALIGN size) hreq hwt' hsat'
  have hc0 : c ≠ NULL := by
    obtain ⟨b, _, hb⟩ := (IsChain.append_iff s (c :: post) pre s.heap_head).1 hwf.chain
    exact hb.2.1
  obtain ⟨f, rfl⟩ : ∃ f, fuel = k + (f + 1) := ⟨fuel - k - 1, by omega⟩
  have hcall : custom_malloc (k + (f + 1)) size s = .ok (payload c, t1) := by
    rw [custom_malloc_eq_loop s _ size (IsChain.head_ne_null hwf.chain), hrun (f + 1)]
    exact malloc_loop_step_some _ f c (payload c) t t1 hc0 hvis
  have hrel := custom_free_found t1 kept post1 c (k + (f + 1)) hw1 (by omega)
  have hne : ∀ d ∈ pre ++ post, d ≠ c := by
    intro d hd
    rcases List.mem_append.1 hd with h | h
    · have := hpre d h
      omega
    · have := hpost d h
      omega
  have hflag : ∀ d ∈ pre ++ post, free_of t1 d = free_of s d := by
    intro d hd
    rcases List.mem_append.1 hd with h | h
    · have h1 := hpre d h
      have h2 : free_of t1 d = free_of t d := by
        simp only [free_of, load8, g3 d (by omega)]
      rw [h2, hG d h]
    · have h1 := hpost d h
      rw [g4 d h]
      simp only [free_of, load8, hMc d (by omega)]
  refine ⟨payload c, t1, { t1 with mem := store8 t1.mem c 1 }, hcall, g1, g2, hflag, hrel,
    ?_, ?_⟩
  · simp only [free_of, load8, store8_apply, if_pos]
  · intro d hd
    rw [← hflag d hd]
    simp only [free_of, load8, store8_apply, if_neg (hne d hd)]

theorem first_fit_witness :
    WellFormed late_fit_state ([65536, 65560, 65584] ++ 65608 :: [65728, 65752]) ∧
      Satisfies late_fit_state (CUSTOM_ALIGN 104) 65608 ∧
      Satisfies late_fit_state (CUSTOM_ALIGN 104) 65752 ∧
      (custom_malloc 8 104 late_fit_state).toOption.map Prod.fst = some 65864 ∧
      ∃ p t u, custom_malloc 8 104 late_fit_state = .ok (p, t) ∧
        free_of t 65608 = 0 ∧ size_of t 65608 = CUSTOM_ALIGN 104 ∧
        (∀ d ∈ [65536, 65560, 65584] ++ [65728, 65752],
          free_of t d = free_of late_fit_state d) ∧
        custom_free 8 p t = .ok (true, u) ∧ free_of u 65608 = 1 ∧
        (∀ d ∈ [65536, 65560, 65584] ++ [65728, 65752],
          free_of u d = free_of late_fit_state d) :=
  ⟨⟨by decide!, by decide!, by decide!⟩, by decide!, by decide!, by decide!,
    first_fit late_fit_state [65536, 65560, 65584] [65728, 65752] 65608 104 8
      ⟨by decide!, by decide!, by decide!⟩ (by decide!) (by decide!) (by decide!)
      (by decide)⟩
/-- C8 (release of an unknown address). In a state whose chunk list is `l` (the empty
list when `heap_head` is still `NULL`), `custom_free` called with a pointer that is the
payload address of no chunk of `l` returns after printing "Chunk not found" and leaves
the whole state, globals and memory, exactly as it was. -/
theorem release_unknown_address (s : State) (l : List Nat) (ptr fuel : Nat)
    (hchain : IsChain s s.heap_head l) (hno : ∀ c ∈ l, ptr ≠ payload c)
    (hfuel : l.length < fuel) :
    custom_free fuel ptr s = .ok (false, s) :=
  free_loop_not_found s ptr l s.heap_head fuel hchain hno hfuel

theorem release_unknown_address_witness :
    custom_free 3 65536 demo_state = .ok (false, demo_state) :=
  release_unknown_address demo_state [65536, 65560] 65536 3 (by decide!) (by decide!)
    (by decide)

/-- C9 (release frame). In a well-formed state whose chunk list is `pre ++ c :: post`,
`custom_free` called with the payload address of `c` prints "Found" and yields a state
whose globals are unchanged and whose memory differs from the old one in the single
byte `c->free`, which now holds 1: the chunk list is still `pre ++ c :: post`, the size
and the link of `c` and the flag, size and link of every other chunk are unchanged. -/
theorem release_frame (s : State) (pre post : List Nat) (c fuel : Nat)
    (hwf : WellFormed s (pre ++ c :: post)) (hfuel : pre.length < fuel) :
    ∃ t, custom_free fuel (payload c) s = .ok (true, t) ∧
      t.heap_head = s.heap_head ∧ t.current_ptr = s.current_ptr ∧
      t.end_ptr = s.end_ptr ∧ t.heap_mem = s.heap_mem ∧
      (∀ x, x ≠ c → t.mem x = s.mem x) ∧
      WellFormed t (pre ++ c :: post) ∧
      free_of t c = 1 ∧ size_of t c = size_of s c ∧ next_of t c = next_of s c ∧
      ∀ d ∈ pre ++ post,
        free_of t d = free_of s d ∧ size_of t d = size_of s d ∧ next_of t d = next_of s d := by
  obtain ⟨w, f1, f2, f3, f4⟩ := flag_state_wf s pre post c 1 hwf
  exact ⟨_, custom_free_found s pre post c fuel hwf hfuel, rfl, rfl, rfl, rfl,
    fun x hx => by simp [store8, hx], w, f1, f2, f3, f4⟩

theorem release_frame_witness :
    ∃ t, custom_free 1 (payload 65536) demo_state = .ok (true, t) ∧
      t.heap_head = demo_state.heap_head ∧ t.current_ptr = demo_state.current_ptr ∧
      t.end_ptr = demo_state.end_ptr ∧ t.heap_mem = demo_state.heap_mem ∧
      (∀ x, x ≠ 65536 → t.mem x = demo_state.mem x) ∧
      WellFormed t ([] ++ 65536 :: [65560]) ∧
      free_of t 65536 = 1 ∧ size_of t 65536 = size_of demo_state 65536 ∧
      next_of t 65536 = next_of demo_state 65536 ∧
      ∀ d ∈ [] ++ [65560],
        free_of t d = free_of demo_state d ∧ size_of t d = size_of demo_state d ∧
          next_of t d = next_of demo_state d :=
  release_frame demo_state [] [65560] 65536 1 ⟨by decide!, by decide!, by decide!⟩
    (by decide)
/-- C10 fails on the code. When the reservoir cannot grant the slab, the first
`custom_malloc(8)` returns `NULL` but leaves `heap_head = (void *)-1`, which is not
`NULL`; the next `custom_malloc`, `custom_free` and `display` therefore skip the
initialisation and dereference `(void *)-1` as if it were the first chunk. -/
theorem init_failure_not_sticky :
    (custom_malloc 4 8 exhausted_state).toOption.map Prod.fst = some NULL ∧
      stuck_state.heap_head = SBRK_FAILED ∧
      fault_of (custom_malloc 4 8 stuck_state) = some (.invalid_access SBRK_FAILED) ∧
      fault_of (custom_free 4 65792 stuck_state) = some (.invalid_access SBRK_FAILED) ∧
      fault_of (display 4 stuck_state) = some (.invalid_access SBRK_FAILED) := by
  refine ⟨?_, ?_, ?_, ?_, ?_⟩ <;> decide!

/-- C11 fails on the code. In `walk_state_release`, the state of `main.c` before stage
4, the walk of `custom_malloc(16)` starts at the free chunk at 65536 of size 8, which is
neither an exact fit nor large enough to split, and whose successor 65560 is free with
size 8.  The merged chunk spans 8 + 16 + 8 = 32 bytes, which differs from the aligned
size 16, so by the claim the call must not return this chunk and must leave it free.
The code adds only the two size fields, finds 8 + 8 = 16 equal to the request, and
returns 65792, the address it computes for the chunk at 65536, which is allocated
afterwards, with size 16 and the former link of 65560. -/
theorem merged_chunk_returned :
    IsChain walk_state_release walk_state_release.heap_head
        [65536, 65560, 65584, 65616, 65664] ∧
      chunk_fields walk_state_release [65536, 65560] = [(8, 1), (8, 1)] ∧
      CUSTOM_ALIGN 16 = 16 ∧ ¬ Satisfies walk_state_release 16 65536 ∧
      8 + META_DATA_SIZE_BYTES + 8 ≠ 16 ∧
      (custom_malloc 8 16 walk_state_release).toOption.map
          (fun r => (r.1, free_of r.2 65536, size_of r.2 65536, next_of r.2 65536))
        = some (65792, 0, 16, 65584) ∧
      payload 65536 = 65792 := by
  refine ⟨?_, ?_, ?_, ?_, ?_, ?_, ?_⟩ <;> decide!
/-- C12 (walkthrough of `main.c`). From the initial state the calls `custom_malloc(4)`,
`(8)`, `(16)`, `(32)` return four distinct non-null pointers and leave the list
65536, 65560, 65584, 65616, 65664: four allocated chunks of sizes 8, 8, 16, 32 whose
spans tile the slab, followed by the free remainder of 3952 bytes.  Releasing the first
two pointers finds both chunks and leaves the same five chunks with the first two free.
The following `custom_malloc(16)` returns 65792, the payload address of the first
released chunk, and not the payload address of the trailing remainder. -/
theorem main_walkthrough :
    (run_trace 8 (walk_calls_alloc ++ walk_calls_release ++ [.malloc 16])
        (initial_state 65536)).toOption.map Prod.fst
      = some [65792, 65816, 65840, 65872, 1, 1, 65792] ∧
    IsChain walk_state_alloc walk_state_alloc.heap_head [65536, 65560, 65584, 65616, 65664] ∧
    chunk_fields walk_state_alloc [65536, 65560, 65584, 65616, 65664]
      = [(8, 0), (8, 0), (16, 0), (32, 0), (3952, 1)] ∧
    Tiled walk_state_alloc [65536, 65560, 65584, 65616, 65664] ∧
    Spaced walk_state_alloc [65536, 65560, 65584, 65616, 65664] ∧
    IsChain walk_state_release walk_state_release.heap_head
      [65536, 65560, 65584, 65616, 65664] ∧
    chunk_fields walk_state_release [65536, 65560, 65584, 65616, 65664]
      = [(8, 1), (8, 1), (16, 0), (32, 0), (3952, 1)] ∧
    (custom_malloc 8 16 walk_state_release).toOption.map Prod.fst = some (payload 65536) ∧
    payload 65536 ≠ payload 65664 := by
  refine ⟨?_, ?_, ?_, ?_, ?_, ?_, ?_, ?_, ?_⟩ <;> decide!

/-- C13 fails on the code. The array `heap_mem` has `SBRK_HEAP_SIZE` elements of type
`char *` and `end_ptr = heap_mem + SBRK_HEAP_SIZE` is computed on `char **`, so
`end_ptr - current_ptr` is 32768 bytes at program start, not 4096: after
`custom_sbrk(4096)` the call `custom_sbrk(1)` does not report exhaustion but returns
`heap_mem + 4096`. -/
theorem capacity_is_not_4096 :
    (initial_state 65536).end_ptr - (initial_state 65536).current_ptr = 32768 ∧
      (custom_sbrk 4096 (initial_state 65536)).1 = 65536 ∧
      (custom_sbrk 1 (custom_sbrk 4096 (initial_state 65536)).2).1 = 65536 + 4096 ∧
      (custom_sbrk 1 (custom_sbrk 4096 (initial_state 65536)).2).1 ≠ SBRK_FAILED := by
  refine ⟨?_, ?_, ?_, ?_⟩ <;> decide!

/-- C14 fails on the code. In `merge_before_state` the free chunk at 65536 (size 8) is
followed by the free chunk at 65560 (size 8, link 65584).  `custom_malloc(24)` merges
them and then returns the chunk at 65608: afterwards the chunk at 65536 is free, its
link is 65584, the former link of 65560, but its size is 8 + 8 = 16 and not
8 + 16 + 8 = 32. -/
theorem merge_size_omits_header :
    IsChain merge_before_state merge_before_state.heap_head [65536, 65560, 65584, 65608] ∧
      chunk_fields merge_before_state [65536, 65560] = [(8, 1), (8, 1)] ∧
      next_of merge_before_state 65560 = 65584 ∧
      (custom_malloc 8 24 merge_before_state).toOption.map
          (fun r => (r.1, free_of r.2 65536, size_of r.2 65536, next_of r.2 65536))
        = some (payload 65608, 1, 8 + 8, 65584) ∧
      8 + 8 ≠ 8 + META_DATA_SIZE_BYTES + 8 := by
  refine ⟨?_, ?_, ?_, ?_, ?_⟩ <;> decide!

/-- C15 fails on the code. The aligned size is kept in a `uint`: for the request
4294967296 = 2 ^ 32 the macro gives 2 ^ 32 and the conversion to `uint` gives 0, which
is below the request; `custom_malloc(4294967296)` then returns a pointer to a chunk of
size 0. -/
theorem aligned_size_truncated :
    CUSTOM_ALIGN 4294967296 = 0 ∧ ¬ (4294967296 ≤ CUSTOM_ALIGN 4294967296) ∧
      (custom_malloc 4 4294967296 (initial_state 65536)).toOption.map Prod.fst
        = some (payload 65536) ∧
      chunk_fields zero_state [65536] = [(0, 0)] := by
  refine ⟨?_, ?_, ?_, ?_⟩ <;> decide!

/-- C16 (double free). In a well-formed state whose chunk list is `pre ++ c :: post`,
`custom_free` called with the payload address of `c` finds the chunk, and a second
call with the same pointer on the resulting state finds it again and returns that same
state.  When `c` is already free (its flag byte holds 1), the first call already leaves
the whole state, globals and memory, unchanged. -/
theorem double_free_noop (s : State) (pre post : List Nat) (c fuel : Nat)
    (hwf : WellFormed s (pre ++ c :: post)) (hfuel : pre.length < fuel) :
    ∃ t, custom_free fuel (payload c) s = .ok (true, t) ∧
      custom_free fuel (payload c) t = .ok (true, t) ∧
      (free_of s c = 1 → s.mem c < 256 → t = s) := by
  obtain ⟨w, _⟩ := flag_state_wf s pre post c 1 hwf
  refine ⟨{ s with mem := store8 s.mem c 1 }, custom_free_found s pre post c fuel hwf hfuel,
    ?_, ?_⟩
  · rw [custom_free_found { s with mem := store8 s.mem c 1 } pre post c fuel w hfuel]
    simp only [store8_idem]
  · intro hf hb
    have h1 : s.mem c = 1 % 256 := by
      simp only [free_of, load8] at hf
      omega
    simp only [store8_same_value s.mem c 1 h1]

theorem double_free_noop_witness :
    ∃ t, custom_free 2 (payload 65560) fit_state = .ok (true, t) ∧
      custom_free 2 (payload 65560) t = .ok (true, t) ∧
      (free_of fit_state 65560 = 1 → fit_state.mem 65560 < 256 → t = fit_state) :=
  double_free_noop fit_state [65536] [65592, 65624, 65648] 65560 2
    ⟨by decide!, by decide!, by decide!⟩ (by decide)

/-- C17 fails on the code. On the initial state `custom_malloc(4294967280)` returns a
non-null pointer and leaves the first chunk, at 65536, linked to itself: no finite list
of chunks starts at `heap_head`, the address does not increase along the link, and
`display`, like every later `custom_malloc`, walks the list without ever reaching its
end, whatever the fuel. -/
theorem address_order_broken :
    (custom_malloc 4 4294967280 (initial_state 65536)).toOption.map Prod.fst
        = some (payload 65536) ∧
      loop_state.heap_head = 65536 ∧ next_of loop_state 65536 = 65536 ∧
      (∀ l : List Nat, ¬ IsChain loop_state loop_state.heap_head l) ∧
      (∀ fuel, display fuel loop_state = .error .out_of_fuel) ∧
      (∀ fuel size, custom_malloc fuel size loop_state = .error .out_of_fuel) := by
  have h1 : loop_state.heap_head = 65536 := by decide!
  have h2 : next_of loop_state 65536 = 65536 := by decide!
  have h3 : valid_chunk loop_state 65536 = true := by decide!
  have h4 : free_of loop_state 65536 ≠ 1 := by decide!
  have h5 : (65536 : Nat) ≠ NULL := by decide
  refine ⟨by decide!, h1, h2, ?_, ?_, ?_⟩
  · rw [h1]; exact no_chain_of_self_link loop_state 65536 h5 h2
  · intro fuel
    simp only [display, h1]
    exact display_loop_self_link loop_state 65536 h5 h3 h2 fuel
  · intro fuel size
    have hh : loop_state.heap_head ≠ NULL := by rw [h1]; exact h5
    rw [custom_malloc_eq_loop loop_state fuel size hh, h1]
    exact malloc_loop_self_link loop_state 65536 _ h5 h3 h2 h4 fuel

/-- The statement C18 fails: for `demo_state`, `display` prints the two lines
(65792, 8, 0, 65560) and (65816, 4056, 1, 0); the successor printed on the first line is
the header address 65560, not the address 65816 printed on the second line. -/
theorem display_counterexample :
    (display 3 demo_state).toOption
        = some [{ address := 65792, size := 8, free := 0, next := 65560 },
                { address := 65816, size := 4056, free := 1, next := 0 }] ∧
      ¬ SuccessorsMatch [{ address := 65792, size := 8, free := 0, next := 65560 },
                { address := 65816, size := 4056, free := 1, next := 0 }] := by
  refine ⟨?_, ?_⟩ <;> decide!

/-- C18, amended (`display`). For a state whose chunk list is `l`, `display` prints one
line per chunk of `l`, in list order, with the payload address, the size, the flag and
the raw link of the chunk.  The successor printed on a line is therefore the header
address of the chunk of the following line, whose printed address is the payload
address of that header, and the last line prints the null pointer.  The function
returns nothing but the lines: it does not write to the state. -/
theorem display_consistent (s : State) (l : List Nat) (fuel : Nat)
    (hl : IsChain s s.heap_head l) (hfuel : l.length < fuel) :
    display fuel s = .ok (display_lines s l) ∧ LinksMatch (display_lines s l) :=
  ⟨display_loop_chain s l s.heap_head fuel hl hfuel, display_lines_links s l s.heap_head hl⟩

theorem display_consistent_witness :
    display 3 demo_state = .ok (display_lines demo_state [65536, 65560]) ∧
      LinksMatch (display_lines demo_state [65536, 65560]) :=
  display_consistent demo_state [65536, 65560] 3 (by decide!) (by decide)

/-- C19 fails on the code. On the initial state `custom_malloc(4294967304)` (2 ^ 32 + 8)
is granted with a chunk of size 8, and `custom_malloc(4294967280)` (2 ^ 32 - 16, which
becomes -16 as an `int`) is granted with a chunk whose size field is 4294967280 and whose
span ends far beyond the 4096 bytes of the slab. -/
theorem wrapped_request_granted :
    (custom_malloc 4 4294967304 (initial_state 65536)).toOption.map Prod.fst
        = some (payload 65536) ∧
      chunk_fields truncated_state [65536] = [(8, 0)] ∧ ¬ (4294967304 ≤ 8) ∧
      (custom_malloc 4 4294967280 (initial_state 65536)).toOption.map Prod.fst
        = some (payload 65536) ∧
      chunk_fields loop_state [65536] = [(4294967280, 0)] ∧
      ¬ (65536 + META_DATA_SIZE_BYTES + size_of loop_state 65536 ≤ 65536 + SBRK_HEAP_SIZE) ∧
      ¬ (4294967280 ≤ SBRK_HEAP_SIZE) := by
  refine ⟨?_, ?_, ?_, ?_, ?_, ?_, ?_⟩ <;> decide!

/-- C20 fails on the code. In `held_state` the list is 65536 (free), 65560 (allocated,
size 8), 65584 (free).  `custom_malloc(4294967280)` returns the payload address of
65536 and links that chunk to itself, so the allocated chunk at 65560 is no longer in
the list: `custom_free` called with its payload address walks the list without ever
finding it, whatever the fuel. -/
theorem allocated_chunk_lost :
    IsChain held_state held_state.heap_head [65536, 65560, 65584] ∧
      chunk_fields held_state [65536, 65560, 65584] = [(8, 1), (8, 0), (4032, 1)] ∧
      (custom_malloc 4 4294967280 held_state).toOption.map Prod.fst = some (payload 65536) ∧
      lost_state.heap_head = 65536 ∧ next_of lost_state 65536 = 65536 ∧
      (∀ l : List Nat, ¬ IsChain lost_state lost_state.heap_head l) ∧
      (∀ fuel, custom_free fuel (payload 65560) lost_state = .error .out_of_fuel) := by
  have h1 : lost_state.heap_head = 65536 := by decide!
  have h2 : next_of lost_state 65536 = 65536 := by decide!
  have h3 : valid_chunk lost_state 65536 = true := by decide!
  have h5 : (65536 : Nat) ≠ NULL := by decide
  refine ⟨by decide!, by decide!, by decide!, h1, h2, ?_, ?_⟩
  · rw [h1]; exact no_chain_of_self_link lost_state 65536 h5 h2
  · intro fuel
    simp only [custom_free, h1]
    exact free_loop_self_link lost_state 65536 _ h5 h3 h2 (by decide!) fuel

end DynHeap
